import Mathlib

/-!
# A verification development for `contiguous.c`

`contiguous.c` is a fixed-size memory-pool allocator.  One block obtained from
`malloc` starts with a `struct contiguous` header; every live allocation is a
`struct cnode` header followed by its payload, and the live headers form a
doubly linked list kept in address order.

The embedding is shallow and byte-level.  Memory is a function from addresses to
bytes, the C structures are read and written through 64-bit little-endian loads
and stores at the field offsets of the LP64 data model (`size_t` and pointers
are 8 bytes), `NULL` is address `0`, and `size_t` arithmetic is taken modulo
`2 ^ 64`.  The two `while` loops of `cmalloc` follow `next` pointers, so they
take a fuel argument and report `Fault.out_of_fuel` when it runs out.
-/

namespace Contiguous

/-! ## Memory -/

/-- Byte-addressed memory. -/
abbrev Mem := Nat → Nat

/-- Read one byte. -/
def load8 (m : Mem) (a : Nat) : Nat := m a % 256

/-- Write one byte (`*((char *)p) = v`). -/
def store8 (m : Mem) (a v : Nat) : Mem := fun x => if x = a then v % 256 else m x

/-- Read a little-endian 64-bit word (a `size_t` or a pointer field). -/
def load64 (m : Mem) (a : Nat) : Nat :=
  load8 m a + 256 * (load8 m (a + 1) + 256 * (load8 m (a + 2) + 256 * (load8 m (a + 3)
    + 256 * (load8 m (a + 4) + 256 * (load8 m (a + 5) + 256 * (load8 m (a + 6)
    + 256 * load8 m (a + 7)))))))

/-- Write a little-endian 64-bit word; the value is truncated to 64 bits. -/
def store64 (m : Mem) (a v : Nat) : Mem :=
  fun x => if a ≤ x ∧ x < a + 8 then v / 256 ^ (x - a) % 256 else m x

/-- Addition of `size_t` values and of a pointer and an offset, modulo `2 ^ 64`. -/
def add64 (a b : Nat) : Nat := (a + b) % 2 ^ 64

/-- Subtraction of `size_t` values, and a pointer difference converted to
`size_t`: the result wraps modulo `2 ^ 64`. -/
def sub64 (a b : Nat) : Nat := (a % 2 ^ 64 + 2 ^ 64 - b % 2 ^ 64) % 2 ^ 64

/-- Conversion of a C `int` to `size_t`. -/
def int_to_size_t (i : Int) : Nat := (i % 2 ^ 64).toNat

/-! ## The two structures (lines 7-20) -/

/-- The value of `sizeof(struct contiguous)`: two 8-byte fields. -/
def SIZEOF_CONTIGUOUS : Nat := 16

/-- The value of `sizeof(struct cnode)`: four 8-byte fields. -/
def SIZEOF_CNODE : Nat := 32

/-- Field `block->first` (offset 0). -/
def get_first (m : Mem) (block : Nat) : Nat := load64 m block

/-- Field `block->upper_limit` (offset 8). -/
def get_upper_limit (m : Mem) (block : Nat) : Nat := load64 m (block + 8)

/-- Field `node->nsize` (offset 0). -/
def get_nsize (m : Mem) (node : Nat) : Nat := load64 m node

/-- Field `node->prev` (offset 8). -/
def get_prev (m : Mem) (node : Nat) : Nat := load64 m (node + 8)

/-- Field `node->next` (offset 16). -/
def get_next (m : Mem) (node : Nat) : Nat := load64 m (node + 16)

/-- Field `node->block` (offset 24). -/
def get_block (m : Mem) (node : Nat) : Nat := load64 m (node + 24)

/-- Assignment `block->first = v`. -/
def set_first (m : Mem) (block v : Nat) : Mem := store64 m block v

/-- Assignment `block->upper_limit = v`. -/
def set_upper_limit (m : Mem) (block v : Nat) : Mem := store64 m (block + 8) v

/-- Assignment `node->nsize = v`. -/
def set_nsize (m : Mem) (node v : Nat) : Mem := store64 m node v

/-- Assignment `node->prev = v`. -/
def set_prev (m : Mem) (node v : Nat) : Mem := store64 m (node + 8) v

/-- Assignment `node->next = v`. -/
def set_next (m : Mem) (node v : Nat) : Mem := store64 m (node + 16) v

/-- Assignment `node->block = v`. -/
def set_block (m : Mem) (node v : Nat) : Mem := store64 m (node + 24) v

/-- Ways in which a call does not return normally: an `assert` fails, a loop
is still running when the fuel is used up, or (for call sequences only) the
caller breaks the contract of `cfree` or passes a size that is not an `int`. -/
inductive Fault where
  | assert_failed
  | out_of_fuel
  | misuse
  deriving DecidableEq, Repr

/-! ## `make_contiguous` (lines 128-142) -/

/-- The loop `for (i = ...; i < size; i++) *((char *)block + i) = '$'`,
started at index `i` with `k` iterations left. -/
def make_contiguous_fill (block : Nat) : Mem → Nat → Nat → Mem
  | m, _, 0 => m
  | m, i, k + 1 => make_contiguous_fill block (store8 m (add64 block i) 0x24) (i + 1) k

/-- The function `make_contiguous(size)`.  `malloc_result` is the address
returned by `malloc(size)`, `0` when it fails.  The result is the new memory and
the returned pointer.  The fill loop runs for `i = sizeof(struct contiguous)`
up to `size - 1`, that is `size - sizeof(struct contiguous)` times. -/
def make_contiguous (m : Mem) (malloc_result size : Nat) : Mem × Nat :=
  let block := malloc_result
  if block = 0 then (m, 0)
  else
    let m1 := set_first m block 0
    let m2 := set_upper_limit m1 block (add64 block size)
    (make_contiguous_fill block m2 SIZEOF_CONTIGUOUS (size - SIZEOF_CONTIGUOUS), block)

/-! ## `cfree` (lines 158-171) -/

/-- The function `cfree(p)`. -/
def cfree (m : Mem) (p : Nat) : Mem :=
  if p = 0 then m
  else
    let node := sub64 p SIZEOF_CNODE
    let m1 :=
      if get_prev m node ≠ 0 then set_next m (get_prev m node) (get_next m node)
      else set_first m (get_block m node) (get_next m node)
    if get_next m1 node ≠ 0 then set_prev m1 (get_next m1 node) (get_prev m1 node)
    else m1

/-! ## `cmalloc` (lines 176-236) -/

/-- Lines 183-192: the candidate gap between the block header and the first
node (or `upper_limit`); the result is the initial value of `gap_loco`. -/
def cmalloc_gap0 (m : Mem) (block total : Nat) : Nat :=
  let curr := get_first m block
  let mem_start := add64 block SIZEOF_CONTIGUOUS
  let space :=
    if curr ≠ 0 then sub64 curr mem_start
    else sub64 (get_upper_limit m block) mem_start
  if space ≥ total then mem_start else 0

/-- Lines 194-204: the loop `while (curr)` over the chunk list; the result is
the final value of `gap_loco`.  One unit of fuel is used per iteration. -/
def cmalloc_scan (m : Mem) (block total : Nat) : Nat → Nat → Nat → Except Fault Nat
  | fuel, curr, gap_loco =>
    if curr = 0 then .ok gap_loco
    else
      match fuel with
      | 0 => .error .out_of_fuel
      | fuel + 1 =>
        let chunk_end := add64 (add64 curr SIZEOF_CNODE) (get_nsize m curr)
        let space :=
          if get_next m curr ≠ 0 then sub64 (get_next m curr) chunk_end
          else sub64 (get_upper_limit m block) chunk_end
        let gap_loco1 :=
          if space ≥ total ∧ (gap_loco = 0 ∨ chunk_end < gap_loco) then chunk_end
          else gap_loco
        cmalloc_scan m block total fuel (get_next m curr) gap_loco1

/-- Lines 222-224: the loop `while (after->next && after->next < new)`; the
result is the final value of `after`.  One unit of fuel is used per iteration. -/
def cmalloc_find_after (m : Mem) (new : Nat) : Nat → Nat → Except Fault Nat
  | 0, after =>
    if get_next m after ≠ 0 ∧ get_next m after < new then .error .out_of_fuel
    else .ok after
  | fuel + 1, after =>
    if get_next m after ≠ 0 ∧ get_next m after < new then
      cmalloc_find_after m new fuel (get_next m after)
    else .ok after

/-- Lines 208-235: build the node at `gap_loco`, link it into the list and
return the payload pointer. -/
def cmalloc_insert (fuel : Nat) (m : Mem) (block : Nat) (size : Int) (gap_loco : Nat) :
    Except Fault (Mem × Nat) :=
  let new := gap_loco
  let m1 := set_nsize m new (int_to_size_t size)
  let m2 := set_block m1 new block
  let m3 := set_prev m2 new 0
  let m4 := set_next m3 new 0
  if get_first m4 block = 0 ∨ new < get_first m4 block then
    let m5 := set_next m4 new (get_first m4 block)
    let m6 := if get_first m5 block ≠ 0 then set_prev m5 (get_first m5 block) new else m5
    let m7 := set_first m6 block new
    .ok (m7, add64 new SIZEOF_CNODE)
  else
    match cmalloc_find_after m4 new fuel (get_first m4 block) with
    | .error e => .error e
    | .ok after =>
      let m5 := set_prev m4 new after
      let m6 := set_next m5 new (get_next m5 after)
      let m7 := if get_next m6 after ≠ 0 then set_prev m6 (get_next m6 after) new else m6
      let m8 := set_next m7 after new
      .ok (m8, add64 new SIZEOF_CNODE)

/-- The function `cmalloc(block, size)`.  The result is the new memory and the
returned pointer (`0` for `NULL`). -/
def cmalloc (fuel : Nat) (m : Mem) (block : Nat) (size : Int) : Except Fault (Mem × Nat) :=
  if block = 0 then .error .assert_failed
  else if ¬ size ≥ 0 then .error .assert_failed
  else
    let total := add64 SIZEOF_CNODE (int_to_size_t size)
    if ¬ total > 0 then .error .assert_failed
    else
      match cmalloc_scan m block total fuel (get_first m block) (cmalloc_gap0 m block total) with
      | .error e => .error e
      | .ok gap_loco =>
        if gap_loco = 0 then .ok (m, 0)
        else cmalloc_insert fuel m block size gap_loco

/-- The traversal `node = node->next` of `print_node` (lines 69-89), without the
printing: the start address and `nsize` of every node reached from `node`. -/
def traverse (m : Mem) : Nat → Nat → Except Fault (List (Nat × Nat))
  | fuel, node =>
    if node = 0 then .ok []
    else
      match fuel with
      | 0 => .error .out_of_fuel
      | fuel + 1 =>
        match traverse m fuel (get_next m node) with
        | .error e => .error e
        | .ok rest => .ok ((node, get_nsize m node) :: rest)

/-! ## Call sequences -/

/-- One call made by a client of the allocator. -/
inductive Op where
  | malloc (size : Int)
  | free (p : Nat)
  deriving DecidableEq, Repr

/-- Memory together with the pointers that `cmalloc` has returned and that
have not been passed to `cfree` since. -/
structure State where
  mem : Mem
  live : List Nat

/-- One call on the block at `block`.  A `cmalloc` call is given a non-negative
size in the range of a C `int`; a `cfree` call is given `NULL` or a live
pointer.  Any other call is outside the contract and reported as
`Fault.misuse`. -/
def step (fuel block : Nat) (s : State) : Op → Except Fault State
  | .malloc size =>
    if size < 0 ∨ 2 ^ 31 ≤ size then .error .misuse
    else
      match cmalloc fuel s.mem block size with
      | .error e => .error e
      | .ok (m, p) => .ok ⟨m, if p = 0 then s.live else p :: s.live⟩
  | .free p =>
    if p = 0 then .ok ⟨cfree s.mem p, s.live⟩
    else if p ∈ s.live then .ok ⟨cfree s.mem p, s.live.erase p⟩
    else .error .misuse

/-- A sequence of calls, left to right. -/
def run_ops (fuel block : Nat) : State → List Op → Except Fault State
  | s, [] => .ok s
  | s, op :: ops =>
    match step fuel block s op with
    | .error e => .error e
    | .ok s1 => run_ops fuel block s1 ops

/-- The state right after `make_contiguous(size)` returned `block`. -/
def fresh (m0 : Mem) (block size : Nat) : State :=
  ⟨(make_contiguous m0 block size).1, []⟩

/-! ## Abstract view of a block -/

/-- A chunk: the address of its `struct cnode` and its `nsize`. -/
abbrev Chunk := Nat × Nat

/-- First address after a chunk: node address, header, payload. -/
def chunk_end (c : Chunk) : Nat := c.1 + SIZEOF_CNODE + c.2

/-- The pointer `cmalloc` returned for a chunk. -/
def payload (c : Chunk) : Nat := c.1 + SIZEOF_CNODE

/-- The nodes of `l` are linked in this order: following `next` from `cur`
visits them and ends in `nxt`, every node stores its `nsize`, its owning
`block`, and as `prev` the node before it (`prev` for the first one). -/
def chain (m : Mem) (block : Nat) : Nat → Nat → List Chunk → Nat → Prop
  | _, cur, [], nxt => cur = nxt
  | prev, cur, c :: rest, nxt =>
    cur = c.1 ∧ c.1 ≠ 0 ∧ get_nsize m c.1 = c.2 ∧ get_prev m c.1 = prev ∧
      get_block m c.1 = block ∧ chain m block c.1 (get_next m c.1) rest nxt

/-- A valid block state with chunk list `l`: the list hanging off
`block->first` is `l`, doubly linked; every chunk lies between the end of the
block header and `upper_limit`; the chunks are in strictly increasing address
order and do not overlap. -/
structure Valid (m : Mem) (block : Nat) (l : List Chunk) : Prop where
  block_ne : block ≠ 0
  linked : chain m block 0 (get_first m block) l 0
  header : block + SIZEOF_CONTIGUOUS ≤ get_upper_limit m block
  inside : ∀ c ∈ l, block + SIZEOF_CONTIGUOUS ≤ c.1 ∧ chunk_end c ≤ get_upper_limit m block
  sorted : l.Pairwise (fun c d => chunk_end c ≤ d.1)

/-- Start of the first chunk of `l`, or `hi` when there is none. -/
def next_start (l : List Chunk) (hi : Nat) : Nat :=
  match l with
  | [] => hi
  | c :: _ => c.1

/-- The candidate gaps after each chunk, in list order, as (start, size): from
the end of a chunk to the start of its successor, or to `hi` for the last. -/
def tail_gaps : List Chunk → Nat → List (Nat × Nat)
  | [], _ => []
  | c :: rest, hi => (chunk_end c, next_start rest hi - chunk_end c) :: tail_gaps rest hi

/-- All candidate gaps in address order: the one from `lo` (the end of the
block header) to the first chunk, then the gaps after each chunk. -/
def gaps (lo : Nat) (l : List Chunk) (hi : Nat) : List (Nat × Nat) :=
  (lo, next_start l hi - lo) :: tail_gaps l hi

/-- The first gap in the list with at least `total` bytes. -/
def first_fit (total : Nat) (gs : List (Nat × Nat)) : Option (Nat × Nat) :=
  gs.find? (fun g => decide (total ≤ g.2))

/-- Insertion of a chunk at its address-sorted position: before the first
chunk with a larger address. -/
def insert_chunk (c : Chunk) : List Chunk → List Chunk
  | [] => [c]
  | d :: rest => if c.1 < d.1 then c :: d :: rest else d :: insert_chunk c rest

/-- Address of the last chunk of `l`, or `prev` when `l` is empty. -/
def last_addr (prev : Nat) : List Chunk → Nat
  | [] => prev
  | c :: rest => last_addr c.1 rest

/-- End of the last chunk of `l`, or `lo` when `l` is empty. -/
def end_of (lo : Nat) : List Chunk → Nat
  | [] => lo
  | c :: rest => end_of (chunk_end c) rest

/-- The header of the node at `a` reads the same in both memories. -/
def same_node (m m1 : Mem) (a : Nat) : Prop :=
  get_nsize m1 a = get_nsize m a ∧ get_prev m1 a = get_prev m a ∧
    get_next m1 a = get_next m a ∧ get_block m1 a = get_block m a

/-- What every state of a call sequence on a block of `size` bytes satisfies:
the block is valid for some chunk list, `upper_limit` is still the end of the
block, and the live pointers are the payload pointers of the chunks. -/
def Inv (block size : Nat) (s : State) : Prop :=
  ∃ l, Valid s.mem block l ∧ get_upper_limit s.mem block = block + size ∧
    s.live.Perm (l.map payload)

/-- Linking can be checked by reading the fields. -/
instance chain_decidable (m : Mem) (b : Nat) : ∀ (l : List Chunk) (p cur nx : Nat),
    Decidable (chain m b p cur l nx)
  | [], _, cur, nx => inferInstanceAs (Decidable (cur = nx))
  | c :: rest, p, cur, nx =>
    have := chain_decidable m b rest c.1 (get_next m c.1) nx
    inferInstanceAs (Decidable (cur = c.1 ∧ c.1 ≠ 0 ∧ get_nsize m c.1 = c.2 ∧
      get_prev m c.1 = p ∧ get_block m c.1 = b ∧ chain m b c.1 (get_next m c.1) rest nx))

/-- Validity can be checked by reading the fields. -/
instance valid_decidable (m : Mem) (b : Nat) (l : List Chunk) : Decidable (Valid m b l) :=
  decidable_of_iff (b ≠ 0 ∧ chain m b 0 (get_first m b) l 0 ∧
      b + SIZEOF_CONTIGUOUS ≤ get_upper_limit m b ∧
      (∀ c ∈ l, b + SIZEOF_CONTIGUOUS ≤ c.1 ∧ chunk_end c ≤ get_upper_limit m b) ∧
      l.Pairwise (fun c d => chunk_end c ≤ d.1))
    ⟨fun ⟨h1, h2, h3, h4, h5⟩ => ⟨h1, h2, h3, h4, h5⟩,
     fun ⟨h1, h2, h3, h4, h5⟩ => ⟨h1, h2, h3, h4, h5⟩⟩

/-! ## Concrete runs -/

/-- Whether a call returned normally. -/
def is_ok {α : Type} : Except Fault α → Bool
  | .ok _ => true
  | .error _ => false

/-- The value a call returned, `d` if it did not return. -/
def val_of {α : Type} (r : Except Fault α) (d : α) : α :=
  match r with
  | .ok a => a
  | .error _ => d

/-- Memory in which every byte is zero. -/
def zero_mem : Mem := fun _ => 0

/-- A block of 256 bytes at address 4096, right after `make_contiguous(256)`. -/
def demo_fresh : State := fresh zero_mem 4096 256

/-- The state after `A = cmalloc(10); B = cmalloc(20); cfree(A)`: one chunk
`B` at 4154, a gap of 42 bytes before it and one of 146 bytes after it. -/
def demo_holes : State :=
  val_of (run_ops 4 4096 demo_fresh [.malloc 10, .malloc 20, .free 4144]) demo_fresh

/-- The state after `cmalloc(10); cmalloc(20); cmalloc(5)`: three chunks. -/
def demo_three : State :=
  val_of (run_ops 4 4096 demo_fresh [.malloc 10, .malloc 20, .malloc 5]) demo_fresh

/-- The result of `cmalloc(block, 20)` in the state `demo_holes`. -/
def demo_alloc : Mem × Nat :=
  val_of (cmalloc 1 demo_holes.mem 4096 ((20 : Nat) : Int)) (zero_mem, 0)

/-- The result of `A = cmalloc(block, 10)` on the fresh block. -/
def demo_A : Mem × Nat :=
  val_of (cmalloc 1 (make_contiguous zero_mem 4096 256).1 4096 ((10 : Nat) : Int)) (zero_mem, 0)

/-- The result of `B = cmalloc(block, 10)` after `A`. -/
def demo_B : Mem × Nat :=
  val_of (cmalloc 1 demo_A.1 4096 ((10 : Nat) : Int)) (zero_mem, 0)

/-- The result of `cmalloc(block, 0)` on the block from `make_contiguous(8)`. -/
def demo_small : Except Fault (Mem × Nat) :=
  cmalloc 0 (make_contiguous zero_mem 4096 8).1 4096 0

/-! ## The gap computations of the dump (lines 33-40 and 97-124) -/

/-- The function `gapsize(n0, n1)`: the pointer difference and the two further
subtractions are `size_t` arithmetic. -/
def gapsize (m : Mem) (n0 n1 : Nat) : Except Fault Nat :=
  if n0 = 0 then .error .assert_failed
  else if n1 = 0 then .error .assert_failed
  else .ok (sub64 (sub64 (sub64 n1 n0) (get_nsize m n0)) SIZEOF_CNODE)

/-- Lines 106-115 of `print_debug`: the value of `gap`, the bytes between the
block header and the first node (or `upper_limit`). -/
def print_debug_gap0 (m : Mem) (block : Nat) : Nat :=
  let raw := block
  if get_first m block = 0 then
    sub64 (sub64 (get_upper_limit m block) raw) SIZEOF_CONTIGUOUS
  else
    sub64 (sub64 (get_first m block) raw) SIZEOF_CONTIGUOUS

/-- The loop of `print_node` (lines 69-89) without the printing: the values
`gapsize(node, node->next)` computed on the way and the last node, which is
what `print_node` returns. -/
def print_node_gaps (m : Mem) : Nat → Nat → Except Fault (List Nat × Nat)
  | fuel, node =>
    if node = 0 then .ok ([], 0)
    else
      match fuel with
      | 0 => .error .out_of_fuel
      | fuel + 1 =>
        if get_next m node = 0 then .ok ([], node)
        else
          match gapsize m node (get_next m node) with
          | .error e => .error e
          | .ok g =>
            match print_node_gaps m fuel (get_next m node) with
            | .error e => .error e
            | .ok (gs, last) => .ok (g :: gs, last)

/-- The gaps `print_debug(block)` computes, in the order it computes them: the
one behind the block header, the one behind each node that has a successor, and
`gapsize(lastnode, block->upper_limit)`. -/
def print_debug_gaps (fuel : Nat) (m : Mem) (block : Nat) : Except Fault (List Nat) :=
  if block = 0 then .error .assert_failed
  else
    match print_node_gaps m fuel (get_first m block) with
    | .error e => .error e
    | .ok (gs, lastnode) =>
      if lastnode ≠ 0 then
        match gapsize m lastnode (get_upper_limit m block) with
        | .error e => .error e
        | .ok g => .ok (print_debug_gap0 m block :: (gs ++ [g]))
      else .ok (print_debug_gap0 m block :: gs)

/-- The free bytes of a block: the sum of the gaps the dump computes. -/
def free_bytes (fuel : Nat) (m : Mem) (block : Nat) : Except Fault Nat :=
  match print_debug_gaps fuel m block with
  | .error e => .error e
  | .ok gs => .ok gs.sum

/-! ## The gap computations of `cmalloc` -/

/-- Lines 186-188 of `cmalloc`: the first value of `space`. -/
def cmalloc_space0 (m : Mem) (block : Nat) : Nat :=
  let curr := get_first m block
  let mem_start := add64 block SIZEOF_CONTIGUOUS
  if curr ≠ 0 then sub64 curr mem_start
  else sub64 (get_upper_limit m block) mem_start

/-- Lines 195-197 of `cmalloc`: the value of `space` in the loop iteration for
the node `curr`. -/
def cmalloc_space (m : Mem) (block curr : Nat) : Nat :=
  let chunk_end := add64 (add64 curr SIZEOF_CNODE) (get_nsize m curr)
  if get_next m curr ≠ 0 then sub64 (get_next m curr) chunk_end
  else sub64 (get_upper_limit m block) chunk_end

/-- The expression of `gapsize(n0, n1)` evaluated in the integers, without
wrapping. -/
def gapsize_exact (m : Mem) (n0 n1 : Nat) : Int :=
  ((n1 : Int) - (n0 : Int)) - (get_nsize m n0 : Int) - (SIZEOF_CNODE : Int)

/-- The expression for the gap behind the block header evaluated in the
integers, without wrapping. -/
def gap0_exact (m : Mem) (block : Nat) : Int :=
  if get_first m block = 0 then
    ((get_upper_limit m block : Int) - (block : Int)) - (SIZEOF_CONTIGUOUS : Int)
  else
    ((get_first m block : Int) - (block : Int)) - (SIZEOF_CONTIGUOUS : Int)

/-! ## `pretty_print_block` (lines 55-65) -/

/-- One uppercase hexadecimal digit as a character code. -/
def hex_digit (d : Nat) : Nat := if d < 10 then 0x30 + d else 0x41 + (d - 10)

/-- The characters one `printf` call of the loop writes for the byte `c`:
`"%c"` or `"\\x%02X"`, selected by the test of line 61. -/
def print_byte (c : Nat) : List Nat :=
  if 0x20 ≤ c ∧ c < 0x80 ∧ c ≠ 0x5C then [c]
  else [0x5C, 0x78, hex_digit (c / 16 % 16), hex_digit (c % 16)]

/-- The loop `for (int i = 0; i < size; i++)` started at index `i` with `k`
iterations left. -/
def pretty_print_block_loop (m : Mem) (chs : Nat) : Nat → Nat → List Nat
  | _, 0 => []
  | i, k + 1 => print_byte (load8 m (add64 chs i)) ++ pretty_print_block_loop m chs (i + 1) k

/-- The function `pretty_print_block(chs, size)`: the characters written to the
output.  The loop runs `size` times, not at all when `size` is negative. -/
def pretty_print_block (m : Mem) (chs : Nat) (size : Int) : Except Fault (List Nat) :=
  if chs = 0 then .error .assert_failed
  else .ok (pretty_print_block_loop m chs 0 size.toNat ++ [0x0A])

/-! ## Further abstract notions -/

/-- The candidate gaps in front of each chunk of a list, as (start, size): from
`lo` to the first chunk, then from the end of a chunk to its successor. -/
def pre_gaps (lo : Nat) : List Chunk → List (Nat × Nat)
  | [] => []
  | c :: rest => (lo, c.1 - lo) :: pre_gaps (chunk_end c) rest

/-- The chunk list after `k` calls `cmalloc(block, 0)` into free space that
starts at `lo`: `k` chunks without payload, one right behind the other. -/
def zero_chunks (lo : Nat) : Nat → List Chunk
  | 0 => []
  | k + 1 => (lo, 0) :: zero_chunks (lo + SIZEOF_CNODE) k

/-- The pointers `k` calls `cmalloc(block, 0)` return when the first returns
`p`, latest first. -/
def zero_ptrs (p : Nat) : Nat → List Nat
  | 0 => []
  | k + 1 => (p + SIZEOF_CNODE * k) :: zero_ptrs p k

/-- The output the claim describes for one byte: the byte itself when it is a
printable character other than backslash, else the four characters `\xXX`. -/
def escape_byte_spec (c : Nat) : List Nat :=
  if 0x20 ≤ c ∧ c < 0x7F ∧ c ≠ 0x5C then [c]
  else [0x5C, 0x78, hex_digit (c / 16 % 16), hex_digit (c % 16)]

/-! ## Further concrete runs -/

/-- A block of 128 bytes at address 4096, right after `make_contiguous(128)`. -/
def demo128 : Mem := (make_contiguous zero_mem 4096 128).1

/-- The result of the first `cmalloc(block, 40)` on the 128-byte block. -/
def demo128_first : Mem × Nat :=
  val_of (cmalloc 1 demo128 4096 ((40 : Nat) : Int)) (zero_mem, 0)

/-- The result of the second `cmalloc(block, 40)` on the 128-byte block. -/
def demo128_second : Except Fault (Mem × Nat) :=
  cmalloc 1 demo128_first.1 4096 ((40 : Nat) : Int)

/-- Memory holding the one byte `0x7F` (DEL) at address 4096. -/
def demo_del : Mem := store8 zero_mem 4096 0x7F

/-- Memory holding the bytes `A`, backslash, `0x07` at address 4096. -/
def demo_text : Mem := store8 (store8 (store8 zero_mem 4096 0x41) 4097 0x5C) 4098 0x07

theorem load64_lt (m : Mem) (a : Nat) : load64 m a < 2 ^ 64 := by
  unfold load64 load8
  omega

theorem load64_store64_same (m : Mem) (a v : Nat) :
    load64 (store64 m a v) a = v % 2 ^ 64 := by
  unfold load64 load8 store64
  simp
  omega

theorem store64_outside (m : Mem) (a v x : Nat) (h : x < a ∨ a + 8 ≤ x) :
    store64 m a v x = m x := by
  unfold store64
  rw [if_neg (by omega)]

theorem load64_store64_other (m : Mem) (a b v : Nat) (h : a + 8 ≤ b ∨ b + 8 ≤ a) :
    load64 (store64 m a v) b = load64 m b := by
  unfold load64 load8
  rw [store64_outside m a v b (by omega), store64_outside m a v (b + 1) (by omega),
    store64_outside m a v (b + 2) (by omega), store64_outside m a v (b + 3) (by omega),
    store64_outside m a v (b + 4) (by omega), store64_outside m a v (b + 5) (by omega),
    store64_outside m a v (b + 6) (by omega), store64_outside m a v (b + 7) (by omega)]

theorem store8_outside (m : Mem) (a v x : Nat) (h : x ≠ a) : store8 m a v x = m x := by
  unfold store8
  rw [if_neg h]

theorem load64_store8_other (m : Mem) (a b v : Nat) (h : a < b ∨ b + 8 ≤ a) :
    load64 (store8 m a v) b = load64 m b := by
  unfold load64 load8
  rw [store8_outside m a v b (by omega), store8_outside m a v (b + 1) (by omega),
    store8_outside m a v (b + 2) (by omega), store8_outside m a v (b + 3) (by omega),
    store8_outside m a v (b + 4) (by omega), store8_outside m a v (b + 5) (by omega),
    store8_outside m a v (b + 6) (by omega), store8_outside m a v (b + 7) (by omega)]

theorem add64_eq (a b : Nat) (h : a + b < 2 ^ 64) : add64 a b = a + b := by
  unfold add64
  omega

theorem sub64_eq (a b : Nat) (h : b ≤ a) (ha : a < 2 ^ 64) : sub64 a b = a - b := by
  unfold sub64
  omega

theorem int_to_size_t_ofNat (n : Nat) (h : n < 2 ^ 64) : int_to_size_t (n : Int) = n := by
  unfold int_to_size_t
  omega

/-- The fill loop writes only at offsets `i`, ..., `i + k - 1` of the block. -/
theorem load64_fill (block : Nat) (k : Nat) : ∀ (m : Mem) (i a : Nat),
    block + i + k ≤ 2 ^ 64 → a + 8 ≤ block + i →
    load64 (make_contiguous_fill block m i k) a = load64 m a := by
  induction k with
  | zero => intro m i a _ _; rfl
  | succ k ih =>
    intro m i a h1 h2
    show load64 (make_contiguous_fill block (store8 m (add64 block i) 0x24) (i + 1) k) a = _
    rw [ih _ _ _ (by omega) (by omega), add64_eq _ _ (by omega),
      load64_store8_other _ _ _ _ (by omega)]

/-! ## Linked chains -/

theorem last_addr_concat (c : Chunk) : ∀ (l : List Chunk) (p : Nat),
    last_addr p (l ++ [c]) = c.1
  | [], _ => rfl
  | d :: rest, _ => last_addr_concat c rest d.1

theorem end_of_concat (c : Chunk) : ∀ (l : List Chunk) (lo : Nat),
    end_of lo (l ++ [c]) = chunk_end c
  | [], _ => rfl
  | d :: rest, _ => end_of_concat c rest (chunk_end d)

theorem chain_frame {m m1 : Mem} {b : Nat} : ∀ {l : List Chunk} {p cur nx : Nat},
    chain m b p cur l nx → (∀ c ∈ l, same_node m m1 c.1) → chain m1 b p cur l nx
  | [], _, _, _, h, _ => h
  | c :: rest, _, _, _, h, hs => by
    obtain ⟨h1, h2, h3, h4, h5, h6⟩ := h
    obtain ⟨s1, s2, s3, s4⟩ := hs c (List.mem_cons_self _ _)
    refine ⟨h1, h2, s1.trans h3, s2.trans h4, s4.trans h5, ?_⟩
    rw [s3]
    exact chain_frame h6 (fun d hd => hs d (List.mem_cons_of_mem _ hd))

theorem chain_append {m : Mem} {b : Nat} : ∀ {l1 l2 : List Chunk} {p cur nx : Nat},
    chain m b p cur (l1 ++ l2) nx ↔
      ∃ mid, chain m b p cur l1 mid ∧ chain m b (last_addr p l1) mid l2 nx
  | [], l2, p, cur, nx => by
    constructor
    · intro h
      exact ⟨cur, rfl, h⟩
    · rintro ⟨mid, h1, h2⟩
      have e : cur = mid := h1
      subst e
      exact h2
  | c :: rest, l2, p, cur, nx => by
    constructor
    · rintro ⟨h1, h2, h3, h4, h5, h6⟩
      obtain ⟨mid, k1, k2⟩ := chain_append.mp h6
      exact ⟨mid, ⟨h1, h2, h3, h4, h5, k1⟩, k2⟩
    · rintro ⟨mid, ⟨h1, h2, h3, h4, h5, k1⟩, k2⟩
      exact ⟨h1, h2, h3, h4, h5, chain_append.mpr ⟨mid, k1, k2⟩⟩

theorem chain_start {m : Mem} {b : Nat} {l : List Chunk} {p cur nx : Nat}
    (h : chain m b p cur l nx) : cur = next_start l nx := by
  cases l with
  | nil => exact h
  | cons c rest => exact h.1

theorem chain_ne_zero {m : Mem} {b : Nat} : ∀ {l : List Chunk} {p cur nx : Nat},
    chain m b p cur l nx → ∀ c ∈ l, c.1 ≠ 0
  | [], _, _, _, _, c, hc => by simp at hc
  | d :: rest, _, _, _, h, c, hc => by
    rcases List.mem_cons.mp hc with e | e
    · subst e
      exact h.2.1
    · exact chain_ne_zero h.2.2.2.2.2 c e

/-- Redirecting the `next` field of the last node of a chain. -/
theorem chain_set_last_next {m m1 : Mem} {b : Nat} {l : List Chunk} {c : Chunk}
    {p cur nx nx1 : Nat} (h : chain m b p cur (l ++ [c]) nx)
    (hs : ∀ x ∈ l, same_node m m1 x.1)
    (h1 : get_nsize m1 c.1 = get_nsize m c.1) (h2 : get_prev m1 c.1 = get_prev m c.1)
    (h3 : get_block m1 c.1 = get_block m c.1) (h4 : get_next m1 c.1 = nx1) :
    chain m1 b p cur (l ++ [c]) nx1 := by
  obtain ⟨mid, k1, k2⟩ := chain_append.mp h
  obtain ⟨e1, e2, e3, e4, e5, _⟩ := k2
  exact chain_append.mpr ⟨mid, chain_frame k1 hs,
    ⟨e1, e2, h1.trans e3, h2.trans e4, h3.trans e5, h4⟩⟩

/-- Redirecting the `prev` field of the first node of a chain. -/
theorem chain_set_head_prev {m m1 : Mem} {b : Nat} {rest : List Chunk} {c : Chunk}
    {p cur nx p1 : Nat} (h : chain m b p cur (c :: rest) nx)
    (hs : ∀ x ∈ rest, same_node m m1 x.1)
    (h1 : get_nsize m1 c.1 = get_nsize m c.1) (h2 : get_next m1 c.1 = get_next m c.1)
    (h3 : get_block m1 c.1 = get_block m c.1) (h4 : get_prev m1 c.1 = p1) :
    chain m1 b p1 cur (c :: rest) nx := by
  obtain ⟨e1, e2, e3, _, e5, e6⟩ := h
  refine ⟨e1, e2, h1.trans e3, h4, h3.trans e5, ?_⟩
  rw [h2]
  exact chain_frame e6 hs

/-- The traversal of a chain returns its chunks. -/
theorem traverse_chain {m : Mem} {b : Nat} : ∀ {l : List Chunk} {p cur fuel : Nat},
    chain m b p cur l 0 → l.length ≤ fuel → traverse m fuel cur = .ok l
  | [], _, cur, fuel, h, _ => by
    have e : cur = 0 := h
    subst e
    cases fuel <;> rfl
  | c :: rest, _, cur, fuel, h, hf => by
    obtain ⟨h1, h2, h3, _, _, h6⟩ := h
    subst h1
    cases fuel with
    | zero => simp at hf
    | succ f =>
      have ih := traverse_chain h6 (Nat.le_of_succ_le_succ hf)
      unfold traverse
      rw [if_neg h2]
      simp only [ih, h3]

/-! ## `make_contiguous` -/

theorem make_contiguous_fresh (m0 : Mem) (block N : Nat) (hb : block ≠ 0)
    (hN : block + N < 2 ^ 64) :
    get_first (make_contiguous m0 block N).1 block = 0 ∧
      get_upper_limit (make_contiguous m0 block N).1 block = block + N := by
  unfold make_contiguous
  simp only [if_neg hb, get_first, get_upper_limit, set_first, set_upper_limit]
  by_cases hN16 : N ≤ SIZEOF_CONTIGUOUS
  · have e : N - SIZEOF_CONTIGUOUS = 0 := by omega
    rw [e]
    simp only [make_contiguous_fill]
    rw [load64_store64_other _ _ _ _ (by omega), load64_store64_same, load64_store64_same,
      add64_eq _ _ hN]
    omega
  · unfold SIZEOF_CONTIGUOUS at *
    rw [load64_fill _ _ _ _ _ (by omega) (by omega), load64_fill _ _ _ _ _ (by omega) (by omega),
      load64_store64_other _ _ _ _ (by omega), load64_store64_same, load64_store64_same,
      add64_eq _ _ hN]
    omega

theorem make_contiguous_valid (m0 : Mem) (block N : Nat) (hb : block ≠ 0)
    (h16 : SIZEOF_CONTIGUOUS ≤ N) (hN : block + N < 2 ^ 64) :
    Valid (make_contiguous m0 block N).1 block [] := by
  obtain ⟨h1, h2⟩ := make_contiguous_fresh m0 block N hb hN
  refine ⟨hb, h1, ?_, ?_, List.Pairwise.nil⟩
  · rw [h2]
    omega
  · intro c hc
    simp at hc

/-! ## The scan for a gap -/

theorem first_fit_cons (total : Nat) (g : Nat × Nat) (gs : List (Nat × Nat)) :
    first_fit total (g :: gs) = if total ≤ g.2 then some g else first_fit total gs := by
  unfold first_fit
  rw [List.find?_cons]
  by_cases h : total ≤ g.2 <;> simp [h]

theorem cmalloc_scan_chain {m : Mem} {b total : Nat} :
    ∀ {l : List Chunk} {p cur fuel g : Nat},
    chain m b p cur l 0 → l.length ≤ fuel →
    (∀ c ∈ l, chunk_end c ≤ get_upper_limit m b) →
    l.Pairwise (fun c d => chunk_end c ≤ d.1) →
    (g ≠ 0 → ∀ c ∈ l, g < chunk_end c) →
    cmalloc_scan m b total fuel cur g = .ok (if g ≠ 0 then g
      else ((first_fit total (tail_gaps l (get_upper_limit m b))).map Prod.fst).getD 0)
  | [], _, cur, fuel, g, h, _, _, _, _ => by
    have e : cur = 0 := h
    subst e
    unfold cmalloc_scan
    by_cases hg : g = 0 <;> simp [hg, tail_gaps, first_fit]
  | c :: rest, _, cur, fuel, g, h, hf, hin, hs, hg => by
    obtain ⟨h1, h2, h3, _, _, h6⟩ := h
    subst h1
    have hU := load64_lt m (b + 8)
    change get_upper_limit m b < 2 ^ 64 at hU
    have hc := hin c (List.mem_cons_self _ _)
    have hce : add64 (add64 c.1 SIZEOF_CNODE) (get_nsize m c.1) = chunk_end c := by
      simp only [chunk_end, SIZEOF_CNODE] at hc ⊢
      rw [h3, add64_eq c.1 32 (by omega), add64_eq _ _ (by omega)]
    have hnext := chain_start h6
    have hsp : (if get_next m c.1 ≠ 0 then sub64 (get_next m c.1) (chunk_end c)
        else sub64 (get_upper_limit m b) (chunk_end c))
        = next_start rest (get_upper_limit m b) - chunk_end c := by
      cases rest with
      | nil =>
        simp only [next_start] at hnext ⊢
        rw [if_neg (by simp [hnext]), sub64_eq _ _ hc hU]
      | cons d r =>
        simp only [next_start] at hnext ⊢
        have hd0 : d.1 ≠ 0 := h6.2.1
        have hd := hin d (by simp)
        have hcd : chunk_end c ≤ d.1 := (List.pairwise_cons.mp hs).1 d (by simp)
        rw [hnext, if_pos hd0, sub64_eq _ _ hcd
          (by simp only [chunk_end, SIZEOF_CNODE] at hd; omega)]
    cases fuel with
    | zero => simp at hf
    | succ f =>
      have hrest : ∀ d ∈ rest, chunk_end c < chunk_end d := by
        intro d hd
        have := (List.pairwise_cons.mp hs).1 d hd
        simp only [chunk_end, SIZEOF_CNODE] at this ⊢
        omega
      unfold cmalloc_scan
      rw [if_neg h2]
      simp only [hce, hsp]
      rw [cmalloc_scan_chain h6 (Nat.le_of_succ_le_succ hf)
        (fun d hd => hin d (List.mem_cons_of_mem _ hd)) (List.pairwise_cons.mp hs).2]
      · simp only [tail_gaps, first_fit_cons]
        have hce0 : chunk_end c ≠ 0 := by simp only [chunk_end, SIZEOF_CNODE]; omega
        by_cases hg0 : g = 0
        · subst hg0
          by_cases hfit : total ≤ next_start rest (get_upper_limit m b) - chunk_end c
          · simp [hfit, hce0]
          · simp [hfit]
        · have hlt := hg hg0 c (List.mem_cons_self _ _)
          have : ¬ (chunk_end c < g) := by omega
          simp [hg0, this]
      · intro hne d hd
        by_cases hg0 : g = 0
        · subst hg0
          by_cases hfit : total ≤ next_start rest (get_upper_limit m b) - chunk_end c
          · simp only [hfit, ge_iff_le, true_or, and_self, if_true]
            exact hrest d hd
          · simp [hfit] at hne
        · have hlt := hg hg0 c (List.mem_cons_self _ _)
          have h7 : ¬ (chunk_end c < g) := by omega
          simp only [hg0, h7, or_self, and_false, if_false]
          exact hg hg0 d (List.mem_cons_of_mem _ hd)

theorem load64_store64_eq (m : Mem) (a v : Nat) (h : v < 2 ^ 64) :
    load64 (store64 m a v) a = v := by
  rw [load64_store64_same, Nat.mod_eq_of_lt h]

theorem gaps_cons (lo : Nat) (c : Chunk) (rest : List Chunk) (hi : Nat) :
    gaps lo (c :: rest) hi = (lo, c.1 - lo) :: gaps (chunk_end c) rest hi := rfl

/-- Gap 0 and the scan together return the start of the first fitting gap. -/
theorem cmalloc_scan_valid {m : Mem} {b : Nat} {l : List Chunk} (total fuel : Nat)
    (hv : Valid m b l) (hf : l.length ≤ fuel) :
    cmalloc_scan m b total fuel (get_first m b) (cmalloc_gap0 m b total) =
      .ok (((first_fit total (gaps (b + SIZEOF_CONTIGUOUS) l (get_upper_limit m b))).map
        Prod.fst).getD 0) := by
  have hU := load64_lt m (b + 8)
  change get_upper_limit m b < 2 ^ 64 at hU
  have hb := hv.block_ne
  have hh := hv.header
  have hstart := chain_start hv.linked
  have hg0 : cmalloc_gap0 m b total =
      if total ≤ next_start l (get_upper_limit m b) - (b + SIZEOF_CONTIGUOUS)
      then b + SIZEOF_CONTIGUOUS else 0 := by
    unfold cmalloc_gap0
    simp only [SIZEOF_CONTIGUOUS] at hh ⊢
    rw [add64_eq _ _ (by omega)]
    cases l with
    | nil =>
      simp only [next_start] at hstart ⊢
      simp only [hstart, ne_eq, not_true_eq_false, if_false, ge_iff_le]
      rw [sub64_eq _ _ hh hU]
    | cons d r =>
      simp only [next_start] at hstart ⊢
      have hd0 : d.1 ≠ 0 := hv.linked.2.1
      have hd := hv.inside d (by simp)
      simp only [chunk_end, SIZEOF_CNODE, SIZEOF_CONTIGUOUS] at hd
      rw [hstart, if_pos hd0, sub64_eq _ _ hd.1 (by omega)]
  rw [cmalloc_scan_chain hv.linked hf (fun c hc => (hv.inside c hc).2) hv.sorted, hg0]
  · simp only [gaps, first_fit_cons]
    by_cases hfit : total ≤ next_start l (get_upper_limit m b) - (b + SIZEOF_CONTIGUOUS)
    · have : b + SIZEOF_CONTIGUOUS ≠ 0 := by omega
      simp [hfit, this]
    · simp [hfit]
  · intro hne c hc
    rw [hg0] at hne ⊢
    by_cases hfit : total ≤ next_start l (get_upper_limit m b) - (b + SIZEOF_CONTIGUOUS)
    · simp only [hfit, if_true]
      have := (hv.inside c hc).1
      simp only [chunk_end, SIZEOF_CNODE, SIZEOF_CONTIGUOUS] at this ⊢
      omega
    · simp [hfit] at hne

/-- A first-fit hit splits the chunk list around the chosen gap. -/
theorem first_fit_split (total hi : Nat) : ∀ (l : List Chunk) (lo : Nat) (g : Nat × Nat),
    first_fit total (gaps lo l hi) = some g →
    ∃ l1 l2, l = l1 ++ l2 ∧ g.1 = end_of lo l1 ∧ g.2 = next_start l2 hi - g.1 ∧ total ≤ g.2
  | [], lo, g, h => by
    rw [show gaps lo [] hi = [(lo, next_start [] hi - lo)] from rfl, first_fit_cons] at h
    by_cases hfit : total ≤ next_start [] hi - lo
    · rw [if_pos hfit] at h
      cases h
      exact ⟨[], [], rfl, rfl, rfl, hfit⟩
    · rw [if_neg hfit] at h
      cases h
  | c :: rest, lo, g, h => by
    rw [gaps_cons, first_fit_cons] at h
    by_cases hfit : total ≤ c.1 - lo
    · rw [if_pos hfit] at h
      cases h
      exact ⟨[], c :: rest, rfl, rfl, rfl, hfit⟩
    · rw [if_neg hfit] at h
      obtain ⟨l1, l2, e1, e2, e3, e4⟩ := first_fit_split total hi rest (chunk_end c) g h
      exact ⟨c :: l1, l2, by rw [e1]; rfl, e2, e3, e4⟩

theorem gaps_start_ge (hi : Nat) : ∀ (l : List Chunk) (lo : Nat),
    l.Pairwise (fun c d => chunk_end c ≤ d.1) → (∀ c ∈ l, lo ≤ c.1) →
    ∀ x ∈ gaps lo l hi, lo ≤ x.1
  | [], lo, _, _, x, hx => by
    simp only [gaps, tail_gaps, List.mem_singleton] at hx
    subst hx
    exact Nat.le_refl _
  | c :: rest, lo, hs, hlo, x, hx => by
    rw [gaps_cons] at hx
    rcases List.mem_cons.mp hx with e | e
    · subst e
      exact Nat.le_refl _
    · have h1 := gaps_start_ge hi rest (chunk_end c) (List.pairwise_cons.mp hs).2
        (List.pairwise_cons.mp hs).1 x e
      have h2 := hlo c (List.mem_cons_self _ _)
      simp only [chunk_end, SIZEOF_CNODE] at h1
      omega

/-- The candidate gaps are listed in strictly increasing address order. -/
theorem gaps_sorted (hi : Nat) : ∀ (l : List Chunk) (lo : Nat),
    l.Pairwise (fun c d => chunk_end c ≤ d.1) → (∀ c ∈ l, lo ≤ c.1) →
    (gaps lo l hi).Pairwise (fun x y => x.1 < y.1)
  | [], lo, _, _ => by simp [gaps, tail_gaps]
  | c :: rest, lo, hs, hlo => by
    rw [gaps_cons]
    refine List.pairwise_cons.mpr ⟨?_, gaps_sorted hi rest (chunk_end c)
      (List.pairwise_cons.mp hs).2 (List.pairwise_cons.mp hs).1⟩
    intro x hx
    have h1 := gaps_start_ge hi rest (chunk_end c) (List.pairwise_cons.mp hs).2
      (List.pairwise_cons.mp hs).1 x hx
    have h2 := hlo c (List.mem_cons_self _ _)
    simp only [chunk_end, SIZEOF_CNODE] at h1
    show lo < x.1
    omega

/-- Every gap at a lower address than the first-fit gap is too small. -/
theorem first_fit_lower {total : Nat} {gs : List (Nat × Nat)} {g : Nat × Nat}
    (h : first_fit total gs = some g) (hs : gs.Pairwise (fun x y => x.1 < y.1)) :
    ∀ x ∈ gs, x.1 < g.1 → x.2 < total := by
  unfold first_fit at h
  obtain ⟨_, as, bs, e, hlow⟩ := List.find?_eq_some.mp h
  intro x hx hlt
  rw [e] at hx hs
  rcases List.mem_append.mp hx with h1 | h1
  · have := hlow x h1
    simpa using this
  · have h2 := (List.pairwise_append.mp hs).2.1
    rcases List.mem_cons.mp h1 with e1 | e1
    · subst e1
      omega
    · have := (List.pairwise_cons.mp h2).1 x e1
      omega

theorem first_fit_none (total : Nat) (gs : List (Nat × Nat)) :
    first_fit total gs = none ↔ ∀ x ∈ gs, x.2 < total := by
  unfold first_fit
  simp [List.find?_eq_none]

theorem end_of_ne_zero : ∀ (l : List Chunk) (lo : Nat), lo ≠ 0 → end_of lo l ≠ 0
  | [], _, h => h
  | c :: rest, _, _ => end_of_ne_zero rest (chunk_end c)
      (by simp only [chunk_end, SIZEOF_CNODE]; omega)

theorem next_start_le (hi : Nat) : ∀ {l : List Chunk},
    l.Pairwise (fun c d => chunk_end c ≤ d.1) → ∀ y ∈ l, next_start l hi ≤ y.1
  | [], _, y, hy => by simp at hy
  | d :: r, hs, y, hy => by
    rcases List.mem_cons.mp hy with e | e
    · subst e
      exact Nat.le_refl _
    · have := (List.pairwise_cons.mp hs).1 y e
      simp only [chunk_end, SIZEOF_CNODE] at this
      show d.1 ≤ y.1
      omega

theorem cmalloc_insert_head {m : Mem} {b : Nat} {l2 : List Chunk} (n fuel : Nat)
    (hv : Valid m b l2) (hn : n < 2 ^ 64)
    (hfit : b + SIZEOF_CONTIGUOUS + SIZEOF_CNODE + n ≤ next_start l2 (get_upper_limit m b)) :
    ∃ m1, cmalloc_insert fuel m b (n : Int) (b + SIZEOF_CONTIGUOUS)
        = .ok (m1, b + SIZEOF_CONTIGUOUS + SIZEOF_CNODE) ∧
      Valid m1 b ((b + SIZEOF_CONTIGUOUS, n) :: l2) ∧
      get_upper_limit m1 b = get_upper_limit m b := by
  have hU := load64_lt m (b + 8)
  change get_upper_limit m b < 2 ^ 64 at hU
  have hb := hv.block_ne
  have hstart := chain_start hv.linked
  have hgeo : ∀ y ∈ l2, b + 16 + 32 + n ≤ y.1 ∧ y.1 + 32 + y.2 ≤ get_upper_limit m b := by
    intro y hy
    have h1 := next_start_le (get_upper_limit m b) hv.sorted y hy
    have h2 := (hv.inside y hy).2
    simp only [chunk_end, SIZEOF_CNODE, SIZEOF_CONTIGUOUS] at h1 h2 hfit
    omega
  have hle : next_start l2 (get_upper_limit m b) ≤ get_upper_limit m b := by
    cases l2 with
    | nil => exact Nat.le_refl _
    | cons d r =>
      have := hgeo d (by simp)
      show d.1 ≤ _
      omega
  simp only [SIZEOF_CNODE, SIZEOF_CONTIGUOUS] at hfit ⊢
  unfold cmalloc_insert
  simp only [int_to_size_t_ofNat n hn, SIZEOF_CNODE]
  rw [add64_eq _ _ (by omega)]
  cases l2 with
  | nil =>
    change get_first m b = 0 at hstart
    change b + 16 + 32 + n ≤ get_upper_limit m b at hfit
    simp (disch := omega) only [get_first, set_first, set_nsize, set_block, set_prev, set_next,
      load64_store64_other] at hstart ⊢
    simp only [hstart, true_or, if_true, ne_eq, not_true_eq_false, if_false]
    refine ⟨_, rfl, ⟨hb, ?_, ?_, ?_, ?_⟩, ?_⟩
    · refine ⟨?_, ?_, ?_, ?_, ?_, ?_⟩
      · simp (disch := omega) only [get_first, load64_store64_eq]
      · show b + 16 ≠ 0
        omega
      · simp (disch := omega) only [get_nsize, load64_store64_other, load64_store64_eq]
      · simp (disch := omega) only [get_prev, load64_store64_other, load64_store64_eq]
      · simp (disch := omega) only [get_block, load64_store64_other, load64_store64_eq]
      · show get_next _ _ = 0
        simp (disch := omega) only [get_next, load64_store64_other, load64_store64_eq]
    · simp (disch := omega) only [get_upper_limit, load64_store64_other, SIZEOF_CONTIGUOUS]
      exact hv.header
    · intro c hc
      rw [List.mem_singleton] at hc
      subst hc
      simp (disch := omega) only [get_upper_limit, load64_store64_other, SIZEOF_CONTIGUOUS,
        chunk_end, SIZEOF_CNODE]
      change b + 16 + 32 + n ≤ load64 m (b + 8) at hfit
      omega
    · exact List.pairwise_singleton _ _
    · simp (disch := omega) only [get_upper_limit, load64_store64_other]
  | cons d r =>
    change get_first m b = d.1 at hstart
    change b + 16 + 32 + n ≤ d.1 at hfit
    have hd := hgeo d (by simp)
    have hd0 : d.1 ≠ 0 := by omega
    have hr : ∀ x ∈ r, d.1 + 32 + d.2 ≤ x.1 := by
      intro x hx
      have := (List.pairwise_cons.mp hv.sorted).1 x hx
      simpa only [chunk_end, SIZEOF_CNODE] using this
    simp (disch := omega) only [get_first, set_first, set_nsize, set_block, set_prev, set_next,
      load64_store64_other] at hstart ⊢
    have hlt : b + 16 < d.1 := by omega
    simp only [hstart, hlt, or_true, if_true, ne_eq, hd0, not_false_eq_true]
    refine ⟨_, rfl, ⟨hb, ?_, ?_, ?_, ?_⟩, ?_⟩
    · refine ⟨?_, ?_, ?_, ?_, ?_, ?_⟩
      · simp (disch := omega) only [get_first, load64_store64_eq]
      · show b + 16 ≠ 0
        omega
      · simp (disch := omega) only [get_nsize, load64_store64_other, load64_store64_eq]
      · simp (disch := omega) only [get_prev, load64_store64_other, load64_store64_eq]
      · simp (disch := omega) only [get_block, load64_store64_other, load64_store64_eq]
      · have e : ∀ M : Mem, get_next M (b + 16) = load64 M (b + 16 + 16) := fun _ => rfl
        rw [e]
        simp (disch := omega) only [load64_store64_other, load64_store64_eq]
        have hl := hv.linked
        rw [get_first, hstart] at hl
        refine chain_set_head_prev hl ?_ ?_ ?_ ?_ ?_
        · intro x hx
          have h1 := hr x hx
          have h2 := hgeo x (List.mem_cons_of_mem _ hx)
          unfold same_node
          refine ⟨?_, ?_, ?_, ?_⟩ <;>
            simp (disch := omega) only [get_nsize, get_prev, get_next, get_block,
              load64_store64_other]
        · simp (disch := omega) only [get_nsize, load64_store64_other]
        · simp (disch := omega) only [get_next, load64_store64_other]
        · simp (disch := omega) only [get_block, load64_store64_other]
        · simp (disch := omega) only [get_prev, load64_store64_other, load64_store64_eq]
    · simp (disch := omega) only [get_upper_limit, load64_store64_other, SIZEOF_CONTIGUOUS]
      exact hv.header
    · intro c hc
      simp (disch := omega) only [get_upper_limit, load64_store64_other, SIZEOF_CONTIGUOUS,
        chunk_end, SIZEOF_CNODE]
      rcases List.mem_cons.mp hc with e | e
      · subst e
        change b + 16 + 32 + n ≤ d.1 at hfit
        change _ ∧ _ ≤ load64 m (b + 8) at hd
        show b + 16 ≤ b + 16 ∧ b + 16 + 32 + n ≤ load64 m (b + 8)
        omega
      · have := hgeo c e
        change _ ∧ _ ≤ load64 m (b + 8) at this
        omega
    · refine List.pairwise_cons.mpr ⟨?_, hv.sorted⟩
      intro y hy
      have := hgeo y hy
      simp only [chunk_end, SIZEOF_CNODE]
      omega
    · simp (disch := omega) only [get_upper_limit, load64_store64_other]

theorem cmalloc_find_after_chain {m : Mem} {b new : Nat} {a : Chunk} (l1 : List Chunk) :
    ∀ (p cur nx fuel : Nat),
    chain m b p cur (l1 ++ [a]) nx → (∀ x ∈ l1 ++ [a], x.1 < new) →
    (nx = 0 ∨ ¬ nx < new) → l1.length ≤ fuel →
    cmalloc_find_after m new fuel cur = .ok a.1 := by
  induction l1 with
  | nil =>
    intro p cur nx fuel h _ hnx _
    obtain ⟨h1, _, _, _, _, h6⟩ := h
    change get_next m a.1 = nx at h6
    subst h1
    have hc : ¬ (get_next m a.1 ≠ 0 ∧ get_next m a.1 < new) := by
      rw [h6]
      rcases hnx with e | e
      · simp [e]
      · simp [e]
    cases fuel <;> simp only [cmalloc_find_after, if_neg hc]
  | cons c rest ih =>
    intro p cur nx fuel h hlt hnx hf
    obtain ⟨h1, _, _, _, _, h6⟩ := h
    subst h1
    have hs := chain_start h6
    have hne := chain_ne_zero h6
    cases fuel with
    | zero => simp at hf
    | succ f =>
      have ih1 := ih _ _ _ f h6
        (fun x hx => hlt x (List.mem_cons_of_mem _ hx)) hnx (Nat.le_of_succ_le_succ hf)
      have hcond : get_next m c.1 ≠ 0 ∧ get_next m c.1 < new := by
        cases rest with
        | nil =>
          change get_next m c.1 = a.1 at hs
          rw [hs]
          exact ⟨hne a (by simp), hlt a (by simp)⟩
        | cons d r =>
          change get_next m c.1 = d.1 at hs
          rw [hs]
          exact ⟨hne d (by simp), hlt d (by simp)⟩
      simp only [cmalloc_find_after, if_pos hcond]
      exact ih1

/-- Geometry of the chunk list after a chunk is placed right behind `a`. -/
theorem geometry_insert_after {l1 l2 : List Chunk} {a : Chunk} {n lo hi : Nat}
    (hin : ∀ c ∈ l1 ++ a :: l2, lo ≤ c.1 ∧ chunk_end c ≤ hi)
    (hs : (l1 ++ a :: l2).Pairwise (fun c d => chunk_end c ≤ d.1))
    (hfit : chunk_end a + SIZEOF_CNODE + n ≤ next_start l2 hi) :
    (∀ c ∈ l1 ++ a :: (chunk_end a, n) :: l2, lo ≤ c.1 ∧ chunk_end c ≤ hi) ∧
      (l1 ++ a :: (chunk_end a, n) :: l2).Pairwise (fun c d => chunk_end c ≤ d.1) := by
  have hsort := List.pairwise_append.mp hs
  have hsort2 := List.pairwise_cons.mp hsort.2.1
  have ha := hin a (by simp)
  have hle : next_start l2 hi ≤ hi := by
    cases l2 with
    | nil => exact Nat.le_refl _
    | cons d r =>
      have := hin d (by simp)
      simp only [chunk_end, SIZEOF_CNODE] at this
      show d.1 ≤ _
      omega
  have hg2 : ∀ y ∈ l2, chunk_end a + SIZEOF_CNODE + n ≤ y.1 := by
    intro y hy
    have h1 := next_start_le hi hsort2.2 y hy
    omega
  constructor
  · intro c hc
    rcases List.mem_append.mp hc with e | e
    · exact hin c (by simp [e])
    · rcases List.mem_cons.mp e with e | e
      · subst e
        exact ha
      · rcases List.mem_cons.mp e with e | e
        · subst e
          simp only [chunk_end, SIZEOF_CNODE] at ha hfit ⊢
          omega
        · exact hin c (by simp [e])
  · refine List.pairwise_append.mpr ⟨hsort.1, List.pairwise_cons.mpr ⟨?_,
      List.pairwise_cons.mpr ⟨?_, hsort2.2⟩⟩, ?_⟩
    · intro y hy
      rcases List.mem_cons.mp hy with e | e
      · subst e
        exact Nat.le_refl _
      · have := hg2 y e
        omega
    · intro y hy
      have := hg2 y hy
      simp only [chunk_end, SIZEOF_CNODE] at this ⊢
      omega
    · intro x hx y hy
      rcases List.mem_cons.mp hy with e | e
      · subst e
        exact hsort.2.2 x hx _ (by simp)
      · rcases List.mem_cons.mp e with e | e
        · subst e
          have := hsort.2.2 x hx a (by simp)
          simp only [chunk_end, SIZEOF_CNODE] at this ⊢
          omega
        · exact hsort.2.2 x hx y (by simp [e])

theorem cmalloc_insert_after {m : Mem} {b : Nat} {l1 l2 : List Chunk} {a : Chunk}
    (n fuel : Nat) (hv : Valid m b (l1 ++ a :: l2)) (hn : n < 2 ^ 64)
    (hfit : chunk_end a + SIZEOF_CNODE + n ≤ next_start l2 (get_upper_limit m b))
    (hf : l1.length ≤ fuel) :
    ∃ m1, cmalloc_insert fuel m b (n : Int) (chunk_end a)
        = .ok (m1, chunk_end a + SIZEOF_CNODE) ∧
      Valid m1 b (l1 ++ a :: (chunk_end a, n) :: l2) ∧
      get_upper_limit m1 b = get_upper_limit m b := by
  have hU := load64_lt m (b + 8)
  change get_upper_limit m b < 2 ^ 64 at hU
  have hb := hv.block_ne
  have hstart := chain_start hv.linked
  have hsort := List.pairwise_append.mp hv.sorted
  have hsort2 := List.pairwise_cons.mp hsort.2.1
  have ha := hv.inside a (by simp)
  have hg1 : ∀ x ∈ l1, b + 16 ≤ x.1 ∧ x.1 + 32 + x.2 ≤ a.1 := by
    intro x hx
    have h1 := (hv.inside x (by simp [hx])).1
    have h2 := hsort.2.2 x hx a (by simp)
    simp only [chunk_end, SIZEOF_CNODE, SIZEOF_CONTIGUOUS] at h1 h2
    omega
  have hg2 : ∀ y ∈ l2, a.1 + 32 + a.2 + 32 + n ≤ y.1 ∧
      y.1 + 32 + y.2 ≤ get_upper_limit m b := by
    intro y hy
    have h1 := next_start_le (get_upper_limit m b) hsort2.2 y hy
    have h2 := (hv.inside y (by simp [hy])).2
    simp only [chunk_end, SIZEOF_CNODE, SIZEOF_CONTIGUOUS] at h1 h2 hfit
    omega
  have hsplit : l1 ++ a :: l2 = (l1 ++ [a]) ++ l2 := by simp
  have hl := hv.linked
  rw [hsplit] at hl
  obtain ⟨mid, hl1, hl2⟩ := chain_append.mp hl
  rw [last_addr_concat] at hl2
  have hmid := chain_start hl2
  have hF0 : get_first m b ≠ 0 := by
    have := chain_start hl1
    have hne := chain_ne_zero hl1
    rw [this]
    cases l1 with
    | nil => exact hne a (by simp)
    | cons c r => exact hne c (by simp)
  have hFle : get_first m b ≤ a.1 := by
    have := chain_start hl1
    rw [this]
    cases l1 with
    | nil => exact Nat.le_refl _
    | cons c r =>
      have := hg1 c (by simp)
      show c.1 ≤ a.1
      omega
  have hanext : get_next m a.1 = mid := by
    obtain ⟨mid1, _, k2⟩ := chain_append.mp hl1
    exact k2.2.2.2.2.2
  simp only [chunk_end, SIZEOF_CNODE, SIZEOF_CONTIGUOUS] at hfit ha ⊢
  have hle : next_start l2 (get_upper_limit m b) ≤ get_upper_limit m b := by
    cases l2 with
    | nil => exact Nat.le_refl _
    | cons d r =>
      have := hg2 d (by simp)
      show d.1 ≤ _
      omega
  have hfrm4 : ∀ x ∈ l1 ++ [a], same_node m (set_next (set_prev (set_block (set_nsize m
      (a.1 + 32 + a.2) n) (a.1 + 32 + a.2) b) (a.1 + 32 + a.2) 0) (a.1 + 32 + a.2) 0) x.1 := by
    intro x hx
    have hx1 : x.1 + 32 + x.2 ≤ a.1 + 32 + a.2 := by
      rcases List.mem_append.mp hx with e | e
      · have := hg1 x e
        omega
      · rw [List.mem_singleton] at e
        subst e
        omega
    unfold same_node
    refine ⟨?_, ?_, ?_, ?_⟩ <;>
      simp (disch := omega) only [get_nsize, get_prev, get_next, get_block, set_nsize,
        set_block, set_prev, set_next, load64_store64_other]
  have hF4 : get_first (set_next (set_prev (set_block (set_nsize m
      (a.1 + 32 + a.2) n) (a.1 + 32 + a.2) b) (a.1 + 32 + a.2) 0) (a.1 + 32 + a.2) 0) b
      = get_first m b := by
    simp (disch := omega) only [get_first, set_nsize, set_block, set_prev, set_next,
      load64_store64_other]
  have hfa := @cmalloc_find_after_chain _ _ (a.1 + 32 + a.2) _ l1 _ _ _ fuel
    (chain_frame hl1 hfrm4)
    (by
      intro x hx
      rcases List.mem_append.mp hx with e | e
      · have := hg1 x e
        omega
      · rw [List.mem_singleton] at e
        subst e
        omega)
    (by
      rw [hmid]
      cases l2 with
      | nil => exact Or.inl rfl
      | cons d r =>
        have := hg2 d (by simp)
        refine Or.inr ?_
        show ¬ d.1 < _
        omega)
    hf
  unfold cmalloc_insert
  simp only [int_to_size_t_ofNat n hn, SIZEOF_CNODE, hF4]
  rw [if_neg (by omega), hfa, add64_eq _ _ (by omega)]
  simp only []
  change load64 m (a.1 + 16) = mid at hanext
  simp (disch := omega) only [get_first, get_next, set_first, set_nsize, set_block, set_prev,
    set_next, load64_store64_other, hanext]
  have hgeo := geometry_insert_after (n := n) hv.inside hv.sorted
    (by simpa only [chunk_end, SIZEOF_CNODE] using hfit)
  simp only [chunk_end, SIZEOF_CNODE, SIZEOF_CONTIGUOUS] at hgeo
  have hsplit2 : l1 ++ a :: (a.1 + 32 + a.2, n) :: l2
      = (l1 ++ [a]) ++ (a.1 + 32 + a.2, n) :: l2 := by simp
  cases l2 with
  | nil =>
    change mid = 0 at hmid
    subst hmid
    simp only [ne_eq, not_true_eq_false, if_false]
    refine ⟨_, rfl, ⟨hb, ?_, ?_, ?_, hgeo.2⟩, ?_⟩
    · rw [hsplit2]
      refine chain_append.mpr ⟨a.1 + 32 + a.2, ?_, ?_⟩
      · have e : ∀ M : Mem, get_first M b = load64 M b := fun _ => rfl
        rw [e]
        simp (disch := omega) only [load64_store64_other]
        refine chain_set_last_next hl1 ?_ ?_ ?_ ?_ ?_
        · intro x hx
          have := hg1 x hx
          unfold same_node
          refine ⟨?_, ?_, ?_, ?_⟩ <;>
            simp (disch := omega) only [get_nsize, get_prev, get_next, get_block,
              load64_store64_other]
        · simp (disch := omega) only [get_nsize, load64_store64_other]
        · simp (disch := omega) only [get_prev, load64_store64_other]
        · simp (disch := omega) only [get_block, load64_store64_other]
        · simp (disch := omega) only [get_next, load64_store64_eq]
      · rw [last_addr_concat]
        refine ⟨rfl, ?_, ?_, ?_, ?_, ?_⟩
        · show a.1 + 32 + a.2 ≠ 0
          omega
        · simp (disch := omega) only [get_nsize, load64_store64_other, load64_store64_eq]
        · simp (disch := omega) only [get_prev, load64_store64_other, load64_store64_eq]
        · simp (disch := omega) only [get_block, load64_store64_other, load64_store64_eq]
        · show get_next _ _ = 0
          simp (disch := omega) only [get_next, load64_store64_other, load64_store64_eq]
    · simp (disch := omega) only [get_upper_limit, load64_store64_other, SIZEOF_CONTIGUOUS]
      exact hv.header
    · simp (disch := omega) only [get_upper_limit, load64_store64_other, SIZEOF_CONTIGUOUS,
        chunk_end, SIZEOF_CNODE]
      exact hgeo.1
    · simp (disch := omega) only [get_upper_limit, load64_store64_other]
  | cons d r =>
    change mid = d.1 at hmid
    subst hmid
    have hd := hg2 d (by simp)
    have hd0 : d.1 ≠ 0 := by omega
    have hr : ∀ x ∈ r, d.1 + 32 + d.2 ≤ x.1 := by
      intro x hx
      have := (List.pairwise_cons.mp hsort2.2).1 x hx
      simpa only [chunk_end, SIZEOF_CNODE] using this
    simp only [ne_eq, hd0, not_false_eq_true, if_true]
    refine ⟨_, rfl, ⟨hb, ?_, ?_, ?_, hgeo.2⟩, ?_⟩
    · rw [hsplit2]
      refine chain_append.mpr ⟨a.1 + 32 + a.2, ?_, ?_⟩
      · have e : ∀ M : Mem, get_first M b = load64 M b := fun _ => rfl
        rw [e]
        simp (disch := omega) only [load64_store64_other]
        refine chain_set_last_next hl1 ?_ ?_ ?_ ?_ ?_
        · intro x hx
          have := hg1 x hx
          unfold same_node
          refine ⟨?_, ?_, ?_, ?_⟩ <;>
            simp (disch := omega) only [get_nsize, get_prev, get_next, get_block,
              load64_store64_other]
        · simp (disch := omega) only [get_nsize, load64_store64_other]
        · simp (disch := omega) only [get_prev, load64_store64_other]
        · simp (disch := omega) only [get_block, load64_store64_other]
        · simp (disch := omega) only [get_next, load64_store64_eq]
      · rw [last_addr_concat]
        refine ⟨rfl, ?_, ?_, ?_, ?_, ?_⟩
        · show a.1 + 32 + a.2 ≠ 0
          omega
        · simp (disch := omega) only [get_nsize, load64_store64_other, load64_store64_eq]
        · simp (disch := omega) only [get_prev, load64_store64_other, load64_store64_eq]
        · simp (disch := omega) only [get_block, load64_store64_other, load64_store64_eq]
        · have e : ∀ M : Mem, get_next M (a.1 + 32 + a.2) = load64 M (a.1 + 32 + a.2 + 16) :=
            fun _ => rfl
          rw [e]
          simp (disch := omega) only [load64_store64_other, load64_store64_eq]
          refine chain_set_head_prev hl2 ?_ ?_ ?_ ?_ ?_
          · intro x hx
            have h1 := hr x hx
            have h2 := hg2 x (List.mem_cons_of_mem _ hx)
            unfold same_node
            refine ⟨?_, ?_, ?_, ?_⟩ <;>
              simp (disch := omega) only [get_nsize, get_prev, get_next, get_block,
                load64_store64_other]
          · simp (disch := omega) only [get_nsize, load64_store64_other]
          · simp (disch := omega) only [get_next, load64_store64_other]
          · simp (disch := omega) only [get_block, load64_store64_other]
          · simp (disch := omega) only [get_prev, load64_store64_other, load64_store64_eq]
    · simp (disch := omega) only [get_upper_limit, load64_store64_other, SIZEOF_CONTIGUOUS]
      exact hv.header
    · simp (disch := omega) only [get_upper_limit, load64_store64_other, SIZEOF_CONTIGUOUS,
        chunk_end, SIZEOF_CNODE]
      exact hgeo.1
    · simp (disch := omega) only [get_upper_limit, load64_store64_other]

/-! ## `cfree` on a valid block -/

theorem cfree_valid {m : Mem} {b : Nat} {l1 l2 : List Chunk} {c : Chunk}
    (hv : Valid m b (l1 ++ c :: l2)) :
    Valid (cfree m (payload c)) b (l1 ++ l2) ∧
      get_upper_limit (cfree m (payload c)) b = get_upper_limit m b := by
  have hU := load64_lt m (b + 8)
  change get_upper_limit m b < 2 ^ 64 at hU
  have hb := hv.block_ne
  have hsort := List.pairwise_append.mp hv.sorted
  have hsort2 := List.pairwise_cons.mp hsort.2.1
  have hc := hv.inside c (by simp)
  have hg2 : ∀ y ∈ l2, c.1 + 32 + c.2 ≤ y.1 ∧ y.1 + 32 + y.2 ≤ get_upper_limit m b := by
    intro y hy
    have h1 := hsort2.1 y hy
    have h2 := (hv.inside y (by simp [hy])).2
    simp only [chunk_end, SIZEOF_CNODE, SIZEOF_CONTIGUOUS] at h1 h2
    omega
  have hgeo_in : ∀ x ∈ l1 ++ l2,
      b + SIZEOF_CONTIGUOUS ≤ x.1 ∧ chunk_end x ≤ get_upper_limit m b := by
    intro x hx
    rcases List.mem_append.mp hx with e | e
    · exact hv.inside x (by simp [e])
    · exact hv.inside x (by simp [e])
  have hgeo_s : (l1 ++ l2).Pairwise (fun c d => chunk_end c ≤ d.1) :=
    List.pairwise_append.mpr ⟨hsort.1, hsort2.2,
      fun x hx y hy => hsort.2.2 x hx y (List.mem_cons_of_mem _ hy)⟩
  obtain ⟨mid, hl1, hl2⟩ := chain_append.mp hv.linked
  obtain ⟨hmid, hc0, _, hprev, hblock, hl3⟩ := hl2
  subst hmid
  have hnext := chain_start hl3
  simp only [chunk_end, SIZEOF_CNODE, SIZEOF_CONTIGUOUS] at hc
  have hp : payload c ≠ 0 := by
    simp only [payload, SIZEOF_CNODE]
    omega
  have hnode : sub64 (payload c) SIZEOF_CNODE = c.1 := by
    simp only [payload, SIZEOF_CNODE]
    rw [sub64_eq _ _ (by omega) (by omega)]
    omega
  unfold cfree
  simp only [if_neg hp, hnode, hprev, hblock]
  change load64 m (c.1 + 16) = _ at hnext
  rcases List.eq_nil_or_concat l1 with e1 | ⟨l0, a, e1⟩
  · subst e1
    have hF : get_first m b = c.1 := hl1
    simp only [last_addr, ne_eq, not_true_eq_false, if_false]
    simp (disch := omega) only [get_next, get_prev, set_first, load64_store64_other, hnext]
    change load64 m (c.1 + 8) = 0 at hprev
    rw [hprev]
    cases l2 with
    | nil =>
      simp only [next_start, ne_eq, not_true_eq_false, if_false]
      refine ⟨⟨hb, ?_, ?_, ?_, hgeo_s⟩, ?_⟩
      · show get_first _ _ = 0
        simp (disch := omega) only [get_first, load64_store64_eq]
      · simp (disch := omega) only [get_upper_limit, load64_store64_other]
        exact hv.header
      · simp (disch := omega) only [get_upper_limit, load64_store64_other]
        exact hgeo_in
      · simp (disch := omega) only [get_upper_limit, load64_store64_other]
    | cons d r =>
      have hd := hg2 d (by simp)
      have hd0 : d.1 ≠ 0 := by omega
      have hr : ∀ x ∈ r, d.1 + 32 + d.2 ≤ x.1 := by
        intro x hx
        have := (List.pairwise_cons.mp hsort2.2).1 x hx
        simpa only [chunk_end, SIZEOF_CNODE] using this
      simp only [next_start, ne_eq, hd0, not_false_eq_true, if_true]
      change get_next m c.1 = d.1 at hnext
      rw [hnext] at hl3
      refine ⟨⟨hb, ?_, ?_, ?_, hgeo_s⟩, ?_⟩
      · have e : ∀ M : Mem, get_first M b = load64 M b := fun _ => rfl
        rw [e]
        simp (disch := omega) only [set_prev, load64_store64_other, load64_store64_eq]
        refine chain_set_head_prev hl3 ?_ ?_ ?_ ?_ ?_
        · intro x hx
          have h1 := hr x hx
          have h2 := hg2 x (List.mem_cons_of_mem _ hx)
          unfold same_node
          refine ⟨?_, ?_, ?_, ?_⟩ <;>
            simp (disch := omega) only [get_nsize, get_prev, get_next, get_block, set_prev,
              load64_store64_other]
        · simp (disch := omega) only [get_nsize, set_prev, load64_store64_other]
        · simp (disch := omega) only [get_next, set_prev, load64_store64_other]
        · simp (disch := omega) only [get_block, set_prev, load64_store64_other]
        · simp (disch := omega) only [get_prev, set_prev, load64_store64_eq]
      · simp (disch := omega) only [get_upper_limit, set_prev, load64_store64_other]
        exact hv.header
      · simp (disch := omega) only [get_upper_limit, set_prev, load64_store64_other]
        exact hgeo_in
      · simp (disch := omega) only [get_upper_limit, set_prev, load64_store64_other]
  · rw [List.concat_eq_append] at e1
    subst e1
    rw [last_addr_concat] at hprev
    have ha0 : a.1 ≠ 0 := chain_ne_zero hl1 a (by simp)
    have hac : a.1 + 32 + a.2 ≤ c.1 := by
      have := hsort.2.2 a (by simp) c (by simp)
      simpa only [chunk_end, SIZEOF_CNODE] using this
    have hg1 : ∀ x ∈ l0, x.1 + 32 + x.2 ≤ a.1 := by
      intro x hx
      have := (List.pairwise_append.mp hsort.1).2.2 x hx a (by simp)
      simpa only [chunk_end, SIZEOF_CNODE] using this
    have ha := (hv.inside a (by simp)).1
    simp only [SIZEOF_CONTIGUOUS] at ha
    simp only [last_addr_concat, ne_eq, ha0, not_false_eq_true, if_true]
    simp (disch := omega) only [get_next, get_prev, set_next, load64_store64_other, hnext]
    change load64 m (c.1 + 8) = a.1 at hprev
    rw [hprev]
    cases l2 with
    | nil =>
      simp only [next_start, ne_eq, not_true_eq_false, if_false, List.append_nil]
      refine ⟨⟨hb, ?_, ?_, ?_, by simpa using hgeo_s⟩, ?_⟩
      · have e : ∀ M : Mem, get_first M b = load64 M b := fun _ => rfl
        rw [e]
        simp (disch := omega) only [load64_store64_other]
        refine chain_set_last_next hl1 ?_ ?_ ?_ ?_ ?_
        · intro x hx
          have := hg1 x hx
          unfold same_node
          refine ⟨?_, ?_, ?_, ?_⟩ <;>
            simp (disch := omega) only [get_nsize, get_prev, get_next, get_block,
              load64_store64_other]
        · simp (disch := omega) only [get_nsize, load64_store64_other]
        · simp (disch := omega) only [get_prev, load64_store64_other]
        · simp (disch := omega) only [get_block, load64_store64_other]
        · simp (disch := omega) only [get_next, load64_store64_eq]
      · simp (disch := omega) only [get_upper_limit, load64_store64_other]
        exact hv.header
      · simp (disch := omega) only [get_upper_limit, load64_store64_other]
        simpa using hgeo_in
      · simp (disch := omega) only [get_upper_limit, load64_store64_other]
    | cons d r =>
      have hd := hg2 d (by simp)
      have hd0 : d.1 ≠ 0 := by omega
      have hr : ∀ x ∈ r, d.1 + 32 + d.2 ≤ x.1 := by
        intro x hx
        have := (List.pairwise_cons.mp hsort2.2).1 x hx
        simpa only [chunk_end, SIZEOF_CNODE] using this
      simp only [next_start, ne_eq, hd0, not_false_eq_true, if_true]
      change get_next m c.1 = d.1 at hnext
      rw [hnext] at hl3
      refine ⟨⟨hb, ?_, ?_, ?_, hgeo_s⟩, ?_⟩
      · refine chain_append.mpr ⟨d.1, ?_, ?_⟩
        · have e : ∀ M : Mem, get_first M b = load64 M b := fun _ => rfl
          rw [e]
          simp (disch := omega) only [set_prev, load64_store64_other]
          refine chain_set_last_next hl1 ?_ ?_ ?_ ?_ ?_
          · intro x hx
            have := hg1 x hx
            unfold same_node
            refine ⟨?_, ?_, ?_, ?_⟩ <;>
              simp (disch := omega) only [get_nsize, get_prev, get_next, get_block,
                load64_store64_other]
          · simp (disch := omega) only [get_nsize, load64_store64_other]
          · simp (disch := omega) only [get_prev, load64_store64_other]
          · simp (disch := omega) only [get_block, load64_store64_other]
          · simp (disch := omega) only [get_next, load64_store64_other, load64_store64_eq]
        · rw [last_addr_concat]
          refine chain_set_head_prev hl3 ?_ ?_ ?_ ?_ ?_
          · intro x hx
            have h1 := hr x hx
            have h2 := hg2 x (List.mem_cons_of_mem _ hx)
            unfold same_node
            refine ⟨?_, ?_, ?_, ?_⟩ <;>
              simp (disch := omega) only [get_nsize, get_prev, get_next, get_block, set_prev,
                load64_store64_other]
          · simp (disch := omega) only [get_nsize, set_prev, load64_store64_other]
          · simp (disch := omega) only [get_next, set_prev, load64_store64_other]
          · simp (disch := omega) only [get_block, set_prev, load64_store64_other]
          · simp (disch := omega) only [get_prev, set_prev, load64_store64_eq]
      · simp (disch := omega) only [get_upper_limit, set_prev, load64_store64_other]
        exact hv.header
      · simp (disch := omega) only [get_upper_limit, set_prev, load64_store64_other]
        exact hgeo_in
      · simp (disch := omega) only [get_upper_limit, set_prev, load64_store64_other]

/-! ## `cmalloc` on a valid block -/

theorem insert_chunk_split (c : Chunk) : ∀ (l1 l2 : List Chunk),
    (∀ x ∈ l1, x.1 < c.1) → (∀ y ∈ l2, c.1 < y.1) →
    insert_chunk c (l1 ++ l2) = l1 ++ c :: l2
  | [], [], _, _ => rfl
  | [], d :: r, _, h2 => by
    have := h2 d (by simp)
    simp only [List.nil_append, insert_chunk, if_pos this]
  | x :: l1, l2, h1, h2 => by
    have hx := h1 x (by simp)
    have : ¬ c.1 < x.1 := by omega
    have ih := insert_chunk_split c l1 l2 (fun y hy => h1 y (List.mem_cons_of_mem _ hy)) h2
    show insert_chunk c (x :: (l1 ++ l2)) = x :: (l1 ++ c :: l2)
    simp only [insert_chunk, if_neg this, ih]

/-- The prologue of `cmalloc` on a valid block: no assertion fails and the scan
returns the start of the first fitting gap, `0` when there is none. -/
theorem cmalloc_unfold {m : Mem} {b : Nat} {l : List Chunk} (n fuel : Nat)
    (hv : Valid m b l) (hn : n < 2 ^ 31) (hf : l.length ≤ fuel) :
    cmalloc fuel m b (n : Int) =
      if ((first_fit (SIZEOF_CNODE + n) (gaps (b + SIZEOF_CONTIGUOUS) l
          (get_upper_limit m b))).map Prod.fst).getD 0 = 0 then .ok (m, 0)
      else cmalloc_insert fuel m b (n : Int)
        (((first_fit (SIZEOF_CNODE + n) (gaps (b + SIZEOF_CONTIGUOUS) l
          (get_upper_limit m b))).map Prod.fst).getD 0) := by
  have hb := hv.block_ne
  have htot : add64 SIZEOF_CNODE (int_to_size_t (n : Int)) = SIZEOF_CNODE + n := by
    rw [int_to_size_t_ofNat n (by omega), add64_eq _ _ (by simp only [SIZEOF_CNODE]; omega)]
  have hpos : SIZEOF_CNODE + n > 0 := by simp only [SIZEOF_CNODE]; omega
  unfold cmalloc
  rw [if_neg hb, if_neg (by simp)]
  simp only [htot, hpos, not_true_eq_false, if_false]
  rw [cmalloc_scan_valid _ _ hv hf]

theorem cmalloc_nofit {m : Mem} {b : Nat} {l : List Chunk} (n fuel : Nat)
    (hv : Valid m b l) (hn : n < 2 ^ 31) (hf : l.length ≤ fuel)
    (hg : first_fit (SIZEOF_CNODE + n) (gaps (b + SIZEOF_CONTIGUOUS) l
      (get_upper_limit m b)) = none) :
    cmalloc fuel m b (n : Int) = .ok (m, 0) := by
  rw [cmalloc_unfold n fuel hv hn hf, hg]
  simp

theorem cmalloc_fit_split {m : Mem} {b : Nat} {l : List Chunk} (n fuel : Nat) (g : Nat × Nat)
    (hv : Valid m b l) (hn : n < 2 ^ 31) (hf : l.length ≤ fuel)
    (hg : first_fit (SIZEOF_CNODE + n) (gaps (b + SIZEOF_CONTIGUOUS) l
      (get_upper_limit m b)) = some g) :
    ∃ m1 l1 l2, l = l1 ++ l2 ∧ insert_chunk (g.1, n) l = l1 ++ (g.1, n) :: l2 ∧
      cmalloc fuel m b (n : Int) = .ok (m1, g.1 + SIZEOF_CNODE) ∧
      Valid m1 b (l1 ++ (g.1, n) :: l2) ∧
      get_upper_limit m1 b = get_upper_limit m b := by
  have hb := hv.block_ne
  obtain ⟨l1, l2, e1, e2, e3, e4⟩ := first_fit_split _ _ _ _ _ hg
  have hg0 : g.1 ≠ 0 := by
    rw [e2]
    exact end_of_ne_zero _ _ (by simp only [SIZEOF_CONTIGUOUS]; omega)
  rw [cmalloc_unfold n fuel hv hn hf, hg]
  simp only [Option.map_some', Option.getD_some, if_neg hg0]
  subst e1
  have hfit : g.1 + SIZEOF_CNODE + n ≤ next_start l2 (get_upper_limit m b) := by
    simp only [SIZEOF_CNODE] at e4 ⊢
    omega
  rcases List.eq_nil_or_concat l1 with h1 | ⟨l0, a, h1⟩
  · subst h1
    change g.1 = b + SIZEOF_CONTIGUOUS at e2
    rw [e2] at hfit ⊢
    rw [List.nil_append] at hv ⊢
    obtain ⟨m1, k1, k2, k3⟩ := cmalloc_insert_head n fuel hv (by omega) hfit
    refine ⟨m1, [], l2, rfl, ?_, k1, k2, k3⟩
    have hins : insert_chunk (b + SIZEOF_CONTIGUOUS, n) l2 = (b + SIZEOF_CONTIGUOUS, n) :: l2 := by
      have := insert_chunk_split (b + SIZEOF_CONTIGUOUS, n) [] l2 (by simp) (by
        intro y hy
        have := next_start_le (get_upper_limit m b) hv.sorted y hy
        simp only [SIZEOF_CNODE] at hfit
        show b + SIZEOF_CONTIGUOUS < y.1
        omega)
      simpa using this
    rw [hins]
    rfl
  · rw [List.concat_eq_append] at h1
    subst h1
    rw [end_of_concat] at e2
    rw [e2] at hfit ⊢
    have hv2 : Valid m b (l0 ++ a :: l2) := by simpa using hv
    have hlen : l0.length ≤ fuel := by
      simp only [List.length_append, List.length_cons, List.length_nil] at hf
      omega
    obtain ⟨m1, k1, k2, k3⟩ := cmalloc_insert_after n fuel hv2 (by omega) hfit hlen
    refine ⟨m1, l0 ++ [a], l2, rfl, ?_, k1, by simpa using k2, k3⟩
    have hsort := List.pairwise_append.mp hv2.sorted
    have hins : insert_chunk (chunk_end a, n) (l0 ++ [a] ++ l2)
        = l0 ++ a :: (chunk_end a, n) :: l2 := by
      have := insert_chunk_split (chunk_end a, n) (l0 ++ [a]) l2 (by
        intro x hx
        show x.1 < chunk_end a
        rcases List.mem_append.mp hx with e | e
        · have := hsort.2.2 x e a (by simp)
          simp only [chunk_end, SIZEOF_CNODE] at this ⊢
          omega
        · rw [List.mem_singleton] at e
          subst e
          simp only [chunk_end, SIZEOF_CNODE]
          omega) (by
        intro y hy
        have := next_start_le (get_upper_limit m b)
          (List.pairwise_cons.mp hsort.2.1).2 y hy
        simp only [SIZEOF_CNODE] at hfit
        show chunk_end a < y.1
        omega)
      simpa using this
    rw [hins]
    simp

theorem cmalloc_fit {m : Mem} {b : Nat} {l : List Chunk} (n fuel : Nat) (g : Nat × Nat)
    (hv : Valid m b l) (hn : n < 2 ^ 31) (hf : l.length ≤ fuel)
    (hg : first_fit (SIZEOF_CNODE + n) (gaps (b + SIZEOF_CONTIGUOUS) l
      (get_upper_limit m b)) = some g) :
    ∃ m1, cmalloc fuel m b (n : Int) = .ok (m1, g.1 + SIZEOF_CNODE) ∧
      Valid m1 b (insert_chunk (g.1, n) l) ∧
      get_upper_limit m1 b = get_upper_limit m b := by
  obtain ⟨m1, l1, l2, _, e2, k1, k2, k3⟩ := cmalloc_fit_split n fuel g hv hn hf hg
  exact ⟨m1, k1, e2 ▸ k2, k3⟩

/-! ## More fuel never changes a result -/

theorem cmalloc_scan_mono (m : Mem) (b total : Nat) : ∀ (fuel curr g r : Nat),
    cmalloc_scan m b total fuel curr g = .ok r →
    ∀ k, cmalloc_scan m b total (fuel + k) curr g = .ok r := by
  intro fuel
  induction fuel with
  | zero =>
    intro curr g r h k
    unfold cmalloc_scan at h ⊢
    by_cases hc : curr = 0
    · rw [if_pos hc] at h ⊢
      exact h
    · rw [if_neg hc] at h
      cases h
  | succ f ih =>
    intro curr g r h k
    have e : f + 1 + k = (f + k) + 1 := by omega
    rw [e]
    unfold cmalloc_scan at h ⊢
    by_cases hc : curr = 0
    · rw [if_pos hc] at h ⊢
      exact h
    · rw [if_neg hc] at h ⊢
      exact ih _ _ _ h k

theorem cmalloc_find_after_mono (m : Mem) (new : Nat) : ∀ (fuel after r : Nat),
    cmalloc_find_after m new fuel after = .ok r →
    ∀ k, cmalloc_find_after m new (fuel + k) after = .ok r := by
  intro fuel
  induction fuel with
  | zero =>
    intro after r h k
    by_cases hc : get_next m after ≠ 0 ∧ get_next m after < new
    · simp only [cmalloc_find_after, if_pos hc] at h
      cases h
    · simp only [cmalloc_find_after, if_neg hc] at h
      cases k <;> simp only [Nat.zero_add, Nat.add_zero, cmalloc_find_after, if_neg hc, h]
  | succ f ih =>
    intro after r h k
    have e : f + 1 + k = (f + k) + 1 := by omega
    rw [e]
    by_cases hc : get_next m after ≠ 0 ∧ get_next m after < new
    · simp only [cmalloc_find_after, if_pos hc] at h ⊢
      exact ih _ _ h k
    · simp only [cmalloc_find_after, if_neg hc] at h ⊢
      exact h

theorem cmalloc_insert_mono (fuel : Nat) (m : Mem) (b : Nat) (size : Int) (g : Nat)
    (r : Mem × Nat) (h : cmalloc_insert fuel m b size g = .ok r) (k : Nat) :
    cmalloc_insert (fuel + k) m b size g = .ok r := by
  unfold cmalloc_insert at h ⊢
  simp only [] at h ⊢
  split at h
  · rename_i hc
    rw [if_pos hc]
    exact h
  · rename_i hc
    rw [if_neg hc]
    split at h
    · cases h
    · rename_i after hfa
      rw [cmalloc_find_after_mono _ _ _ _ _ hfa k]
      exact h

theorem cmalloc_mono (fuel : Nat) (m : Mem) (b : Nat) (size : Int)
    (r : Mem × Nat) (h : cmalloc fuel m b size = .ok r) (k : Nat) :
    cmalloc (fuel + k) m b size = .ok r := by
  unfold cmalloc at h ⊢
  simp only [] at h ⊢
  split at h
  · cases h
  · rename_i h1
    rw [if_neg h1]
    split at h
    · cases h
    · rename_i h2
      rw [if_neg h2]
      split at h
      · cases h
      · rename_i h3
        rw [if_neg h3]
        split at h
        · cases h
        · rename_i gl hsc
          rw [cmalloc_scan_mono _ _ _ _ _ _ _ hsc k]
          simp only []
          split at h
          · rename_i h4
            rw [if_pos h4]
            exact h
          · rename_i h4
            rw [if_neg h4]
            exact cmalloc_insert_mono _ _ _ _ _ _ h k

theorem step_mono (fuel b : Nat) (s : State) (op : Op) (r : State)
    (h : step fuel b s op = .ok r) (k : Nat) : step (fuel + k) b s op = .ok r := by
  cases op with
  | malloc size =>
    simp only [step] at h ⊢
    split at h
    · cases h
    · rename_i h1
      rw [if_neg h1]
      split at h
      · cases h
      · rename_i m1 p hc
        rw [cmalloc_mono _ _ _ _ _ hc k]
        exact h
  | free p => exact h

theorem run_ops_mono (fuel b : Nat) : ∀ (ops : List Op) (s r : State),
    run_ops fuel b s ops = .ok r → ∀ k, run_ops (fuel + k) b s ops = .ok r
  | [], s, r, h, k => h
  | op :: ops, s, r, h, k => by
    simp only [run_ops] at h ⊢
    split at h
    · cases h
    · rename_i s1 hs
      rw [step_mono _ _ _ _ _ hs k]
      exact run_ops_mono fuel b ops s1 r h k

/-! ## Call sequences keep the block valid -/

theorem insert_chunk_perm (c : Chunk) : ∀ l : List Chunk, (insert_chunk c l).Perm (c :: l)
  | [] => List.Perm.refl _
  | d :: rest => by
    by_cases h : c.1 < d.1
    · simp only [insert_chunk, if_pos h]
      exact List.Perm.refl _
    · simp only [insert_chunk, if_neg h]
      exact ((insert_chunk_perm c rest).cons d).trans (List.Perm.swap c d rest)

theorem fresh_inv (m0 : Mem) (block N : Nat) (hb : block ≠ 0)
    (h16 : SIZEOF_CONTIGUOUS ≤ N) (hN : block + N < 2 ^ 64) :
    Inv block N (fresh m0 block N) :=
  ⟨[], make_contiguous_valid m0 block N hb h16 hN,
    (make_contiguous_fresh m0 block N hb hN).2, List.Perm.refl _⟩

/-- In a valid block the chunks have pairwise different addresses. -/
theorem valid_addr_lt {m : Mem} {b : Nat} {l1 l2 : List Chunk} {c : Chunk}
    (hv : Valid m b (l1 ++ c :: l2)) :
    (∀ x ∈ l1, x.1 < c.1) ∧ (∀ y ∈ l2, c.1 < y.1) := by
  have hsort := List.pairwise_append.mp hv.sorted
  constructor
  · intro x hx
    have := hsort.2.2 x hx c (by simp)
    simp only [chunk_end, SIZEOF_CNODE] at this
    omega
  · intro y hy
    have := (List.pairwise_cons.mp hsort.2.1).1 y hy
    simp only [chunk_end, SIZEOF_CNODE] at this
    omega

theorem step_inv (fuel block N : Nat) (s : State) (op : Op) (hI : Inv block N s)
    (hf : s.live.length ≤ fuel) :
    step fuel block s op = .error .misuse ∨
      ∃ s1, step fuel block s op = .ok s1 ∧ Inv block N s1 ∧
        s1.live.length ≤ s.live.length + 1 := by
  obtain ⟨l, hv, hU, hp⟩ := hI
  have hlen : l.length ≤ fuel := by
    have := hp.length_eq
    simp only [List.length_map] at this
    omega
  cases op with
  | malloc size =>
    by_cases hr : size < 0 ∨ 2 ^ 31 ≤ size
    · left
      simp only [step, if_pos hr]
    · right
      simp only [step, if_neg hr]
      have h0 : 0 ≤ size := by omega
      obtain ⟨n, rfl⟩ := Int.eq_ofNat_of_zero_le h0
      have hn : n < 2 ^ 31 := by omega
      cases hg : first_fit (SIZEOF_CNODE + n) (gaps (block + SIZEOF_CONTIGUOUS) l
          (get_upper_limit s.mem block)) with
      | none =>
        rw [cmalloc_nofit n fuel hv hn hlen hg]
        refine ⟨_, rfl, ⟨l, hv, hU, ?_⟩, ?_⟩
        · simpa using hp
        · simp
      | some g =>
        obtain ⟨m1, k1, k2, k3⟩ := cmalloc_fit n fuel g hv hn hlen hg
        rw [k1]
        have hne : g.1 + SIZEOF_CNODE ≠ 0 := by simp only [SIZEOF_CNODE]; omega
        refine ⟨_, rfl, ⟨insert_chunk (g.1, n) l, k2, k3.trans hU, ?_⟩, ?_⟩
        · simp only [if_neg hne]
          have h1 := (insert_chunk_perm (g.1, n) l).map payload
          exact (List.Perm.cons _ hp).trans h1.symm
        · simp only [if_neg hne, List.length_cons]
          omega
  | free p =>
    by_cases hp0 : p = 0
    · right
      subst hp0
      simp only [step, if_true]
      refine ⟨_, rfl, ⟨l, ?_, ?_, hp⟩, by simp⟩
      · exact hv
      · exact hU
    · by_cases hmem : p ∈ s.live
      · right
        simp only [step, if_neg hp0, if_pos hmem]
        have hmem2 : p ∈ l.map payload := hp.mem_iff.mp hmem
        obtain ⟨c, hc, rfl⟩ := List.mem_map.mp hmem2
        obtain ⟨l1, l2, rfl⟩ := List.append_of_mem hc
        obtain ⟨k1, k2⟩ := cfree_valid hv
        obtain ⟨a1, a2⟩ := valid_addr_lt hv
        have hnot : payload c ∉ l1.map payload := by
          intro hin
          obtain ⟨x, hx, e⟩ := List.mem_map.mp hin
          have := a1 x hx
          simp only [payload] at e
          omega
        have h2 : (List.map payload (l1 ++ c :: l2)).erase (payload c)
            = List.map payload (l1 ++ l2) := by
          rw [List.map_append, List.map_cons, List.erase_append_right _ hnot,
            List.erase_cons_head, List.map_append]
        have h1 := hp.erase (payload c)
        rw [h2] at h1
        have h3 := List.length_erase_of_mem hmem
        have k3 := k2.trans hU
        generalize cfree s.mem (payload c) = M at k1 k3 ⊢
        generalize s.live.erase (payload c) = L at h1 h3 ⊢
        exact ⟨⟨M, L⟩, rfl, ⟨l1 ++ l2, k1, k3, h1⟩, by show L.length ≤ _; omega⟩
      · left
        simp only [step, if_neg hp0, if_neg hmem]

theorem run_ops_inv (fuel block N : Nat) : ∀ (ops : List Op) (s : State),
    Inv block N s → s.live.length + ops.length ≤ fuel →
    run_ops fuel block s ops = .error .misuse ∨
      ∃ s1, run_ops fuel block s ops = .ok s1 ∧ Inv block N s1
  | [], s, hI, _ => Or.inr ⟨s, rfl, hI⟩
  | op :: ops, s, hI, hf => by
    simp only [List.length_cons] at hf
    rcases step_inv fuel block N s op hI (by omega) with h | ⟨s1, h1, h2, h3⟩
    · left
      simp only [run_ops, h]
    · simp only [run_ops, h1]
      exact run_ops_inv fuel block N ops s1 h2 (by omega)

/-- Every state a call sequence reaches satisfies the invariant, whatever the
fuel was. -/
theorem run_ops_ok_inv (fuel block N : Nat) (ops : List Op) (s s1 : State)
    (hI : Inv block N s) (h : run_ops fuel block s ops = .ok s1) : Inv block N s1 := by
  have hm := run_ops_mono fuel block ops s s1 h (s.live.length + ops.length)
  rcases run_ops_inv (fuel + (s.live.length + ops.length)) block N ops s hI (by omega)
    with e | ⟨s2, e1, e2⟩
  · rw [hm] at e
    cases e
  · rw [hm] at e1
    cases e1
    exact e2

/-! ## Consequences of validity -/

theorem valid_traverse {m : Mem} {b : Nat} {l : List Chunk} (fuel : Nat)
    (hv : Valid m b l) (hf : l.length ≤ fuel) :
    traverse m fuel (get_first m b) = .ok l :=
  traverse_chain hv.linked hf

theorem sorted_addr {l : List Chunk} (h : l.Pairwise (fun c d => chunk_end c ≤ d.1)) :
    l.Pairwise (fun c d => c.1 < d.1) := by
  refine h.imp ?_
  intro c d hcd
  simp only [chunk_end, SIZEOF_CNODE] at hcd
  omega

theorem chain_block {m : Mem} {b : Nat} : ∀ {l : List Chunk} {p cur nx : Nat},
    chain m b p cur l nx → ∀ c ∈ l, get_block m c.1 = b ∧ get_nsize m c.1 = c.2
  | [], _, _, _, _, c, hc => by simp at hc
  | d :: rest, _, _, _, h, c, hc => by
    obtain ⟨_, _, h3, _, h5, h6⟩ := h
    rcases List.mem_cons.mp hc with e | e
    · subst e
      exact ⟨h5, h3⟩
    · exact chain_block h6 c e

/-- Two memories in which the same chunk list is linked agree on every node
header of the list. -/
theorem chain_same_node {m m1 : Mem} {b : Nat} : ∀ {l : List Chunk} {p cur cur1 nx : Nat},
    chain m b p cur l nx → chain m1 b p cur1 l nx → ∀ c ∈ l, same_node m m1 c.1
  | [], _, _, _, _, _, _, c, hc => by simp at hc
  | d :: rest, _, _, _, _, h, k, c, hc => by
    obtain ⟨_, _, h3, h4, h5, h6⟩ := h
    obtain ⟨_, _, k3, k4, k5, k6⟩ := k
    rcases List.mem_cons.mp hc with e | e
    · subst e
      exact ⟨k3.trans h3.symm, k4.trans h4.symm,
        (chain_start k6).trans (chain_start h6).symm, k5.trans h5.symm⟩
    · exact chain_same_node h6 k6 c e

/-- What a returning `cmalloc` call did on a valid block. -/
theorem cmalloc_result {m m1 : Mem} {b p : Nat} {l : List Chunk} (n fuel : Nat)
    (hv : Valid m b l) (hn : n < 2 ^ 31) (hf : l.length ≤ fuel)
    (h : cmalloc fuel m b (n : Int) = .ok (m1, p)) :
    (p = 0 ∧ m1 = m ∧ first_fit (SIZEOF_CNODE + n) (gaps (b + SIZEOF_CONTIGUOUS) l
        (get_upper_limit m b)) = none) ∨
    (∃ g l1 l2, first_fit (SIZEOF_CNODE + n) (gaps (b + SIZEOF_CONTIGUOUS) l
        (get_upper_limit m b)) = some g ∧ p = g.1 + SIZEOF_CNODE ∧ l = l1 ++ l2 ∧
      insert_chunk (g.1, n) l = l1 ++ (g.1, n) :: l2 ∧
      Valid m1 b (l1 ++ (g.1, n) :: l2) ∧ get_upper_limit m1 b = get_upper_limit m b) := by
  cases hg : first_fit (SIZEOF_CNODE + n) (gaps (b + SIZEOF_CONTIGUOUS) l
      (get_upper_limit m b)) with
  | none =>
    left
    rw [cmalloc_nofit n fuel hv hn hf hg] at h
    cases h
    exact ⟨rfl, rfl, rfl⟩
  | some g =>
    right
    obtain ⟨m2, l1, l2, e1, e2, k1, k2, k3⟩ := cmalloc_fit_split n fuel g hv hn hf hg
    rw [k1] at h
    cases h
    exact ⟨g, l1, l2, rfl, rfl, e1, e2, k2, k3⟩

/-- Membership in the gap list gives a first-fit hit. -/
theorem first_fit_some_of_mem {total : Nat} {gs : List (Nat × Nat)} {x : Nat × Nat}
    (hx : x ∈ gs) (hfit : total ≤ x.2) : ∃ g, first_fit total gs = some g := by
  cases h : first_fit total gs with
  | some g => exact ⟨g, rfl⟩
  | none =>
    have := (first_fit_none total gs).mp h x hx
    omega

theorem first_fit_mem {total : Nat} {gs : List (Nat × Nat)} {g : Nat × Nat}
    (h : first_fit total gs = some g) : g ∈ gs ∧ total ≤ g.2 := by
  unfold first_fit at h
  have h1 := List.mem_of_find?_eq_some h
  have h2 := List.find?_some h
  exact ⟨h1, by simpa using h2⟩

/-! ## Concrete runs return -/

theorem ok_val_of {α : Type} (r : Except Fault α) (d : α) (h : is_ok r = true) :
    r = .ok (val_of r d) := by
  cases r with
  | ok a => rfl
  | error e => cases h

theorem ok_pair_of (r : Except Fault (Mem × Nat)) (d : Mem × Nat) (h : is_ok r = true) :
    r = .ok ((val_of r d).1, (val_of r d).2) :=
  ok_val_of r d h

/-- With at least one unit of fuel per call, a call sequence on a fresh block
returns, unless the caller breaks the contract; the state it returns satisfies
the invariant. -/
theorem run_ops_returns (fuel : Nat) (m0 : Mem) (block N : Nat) (ops : List Op)
    (hb : block ≠ 0) (h16 : SIZEOF_CONTIGUOUS ≤ N) (hN : block + N < 2 ^ 64)
    (hf : ops.length ≤ fuel) :
    run_ops fuel block (fresh m0 block N) ops = .error .misuse ∨
      ∃ s, run_ops fuel block (fresh m0 block N) ops = .ok s ∧ Inv block N s :=
  run_ops_inv fuel block N ops (fresh m0 block N) (fresh_inv m0 block N hb h16 hN)
    (by show 0 + ops.length ≤ fuel; omega)

theorem reach_inv (fuel : Nat) (m0 : Mem) (block N : Nat) (ops : List Op) (s : State)
    (hb : block ≠ 0) (h16 : SIZEOF_CONTIGUOUS ≤ N) (hN : block + N < 2 ^ 64)
    (h : run_ops fuel block (fresh m0 block N) ops = .ok s) : Inv block N s :=
  run_ops_ok_inv fuel block N ops _ s (fresh_inv m0 block N hb h16 hN) h

theorem erase_split {m : Mem} {b : Nat} {l1 l2 : List Chunk} {c : Chunk}
    (hv : Valid m b (l1 ++ c :: l2)) : (l1 ++ c :: l2).erase c = l1 ++ l2 := by
  have hnot : c ∉ l1 := by
    intro hin
    have := (valid_addr_lt hv).1 c hin
    omega
  rw [List.erase_append_right _ hnot, List.erase_cons_head]

/-! ## The claims

Standing assumptions.  `make_contiguous(N)` returned `block`, so `block ≠ 0`, and
the `N` bytes of the block lie in the address space, `block + N < 2 ^ 64`.  A
request size is a non-negative C `int`, that is a natural number below `2 ^ 31`.
A call on a block with chunk list `l` is given at least `l.length` units of
fuel, one per loop iteration. -/

/-- C1: a sequence of `cmalloc` calls and `cfree` calls on live pointers on the
block from `make_contiguous(N)`, `N` at least the block header size, returns
when it is given one unit of fuel per call; and in every state such a sequence
returns, the live pointers are pairwise different and any two live chunks are
disjoint: one chunk's range of header and payload ends at or before the start
of the other, and so do the payload regions handed to the caller. -/
theorem live_chunks_disjoint (fuel : Nat) (m0 : Mem) (block N : Nat) (ops : List Op)
    (hb : block ≠ 0) (h16 : SIZEOF_CONTIGUOUS ≤ N) (hN : block + N < 2 ^ 64) :
    (ops.length ≤ fuel →
      run_ops fuel block (fresh m0 block N) ops = .error .misuse ∨
      ∃ s, run_ops fuel block (fresh m0 block N) ops = .ok s) ∧
    ∀ s, run_ops fuel block (fresh m0 block N) ops = .ok s →
    s.live.Nodup ∧ ∀ p ∈ s.live, ∀ q ∈ s.live, p ≠ q →
      SIZEOF_CNODE ≤ p ∧ SIZEOF_CNODE ≤ q ∧
      ((p - SIZEOF_CNODE) + SIZEOF_CNODE + get_nsize s.mem (p - SIZEOF_CNODE)
          ≤ q - SIZEOF_CNODE ∨
        (q - SIZEOF_CNODE) + SIZEOF_CNODE + get_nsize s.mem (q - SIZEOF_CNODE)
          ≤ p - SIZEOF_CNODE) ∧
      (p + get_nsize s.mem (p - SIZEOF_CNODE) ≤ q ∨
        q + get_nsize s.mem (q - SIZEOF_CNODE) ≤ p) := by
  refine ⟨fun hf => (run_ops_returns fuel m0 block N ops hb h16 hN hf).imp id
    (fun ⟨s, h, _⟩ => ⟨s, h⟩), ?_⟩
  intro s h
  obtain ⟨l, hv, _, hp⟩ := reach_inv fuel m0 block N ops s hb h16 hN h
  have hsym : l.Pairwise (fun c d => chunk_end c ≤ d.1 ∨ chunk_end d ≤ c.1) :=
    hv.sorted.imp (fun h => Or.inl h)
  have hall := List.Pairwise.forall (fun c d h => h.symm) hsym
  constructor
  · refine hp.nodup_iff.mpr ?_
    refine List.Nodup.map_on ?_ ((sorted_addr hv.sorted).imp (fun h e => ?_))
    · intro c hc d hd e
      by_contra hne
      have := hall hc hd hne
      simp only [payload, chunk_end, SIZEOF_CNODE] at e this
      omega
    · rw [e] at h
      omega
  · intro p hpl q hql hpq
    obtain ⟨c, hc, rfl⟩ := List.mem_map.mp (hp.mem_iff.mp hpl)
    obtain ⟨d, hd, rfl⟩ := List.mem_map.mp (hp.mem_iff.mp hql)
    have hcd : c ≠ d := fun e => hpq (by rw [e])
    have h1 := hall hc hd hcd
    have hc2 := (chain_block hv.linked c hc).2
    have hd2 := (chain_block hv.linked d hd).2
    simp only [payload, chunk_end, SIZEOF_CNODE, Nat.add_sub_cancel] at h1 ⊢
    rw [hc2, hd2]
    omega

/-- C2: on a valid block, when some candidate gap has at least
`sizeof(struct cnode) + size` bytes, `cmalloc` returns the payload pointer of a
new node placed at the start of the first such gap in scan order; every gap at
a lower address is too small, and the chunk list afterwards is the old one with
the new chunk inserted. -/
theorem cmalloc_first_fit (fuel : Nat) (m : Mem) (block : Nat) (l : List Chunk) (n : Nat)
    (x : Nat × Nat) (hv : Valid m block l) (hn : n < 2 ^ 31) (hf : l.length ≤ fuel)
    (hx : x ∈ gaps (block + SIZEOF_CONTIGUOUS) l (get_upper_limit m block))
    (hfit : SIZEOF_CNODE + n ≤ x.2) :
    ∃ g m1,
      first_fit (SIZEOF_CNODE + n)
        (gaps (block + SIZEOF_CONTIGUOUS) l (get_upper_limit m block)) = some g ∧
      g ∈ gaps (block + SIZEOF_CONTIGUOUS) l (get_upper_limit m block) ∧
      SIZEOF_CNODE + n ≤ g.2 ∧
      (∀ y ∈ gaps (block + SIZEOF_CONTIGUOUS) l (get_upper_limit m block),
        y.1 < g.1 → y.2 < SIZEOF_CNODE + n) ∧
      cmalloc fuel m block (n : Int) = .ok (m1, g.1 + SIZEOF_CNODE) ∧
      Valid m1 block (insert_chunk (g.1, n) l) ∧
      (g.1, n) ∈ insert_chunk (g.1, n) l ∧
      traverse m1 (fuel + 1) (get_first m1 block) = .ok (insert_chunk (g.1, n) l) := by
  obtain ⟨g, hg⟩ := first_fit_some_of_mem hx hfit
  obtain ⟨m1, k1, k2, _⟩ := cmalloc_fit n fuel g hv hn hf hg
  have hmem := first_fit_mem hg
  have hlow := first_fit_lower hg (gaps_sorted _ l _ hv.sorted (fun c hc => (hv.inside c hc).1))
  have hperm := insert_chunk_perm (g.1, n) l
  refine ⟨g, m1, hg, hmem.1, hmem.2, hlow, k1, k2, hperm.mem_iff.mpr (by simp), ?_⟩
  refine valid_traverse _ k2 ?_
  have := hperm.length_eq
  simp only [List.length_cons] at this
  omega

/-- C3: on a valid block, when no candidate gap has
`sizeof(struct cnode) + size` bytes, `cmalloc` returns `NULL` and the memory it
leaves is the memory it was given, so the block header and every node are
unchanged. -/
theorem cmalloc_out_of_space (fuel : Nat) (m : Mem) (block : Nat) (l : List Chunk) (n : Nat)
    (hv : Valid m block l) (hn : n < 2 ^ 31) (hf : l.length ≤ fuel)
    (hno : ∀ g ∈ gaps (block + SIZEOF_CONTIGUOUS) l (get_upper_limit m block),
      g.2 < SIZEOF_CNODE + n) :
    cmalloc fuel m block (n : Int) = .ok (m, 0) :=
  cmalloc_nofit n fuel hv hn hf ((first_fit_none _ _).mpr hno)

/-- C4: on a valid block with chunk list `l`, after `cfree` of the payload
pointer of a chunk `c` of `l` the traversal from `first` returns `l` with `c`
removed and nothing else changed: `c` and its address are gone, the list is one
shorter, still in strictly increasing address order, and the block is valid. -/
theorem cfree_list_integrity (fuel : Nat) (m : Mem) (block : Nat) (l : List Chunk)
    (c : Chunk) (hv : Valid m block l) (hc : c ∈ l) (hf : l.length ≤ fuel) :
    traverse m fuel (get_first m block) = .ok l ∧
    traverse (cfree m (payload c)) fuel (get_first (cfree m (payload c)) block)
      = .ok (l.erase c) ∧
    c ∉ l.erase c ∧ (∀ d ∈ l.erase c, d.1 ≠ c.1) ∧
    (l.erase c).length + 1 = l.length ∧
    (l.erase c).Pairwise (fun a d => a.1 < d.1) ∧
    Valid (cfree m (payload c)) block (l.erase c) := by
  obtain ⟨l1, l2, rfl⟩ := List.append_of_mem hc
  have he := erase_split hv
  obtain ⟨k1, _⟩ := cfree_valid hv
  obtain ⟨a1, a2⟩ := valid_addr_lt hv
  have hd : ∀ d ∈ l1 ++ l2, d.1 ≠ c.1 := by
    intro d hd
    rcases List.mem_append.mp hd with e | e
    · have := a1 d e
      omega
    · have := a2 d e
      omega
  have hlen : (l1 ++ l2).length + 1 = (l1 ++ c :: l2).length := by
    simp only [List.length_append, List.length_cons]
    omega
  rw [he]
  refine ⟨valid_traverse _ hv hf, valid_traverse _ k1 (by omega), ?_, hd, hlen,
    sorted_addr k1.sorted, k1⟩
  intro hin
  exact hd c hin rfl

/-- C5: a sequence of `cmalloc` calls and `cfree` calls on live pointers on the
block from `make_contiguous(N)`, `N` at least the block header size, returns
when it is given one unit of fuel per call; and in every state such a sequence
returns, the nodes reached from `first` through `next` have strictly increasing
addresses, and a further `cmalloc` that returns a pointer links the new node
right behind the nodes with a lower address and before those with a higher one
(at the head when there is no lower one). -/
theorem address_order_invariant (fuel : Nat) (m0 : Mem) (block N : Nat) (ops : List Op)
    (hb : block ≠ 0) (h16 : SIZEOF_CONTIGUOUS ≤ N) (hN : block + N < 2 ^ 64) :
    (ops.length ≤ fuel →
      run_ops fuel block (fresh m0 block N) ops = .error .misuse ∨
      ∃ s, run_ops fuel block (fresh m0 block N) ops = .ok s) ∧
    ∀ s, run_ops fuel block (fresh m0 block N) ops = .ok s →
    ∃ l, traverse s.mem l.length (get_first s.mem block) = .ok l ∧
      l.Pairwise (fun c d => c.1 < d.1) ∧
      ∀ (n fuel1 : Nat) (m1 : Mem) (p : Nat), n < 2 ^ 31 →
        cmalloc fuel1 s.mem block (n : Int) = .ok (m1, p) → p ≠ 0 →
        ∃ l1 l2, l = l1 ++ l2 ∧ (∀ x ∈ l1, x.1 < p - SIZEOF_CNODE) ∧
          (∀ y ∈ l2, p - SIZEOF_CNODE < y.1) ∧
          (l1 = [] → get_first m1 block = p - SIZEOF_CNODE) ∧
          traverse m1 (l.length + 1) (get_first m1 block)
            = .ok (l1 ++ (p - SIZEOF_CNODE, n) :: l2) ∧
          (l1 ++ (p - SIZEOF_CNODE, n) :: l2).Pairwise (fun c d => c.1 < d.1) := by
  refine ⟨fun hf => (run_ops_returns fuel m0 block N ops hb h16 hN hf).imp id
    (fun ⟨s, h, _⟩ => ⟨s, h⟩), ?_⟩
  intro s h
  obtain ⟨l, hv, _, _⟩ := reach_inv fuel m0 block N ops s hb h16 hN h
  refine ⟨l, valid_traverse _ hv (Nat.le_refl _), sorted_addr hv.sorted, ?_⟩
  intro n fuel1 m1 p hn hc hp
  have hc2 := cmalloc_mono _ _ _ _ _ hc l.length
  rcases cmalloc_result n _ hv hn (by omega) hc2 with ⟨e, _⟩ | ⟨g, l1, l2, _, e1, e2, _, k1, _⟩
  · exact absurd e hp
  · have e3 : p - SIZEOF_CNODE = g.1 := by rw [e1]; simp
    rw [e3]
    obtain ⟨a1, a2⟩ := valid_addr_lt k1
    refine ⟨l1, l2, e2, a1, a2, ?_, ?_, sorted_addr k1.sorted⟩
    · intro hnil
      subst hnil
      exact k1.linked.1
    · refine valid_traverse _ k1 ?_
      rw [e2]
      simp only [List.length_append, List.length_cons]
      omega

/-- C7: a sequence of `cmalloc` calls and `cfree` calls on live pointers on the
block from `make_contiguous(N)`, `N` at least the block header size, returns
when it is given one unit of fuel per call; and in every state such a sequence
returns, every live chunk lies between the end of the block header and
`block + N`, which `upper_limit` still holds; so a pointer a further
`cmalloc(size)` returns is at least
`block + sizeof(struct contiguous) + sizeof(struct cnode)` and its `size` bytes
end at or before `upper_limit`. -/
theorem bounds_invariant (fuel : Nat) (m0 : Mem) (block N : Nat) (ops : List Op)
    (hb : block ≠ 0) (h16 : SIZEOF_CONTIGUOUS ≤ N) (hN : block + N < 2 ^ 64) :
    (ops.length ≤ fuel →
      run_ops fuel block (fresh m0 block N) ops = .error .misuse ∨
      ∃ s, run_ops fuel block (fresh m0 block N) ops = .ok s) ∧
    ∀ s, run_ops fuel block (fresh m0 block N) ops = .ok s →
    (∀ p ∈ s.live, SIZEOF_CNODE ≤ p ∧
      block + SIZEOF_CONTIGUOUS ≤ p - SIZEOF_CNODE ∧
      (p - SIZEOF_CNODE) + SIZEOF_CNODE + get_nsize s.mem (p - SIZEOF_CNODE) ≤ block + N) ∧
    get_upper_limit s.mem block = block + N ∧
    ∀ (n fuel1 : Nat) (m1 : Mem) (p : Nat), n < 2 ^ 31 →
      cmalloc fuel1 s.mem block (n : Int) = .ok (m1, p) → p ≠ 0 →
      block + SIZEOF_CONTIGUOUS + SIZEOF_CNODE ≤ p ∧ p + n ≤ get_upper_limit m1 block ∧
        get_upper_limit m1 block = block + N := by
  refine ⟨fun hf => (run_ops_returns fuel m0 block N ops hb h16 hN hf).imp id
    (fun ⟨s, h, _⟩ => ⟨s, h⟩), ?_⟩
  intro s h
  obtain ⟨l, hv, hU, hp⟩ := reach_inv fuel m0 block N ops s hb h16 hN h
  refine ⟨?_, hU, ?_⟩
  · intro p hpl
    obtain ⟨c, hc, rfl⟩ := List.mem_map.mp (hp.mem_iff.mp hpl)
    have h1 := hv.inside c hc
    have h2 := (chain_block hv.linked c hc).2
    rw [hU] at h1
    simp only [payload, chunk_end, SIZEOF_CNODE, SIZEOF_CONTIGUOUS, Nat.add_sub_cancel]
      at h1 ⊢
    rw [h2]
    omega
  · intro n fuel1 m1 p hn hc hp0
    have hc2 := cmalloc_mono _ _ _ _ _ hc l.length
    rcases cmalloc_result n _ hv hn (by omega) hc2 with ⟨e, _⟩ | ⟨g, l1, l2, _, e1, _, _, k1, k2⟩
    · exact absurd e hp0
    · have h1 := k1.inside (g.1, n) (by simp)
      have hU1 : get_upper_limit m1 block = block + N := k2.trans hU
      subst e1
      rw [hU1] at h1 ⊢
      simp only [chunk_end, SIZEOF_CNODE, SIZEOF_CONTIGUOUS] at h1 ⊢
      exact ⟨by omega, by omega, trivial⟩

/-- C8, amended: on the block from `make_contiguous(N)` with `N` at least the
block header size, `cmalloc(size)` returns the address right behind the block
header and one node header when
`sizeof(struct contiguous) + sizeof(struct cnode) + size ≤ N`, and otherwise
returns `NULL` and leaves the memory as it was. -/
theorem fresh_capacity_limit (fuel : Nat) (m0 : Mem) (block N n : Nat)
    (hb : block ≠ 0) (h16 : SIZEOF_CONTIGUOUS ≤ N) (hN : block + N < 2 ^ 64)
    (hn : n < 2 ^ 31) :
    (SIZEOF_CONTIGUOUS + SIZEOF_CNODE + n ≤ N →
      ∃ m1, cmalloc fuel (make_contiguous m0 block N).1 block (n : Int)
        = .ok (m1, block + SIZEOF_CONTIGUOUS + SIZEOF_CNODE)) ∧
    (¬ SIZEOF_CONTIGUOUS + SIZEOF_CNODE + n ≤ N →
      cmalloc fuel (make_contiguous m0 block N).1 block (n : Int)
        = .ok ((make_contiguous m0 block N).1, 0)) := by
  have hv := make_contiguous_valid m0 block N hb h16 hN
  have hU := (make_contiguous_fresh m0 block N hb hN).2
  have hgaps : gaps (block + SIZEOF_CONTIGUOUS) []
      (get_upper_limit (make_contiguous m0 block N).1 block)
      = [(block + SIZEOF_CONTIGUOUS, N - SIZEOF_CONTIGUOUS)] := by
    rw [hU]
    simp only [gaps, tail_gaps, next_start, SIZEOF_CONTIGUOUS] at h16 ⊢
    congr 2
    omega
  constructor
  · intro hfit
    have hg : first_fit (SIZEOF_CNODE + n) (gaps (block + SIZEOF_CONTIGUOUS) []
        (get_upper_limit (make_contiguous m0 block N).1 block))
        = some (block + SIZEOF_CONTIGUOUS, N - SIZEOF_CONTIGUOUS) := by
      rw [hgaps, first_fit_cons, if_pos (by show SIZEOF_CNODE + n ≤ N - SIZEOF_CONTIGUOUS; omega)]
    obtain ⟨m1, k1, _, _⟩ := cmalloc_fit n fuel _ hv hn (Nat.zero_le _) hg
    exact ⟨m1, k1⟩
  · intro hno
    refine cmalloc_nofit n fuel hv hn (Nat.zero_le _) ((first_fit_none _ _).mpr ?_)
    rw [hgaps]
    intro g hg
    rw [List.mem_singleton] at hg
    subst hg
    show N - SIZEOF_CONTIGUOUS < SIZEOF_CNODE + n
    omega

/-- C9: on a valid block with chunk list `l`, when `cmalloc(size)` returns a
pointer `p`, `cfree(p)` leaves a valid block with the same chunk list `l`, the
same `first`, and every node header of `l` as before the allocation; a
following `cmalloc(size)` returns `p` again. -/
theorem cmalloc_cfree_round_trip (fuel : Nat) (m : Mem) (block : Nat) (l : List Chunk)
    (n : Nat) (m1 : Mem) (p : Nat) (hv : Valid m block l) (hn : n < 2 ^ 31)
    (hf : l.length ≤ fuel) (h : cmalloc fuel m block (n : Int) = .ok (m1, p)) (hp : p ≠ 0) :
    Valid (cfree m1 p) block l ∧
    get_first (cfree m1 p) block = get_first m block ∧
    traverse m fuel (get_first m block) = .ok l ∧
    traverse (cfree m1 p) fuel (get_first (cfree m1 p) block) = .ok l ∧
    (∀ c ∈ l, same_node m (cfree m1 p) c.1) ∧
    ∃ m2, cmalloc fuel (cfree m1 p) block (n : Int) = .ok (m2, p) := by
  rcases cmalloc_result n fuel hv hn hf h with ⟨e, _⟩ | ⟨g, l1, l2, hg, e1, e2, _, k1, k2⟩
  · exact absurd e hp
  · subst e1
    have hpay : payload (g.1, n) = g.1 + SIZEOF_CNODE := rfl
    obtain ⟨c1, c2⟩ := cfree_valid k1
    rw [hpay, ← e2] at c1
    rw [hpay] at c2
    have hU : get_upper_limit (cfree m1 (g.1 + SIZEOF_CNODE)) block
        = get_upper_limit m block := c2.trans k2
    refine ⟨c1, ?_, valid_traverse _ hv hf, valid_traverse _ c1 hf,
      chain_same_node hv.linked c1.linked, ?_⟩
    · exact (chain_start c1.linked).trans (chain_start hv.linked).symm
    · rw [← hU] at hg
      obtain ⟨m2, j1, _, _⟩ := cmalloc_fit n fuel g c1 hn hf hg
      exact ⟨m2, j1⟩

/-- C10: on a fresh block on which `cmalloc(a)` returns `A` and then
`cmalloc(b)` returns `B`, `A` is the address right behind the block header and
one node header, `B` lies after `A`, and after `cfree(A)` every `cmalloc(c)`
with `c ≤ a` returns `A`. -/
theorem first_fit_determinism (fuel : Nat) (m0 : Mem) (block N a b c : Nat)
    (m1 : Mem) (pA : Nat) (m2 : Mem) (pB : Nat)
    (hb : block ≠ 0) (h16 : SIZEOF_CONTIGUOUS ≤ N) (hN : block + N < 2 ^ 64)
    (ha : a < 2 ^ 31) (hb2 : b < 2 ^ 31) (hca : c ≤ a) (hf : 1 ≤ fuel)
    (h1 : cmalloc fuel (make_contiguous m0 block N).1 block (a : Int) = .ok (m1, pA))
    (hA : pA ≠ 0)
    (h2 : cmalloc fuel m1 block (b : Int) = .ok (m2, pB)) (hB : pB ≠ 0) :
    pA = block + SIZEOF_CONTIGUOUS + SIZEOF_CNODE ∧ pA < pB ∧
    ∃ m3, cmalloc fuel (cfree m2 pA) block (c : Int) = .ok (m3, pA) := by
  have hv := make_contiguous_valid m0 block N hb h16 hN
  rcases cmalloc_result a fuel hv ha (Nat.zero_le _) h1 with
    ⟨e, _⟩ | ⟨g, l1, l2, hg, e1, e2, e3, k1, k2⟩
  · exact absurd e hA
  · have hg1 : g.1 = block + SIZEOF_CONTIGUOUS := by
      have := (first_fit_mem hg).1
      simp only [gaps, tail_gaps, List.mem_singleton] at this
      rw [this]
    rw [← e3] at k1
    simp only [insert_chunk, hg1] at k1
    rw [hg1] at e1
    subst e1
    rcases cmalloc_result b fuel k1 hb2 (by simpa using hf) h2 with
      ⟨e, _⟩ | ⟨g2, j1, j2, hg2, f1, f2, f3, k3, k4⟩
    · exact absurd e hB
    · have hmem := first_fit_mem hg2
      have hg2a : g2.1 = block + SIZEOF_CONTIGUOUS + SIZEOF_CNODE + a := by
        have h3 := hmem.1
        have h4 := hmem.2
        simp only [gaps, tail_gaps, next_start, chunk_end, List.mem_cons, List.mem_singleton,
          List.not_mem_nil, or_false] at h3
        rcases h3 with h3 | h3
        · rw [h3] at h4
          simp only [SIZEOF_CNODE] at h4
          omega
        · rw [h3]
      rw [← f3] at k3
      have hlt : ¬ g2.1 < block + SIZEOF_CONTIGUOUS := by omega
      simp only [insert_chunk, hlt, if_false] at k3
      obtain ⟨c1, c2⟩ := @cfree_valid _ _ [] _ _ k3
      simp only [List.nil_append] at c1
      have hpay : payload (block + SIZEOF_CONTIGUOUS, a)
          = block + SIZEOF_CONTIGUOUS + SIZEOF_CNODE := rfl
      rw [hpay] at c1 c2
      have hfit : first_fit (SIZEOF_CNODE + c) (gaps (block + SIZEOF_CONTIGUOUS) [(g2.1, b)]
          (get_upper_limit (cfree m2 (block + SIZEOF_CONTIGUOUS + SIZEOF_CNODE)) block))
          = some (block + SIZEOF_CONTIGUOUS, g2.1 - (block + SIZEOF_CONTIGUOUS)) := by
        rw [gaps_cons, first_fit_cons, if_pos]
        show SIZEOF_CNODE + c ≤ g2.1 - (block + SIZEOF_CONTIGUOUS)
        omega
      obtain ⟨m3, i1, _, _⟩ := cmalloc_fit c fuel _ c1 (by omega) (by simpa using hf) hfit
      refine ⟨rfl, ?_, m3, i1⟩
      rw [f1, hg2a]
      simp only [SIZEOF_CNODE]
      omega

/-! ## The claims on concrete runs -/

/-- C1 on the run `cmalloc(10); cmalloc(20); cmalloc(5)` on a block of 256
bytes. -/
theorem live_chunks_disjoint_witness :
    demo_three.live = [4238, 4186, 4144] ∧
    run_ops 4 4096 (fresh zero_mem 4096 256) [.malloc 10, .malloc 20, .malloc 5]
      = .ok demo_three ∧
    (demo_three.live.Nodup ∧ ∀ p ∈ demo_three.live, ∀ q ∈ demo_three.live, p ≠ q →
      SIZEOF_CNODE ≤ p ∧ SIZEOF_CNODE ≤ q ∧
      ((p - SIZEOF_CNODE) + SIZEOF_CNODE + get_nsize demo_three.mem (p - SIZEOF_CNODE)
          ≤ q - SIZEOF_CNODE ∨
        (q - SIZEOF_CNODE) + SIZEOF_CNODE + get_nsize demo_three.mem (q - SIZEOF_CNODE)
          ≤ p - SIZEOF_CNODE) ∧
      (p + get_nsize demo_three.mem (p - SIZEOF_CNODE) ≤ q ∨
        q + get_nsize demo_three.mem (q - SIZEOF_CNODE) ≤ p)) :=
  ⟨by decide!, ok_val_of _ _ (by decide!),
    (live_chunks_disjoint 4 zero_mem 4096 256 [.malloc 10, .malloc 20, .malloc 5]
      (by decide) (by decide) (by decide)).2 demo_three (ok_val_of _ _ (by decide!))⟩

/-- C2 in the state `demo_holes`: `cmalloc(20)` needs 52 bytes, skips the gap
of 42 bytes at 4112 and takes the gap of 146 bytes at 4206. -/
theorem cmalloc_first_fit_witness :
    Valid demo_holes.mem 4096 [(4154, 20)] ∧
    gaps (4096 + SIZEOF_CONTIGUOUS) [(4154, 20)] (get_upper_limit demo_holes.mem 4096)
      = [(4112, 42), (4206, 146)] ∧
    ∃ g m1,
      first_fit (SIZEOF_CNODE + 20)
        (gaps (4096 + SIZEOF_CONTIGUOUS) [(4154, 20)]
          (get_upper_limit demo_holes.mem 4096)) = some g ∧
      g ∈ gaps (4096 + SIZEOF_CONTIGUOUS) [(4154, 20)]
        (get_upper_limit demo_holes.mem 4096) ∧
      SIZEOF_CNODE + 20 ≤ g.2 ∧
      (∀ y ∈ gaps (4096 + SIZEOF_CONTIGUOUS) [(4154, 20)]
          (get_upper_limit demo_holes.mem 4096),
        y.1 < g.1 → y.2 < SIZEOF_CNODE + 20) ∧
      cmalloc 1 demo_holes.mem 4096 ((20 : Nat) : Int) = .ok (m1, g.1 + SIZEOF_CNODE) ∧
      Valid m1 4096 (insert_chunk (g.1, 20) [(4154, 20)]) ∧
      (g.1, 20) ∈ insert_chunk (g.1, 20) [(4154, 20)] ∧
      traverse m1 (1 + 1) (get_first m1 4096) = .ok (insert_chunk (g.1, 20) [(4154, 20)]) :=
  ⟨by decide!, by decide!,
    cmalloc_first_fit 1 demo_holes.mem 4096 [(4154, 20)] 20 (4206, 146)
      (by decide!) (by decide) (by decide) (by decide!) (by decide)⟩

/-- C3 in the state `demo_holes`: `cmalloc(200)` needs 232 bytes and no gap
has them. -/
theorem cmalloc_out_of_space_witness :
    Valid demo_holes.mem 4096 [(4154, 20)] ∧
    gaps (4096 + SIZEOF_CONTIGUOUS) [(4154, 20)] (get_upper_limit demo_holes.mem 4096)
      = [(4112, 42), (4206, 146)] ∧
    cmalloc 1 demo_holes.mem 4096 ((200 : Nat) : Int) = .ok (demo_holes.mem, 0) :=
  ⟨by decide!, by decide!,
    cmalloc_out_of_space 1 demo_holes.mem 4096 [(4154, 20)] 200
      (by decide!) (by decide) (by decide) (by decide!)⟩

/-- C4 in the state `demo_three`: `cfree` of the middle chunk. -/
theorem cfree_list_integrity_witness :
    Valid demo_three.mem 4096 [(4112, 10), (4154, 20), (4206, 5)] ∧
    [(4112, 10), (4154, 20), (4206, 5)].erase ((4154, 20) : Chunk) = [(4112, 10), (4206, 5)] ∧
    (traverse demo_three.mem 3 (get_first demo_three.mem 4096)
      = .ok [(4112, 10), (4154, 20), (4206, 5)] ∧
    traverse (cfree demo_three.mem (payload (4154, 20))) 3
        (get_first (cfree demo_three.mem (payload (4154, 20))) 4096)
      = .ok ([(4112, 10), (4154, 20), (4206, 5)].erase (4154, 20)) ∧
    ((4154, 20) : Chunk) ∉ [(4112, 10), (4154, 20), (4206, 5)].erase (4154, 20) ∧
    (∀ d ∈ [(4112, 10), (4154, 20), (4206, 5)].erase ((4154, 20) : Chunk),
      d.1 ≠ ((4154, 20) : Chunk).1) ∧
    ([(4112, 10), (4154, 20), (4206, 5)].erase ((4154, 20) : Chunk)).length + 1
      = [(4112, 10), (4154, 20), (4206, 5)].length ∧
    ([(4112, 10), (4154, 20), (4206, 5)].erase ((4154, 20) : Chunk)).Pairwise
      (fun a d => a.1 < d.1) ∧
    Valid (cfree demo_three.mem (payload (4154, 20))) 4096
      ([(4112, 10), (4154, 20), (4206, 5)].erase (4154, 20))) :=
  ⟨by decide!, by decide,
    cfree_list_integrity 3 demo_three.mem 4096 [(4112, 10), (4154, 20), (4206, 5)] (4154, 20)
      (by decide!) (by decide) (by decide)⟩

/-- C5 on the run `A = cmalloc(10); cmalloc(20); cfree(A)` on a block of 256
bytes. -/
theorem address_order_invariant_witness :
    demo_holes.live = [4186] ∧
    run_ops 4 4096 (fresh zero_mem 4096 256) [.malloc 10, .malloc 20, .free 4144]
      = .ok demo_holes ∧
    ∃ l, traverse demo_holes.mem l.length (get_first demo_holes.mem 4096) = .ok l ∧
      l.Pairwise (fun c d => c.1 < d.1) ∧
      ∀ (n fuel1 : Nat) (m1 : Mem) (p : Nat), n < 2 ^ 31 →
        cmalloc fuel1 demo_holes.mem 4096 (n : Int) = .ok (m1, p) → p ≠ 0 →
        ∃ l1 l2, l = l1 ++ l2 ∧ (∀ x ∈ l1, x.1 < p - SIZEOF_CNODE) ∧
          (∀ y ∈ l2, p - SIZEOF_CNODE < y.1) ∧
          (l1 = [] → get_first m1 4096 = p - SIZEOF_CNODE) ∧
          traverse m1 (l.length + 1) (get_first m1 4096)
            = .ok (l1 ++ (p - SIZEOF_CNODE, n) :: l2) ∧
          (l1 ++ (p - SIZEOF_CNODE, n) :: l2).Pairwise (fun c d => c.1 < d.1) :=
  ⟨by decide!, ok_val_of _ _ (by decide!),
    (address_order_invariant 4 zero_mem 4096 256 [.malloc 10, .malloc 20, .free 4144]
      (by decide) (by decide) (by decide)).2 demo_holes (ok_val_of _ _ (by decide!))⟩

/-- C7 on the run `cmalloc(10); cmalloc(20); cmalloc(5)` on a block of 256
bytes. -/
theorem bounds_invariant_witness :
    demo_three.live = [4238, 4186, 4144] ∧
    run_ops 4 4096 (fresh zero_mem 4096 256) [.malloc 10, .malloc 20, .malloc 5]
      = .ok demo_three ∧
    ((∀ p ∈ demo_three.live, SIZEOF_CNODE ≤ p ∧
      4096 + SIZEOF_CONTIGUOUS ≤ p - SIZEOF_CNODE ∧
      (p - SIZEOF_CNODE) + SIZEOF_CNODE + get_nsize demo_three.mem (p - SIZEOF_CNODE)
        ≤ 4096 + 256) ∧
    get_upper_limit demo_three.mem 4096 = 4096 + 256 ∧
    ∀ (n fuel1 : Nat) (m1 : Mem) (p : Nat), n < 2 ^ 31 →
      cmalloc fuel1 demo_three.mem 4096 (n : Int) = .ok (m1, p) → p ≠ 0 →
      4096 + SIZEOF_CONTIGUOUS + SIZEOF_CNODE ≤ p ∧ p + n ≤ get_upper_limit m1 4096 ∧
        get_upper_limit m1 4096 = 4096 + 256) :=
  ⟨by decide!, ok_val_of _ _ (by decide!),
    (bounds_invariant 4 zero_mem 4096 256 [.malloc 10, .malloc 20, .malloc 5]
      (by decide) (by decide) (by decide)).2 demo_three (ok_val_of _ _ (by decide!))⟩

/-- C8 as stated fails: on the block from `make_contiguous(8)` the gap behind
the block header is computed as `8 - 16` in `size_t`, and `cmalloc(block, 0)`
returns the pointer 4144 although `16 + 32 + 0` bytes do not fit in 8. -/
theorem fresh_capacity_small_block :
    is_ok demo_small = true ∧ (val_of demo_small (zero_mem, 0)).2 = 4144 ∧
    get_upper_limit (make_contiguous zero_mem 4096 8).1 4096 = 4096 + 8 ∧
    cmalloc_gap0 (make_contiguous zero_mem 4096 8).1 4096 SIZEOF_CNODE = 4112 ∧
    ¬ SIZEOF_CONTIGUOUS + SIZEOF_CNODE + 0 ≤ 8 := by
  decide!

/-- C8, amended, on a block of 64 bytes and a request of 16 bytes, which fits
exactly. -/
theorem fresh_capacity_limit_witness :
    (SIZEOF_CONTIGUOUS + SIZEOF_CNODE + 16 ≤ 64 →
      ∃ m1, cmalloc 0 (make_contiguous zero_mem 4096 64).1 4096 ((16 : Nat) : Int)
        = .ok (m1, 4096 + SIZEOF_CONTIGUOUS + SIZEOF_CNODE)) ∧
    (¬ SIZEOF_CONTIGUOUS + SIZEOF_CNODE + 16 ≤ 64 →
      cmalloc 0 (make_contiguous zero_mem 4096 64).1 4096 ((16 : Nat) : Int)
        = .ok ((make_contiguous zero_mem 4096 64).1, 0)) :=
  fresh_capacity_limit 0 zero_mem 4096 64 16 (by decide) (by decide) (by decide) (by decide)

/-- C9 in the state `demo_holes` with `cmalloc(20)`, which returns 4238. -/
theorem cmalloc_cfree_round_trip_witness :
    Valid demo_holes.mem 4096 [(4154, 20)] ∧ demo_alloc.2 = 4238 ∧
    (Valid (cfree demo_alloc.1 demo_alloc.2) 4096 [(4154, 20)] ∧
    get_first (cfree demo_alloc.1 demo_alloc.2) 4096 = get_first demo_holes.mem 4096 ∧
    traverse demo_holes.mem 1 (get_first demo_holes.mem 4096) = .ok [(4154, 20)] ∧
    traverse (cfree demo_alloc.1 demo_alloc.2) 1
      (get_first (cfree demo_alloc.1 demo_alloc.2) 4096) = .ok [(4154, 20)] ∧
    (∀ c ∈ [((4154, 20) : Chunk)],
      same_node demo_holes.mem (cfree demo_alloc.1 demo_alloc.2) c.1) ∧
    ∃ m2, cmalloc 1 (cfree demo_alloc.1 demo_alloc.2) 4096 ((20 : Nat) : Int)
      = .ok (m2, demo_alloc.2)) :=
  ⟨by decide!, by decide!,
    cmalloc_cfree_round_trip 1 demo_holes.mem 4096 [(4154, 20)] 20 demo_alloc.1 demo_alloc.2
      (by decide!) (by decide) (by decide)
      (ok_pair_of (cmalloc 1 demo_holes.mem 4096 ((20 : Nat) : Int)) (zero_mem, 0)
        (by decide!))
      (by decide!)⟩

/-- C10 with `a = 10`, `b = 10`, `c = 5` on a block of 256 bytes. -/
theorem first_fit_determinism_witness :
    demo_A.2 = 4144 ∧ demo_B.2 = 4186 ∧
    (demo_A.2 = 4096 + SIZEOF_CONTIGUOUS + SIZEOF_CNODE ∧ demo_A.2 < demo_B.2 ∧
    ∃ m3, cmalloc 1 (cfree demo_B.1 demo_A.2) 4096 ((5 : Nat) : Int) = .ok (m3, demo_A.2)) :=
  ⟨by decide!, by decide!,
    first_fit_determinism 1 zero_mem 4096 256 10 10 5 demo_A.1 demo_A.2 demo_B.1 demo_B.2
      (by decide) (by decide) (by decide) (by decide) (by decide) (by decide) (by decide)
      (ok_pair_of (cmalloc 1 (make_contiguous zero_mem 4096 256).1 4096 ((10 : Nat) : Int))
        (zero_mem, 0) (by decide!))
      (by decide!)
      (ok_pair_of (cmalloc 1 demo_A.1 4096 ((10 : Nat) : Int)) (zero_mem, 0) (by decide!))
      (by decide!)⟩

/-! ## The 128-byte scenario -/

theorem gaps_nil (lo hi : Nat) : gaps lo [] hi = [(lo, hi - lo)] := rfl

theorem gaps_single (lo hi : Nat) (c : Chunk) :
    gaps lo [c] hi = [(lo, c.1 - lo), (chunk_end c, hi - chunk_end c)] := rfl

/-- C11, amended: on the block from `make_contiguous(128)` the first
`cmalloc(40)` returns `ptr1`, the address behind the block header and one node
header; the second `cmalloc(40)` returns `NULL` and leaves the memory as it
was, because 40 bytes are left for a request of 72; after `cfree(ptr1)`,
`cmalloc(30)` returns `ptr1`; then `cmalloc(100)` returns `NULL`, leaves the
memory as it was, and the chunk list still is the one chunk of 30 bytes. -/
theorem scenario_128 (fuel : Nat) (m0 : Mem) (block : Nat) (hb : block ≠ 0)
    (hN : block + 128 < 2 ^ 64) (hf : 1 ≤ fuel) :
    ∃ m1 m3,
      cmalloc fuel (make_contiguous m0 block 128).1 block ((40 : Nat) : Int)
        = .ok (m1, block + SIZEOF_CONTIGUOUS + SIZEOF_CNODE) ∧
      cmalloc fuel m1 block ((40 : Nat) : Int) = .ok (m1, 0) ∧
      traverse m1 fuel (get_first m1 block) = .ok [(block + SIZEOF_CONTIGUOUS, 40)] ∧
      cmalloc fuel (cfree m1 (block + SIZEOF_CONTIGUOUS + SIZEOF_CNODE)) block ((30 : Nat) : Int)
        = .ok (m3, block + SIZEOF_CONTIGUOUS + SIZEOF_CNODE) ∧
      traverse m3 fuel (get_first m3 block) = .ok [(block + SIZEOF_CONTIGUOUS, 30)] ∧
      cmalloc fuel m3 block ((100 : Nat) : Int) = .ok (m3, 0) := by
  have hv0 := make_contiguous_valid m0 block 128 hb (by decide) hN
  have hU0 := (make_contiguous_fresh m0 block 128 hb hN).2
  have hg0 : first_fit (SIZEOF_CNODE + 40) (gaps (block + SIZEOF_CONTIGUOUS) []
      (get_upper_limit (make_contiguous m0 block 128).1 block))
      = some (block + SIZEOF_CONTIGUOUS, block + 128 - (block + SIZEOF_CONTIGUOUS)) := by
    rw [hU0, gaps_nil, first_fit_cons, if_pos]
    simp only [SIZEOF_CNODE, SIZEOF_CONTIGUOUS]
    omega
  obtain ⟨m1, k1, hv1, hU1⟩ := cmalloc_fit 40 fuel _ hv0 (by decide) (Nat.zero_le _) hg0
  change Valid m1 block [(block + SIZEOF_CONTIGUOUS, 40)] at hv1
  rw [hU0] at hU1
  have hno1 : first_fit (SIZEOF_CNODE + 40) (gaps (block + SIZEOF_CONTIGUOUS)
      [(block + SIZEOF_CONTIGUOUS, 40)] (get_upper_limit m1 block)) = none := by
    rw [hU1, gaps_single, first_fit_cons, if_neg, first_fit_cons, if_neg]
    · rfl
    · simp only [chunk_end, SIZEOF_CNODE, SIZEOF_CONTIGUOUS]
      omega
    · simp only [SIZEOF_CNODE, SIZEOF_CONTIGUOUS]
      omega
  have k2 := cmalloc_nofit 40 fuel hv1 (by decide) hf hno1
  obtain ⟨hv2, hU2⟩ := @cfree_valid _ _ [] [] _ hv1
  change Valid (cfree m1 (block + SIZEOF_CONTIGUOUS + SIZEOF_CNODE)) block [] at hv2
  change get_upper_limit (cfree m1 (block + SIZEOF_CONTIGUOUS + SIZEOF_CNODE)) block = _ at hU2
  rw [hU1] at hU2
  have hg2 : first_fit (SIZEOF_CNODE + 30) (gaps (block + SIZEOF_CONTIGUOUS) []
      (get_upper_limit (cfree m1 (block + SIZEOF_CONTIGUOUS + SIZEOF_CNODE)) block))
      = some (block + SIZEOF_CONTIGUOUS, block + 128 - (block + SIZEOF_CONTIGUOUS)) := by
    rw [hU2, gaps_nil, first_fit_cons, if_pos]
    simp only [SIZEOF_CNODE, SIZEOF_CONTIGUOUS]
    omega
  obtain ⟨m3, k3, hv3, hU3⟩ := cmalloc_fit 30 fuel _ hv2 (by decide) (Nat.zero_le _) hg2
  change Valid m3 block [(block + SIZEOF_CONTIGUOUS, 30)] at hv3
  rw [hU2] at hU3
  have hno3 : first_fit (SIZEOF_CNODE + 100) (gaps (block + SIZEOF_CONTIGUOUS)
      [(block + SIZEOF_CONTIGUOUS, 30)] (get_upper_limit m3 block)) = none := by
    rw [hU3, gaps_single, first_fit_cons, if_neg, first_fit_cons, if_neg]
    · rfl
    · simp only [chunk_end, SIZEOF_CNODE, SIZEOF_CONTIGUOUS]
      omega
    · simp only [SIZEOF_CNODE, SIZEOF_CONTIGUOUS]
      omega
  have k4 := cmalloc_nofit 100 fuel hv3 (by decide) hf hno3
  exact ⟨m1, m3, k1, k2, valid_traverse fuel hv1 hf, k3, valid_traverse fuel hv3 hf, k4⟩

/-- C11 as stated fails: on the block from `make_contiguous(128)` the first
`cmalloc(40)` returns 4144 and the second `cmalloc(40)` returns `NULL`: of the
112 bytes behind the block header the first chunk takes 72, and the 40 bytes
left are less than the 72 the second request needs. -/
theorem second_allocation_fails :
    is_ok (cmalloc 1 demo128 4096 ((40 : Nat) : Int)) = true ∧ demo128_first.2 = 4144 ∧
    is_ok demo128_second = true ∧ (val_of demo128_second (zero_mem, 1)).2 = 0 ∧
    val_of (print_debug_gaps 1 demo128_first.1 4096) [] = [0, 40] := by
  decide!

/-- C11, amended, on the block at address 4096 in zeroed memory. -/
theorem scenario_128_witness :
    ∃ m1 m3,
      cmalloc 1 (make_contiguous zero_mem 4096 128).1 4096 ((40 : Nat) : Int)
        = .ok (m1, 4096 + SIZEOF_CONTIGUOUS + SIZEOF_CNODE) ∧
      cmalloc 1 m1 4096 ((40 : Nat) : Int) = .ok (m1, 0) ∧
      traverse m1 1 (get_first m1 4096) = .ok [(4096 + SIZEOF_CONTIGUOUS, 40)] ∧
      cmalloc 1 (cfree m1 (4096 + SIZEOF_CONTIGUOUS + SIZEOF_CNODE)) 4096 ((30 : Nat) : Int)
        = .ok (m3, 4096 + SIZEOF_CONTIGUOUS + SIZEOF_CNODE) ∧
      traverse m3 1 (get_first m3 4096) = .ok [(4096 + SIZEOF_CONTIGUOUS, 30)] ∧
      cmalloc 1 m3 4096 ((100 : Nat) : Int) = .ok (m3, 0) :=
  scenario_128 1 zero_mem 4096 (by decide) (by decide) (by decide)

/-! ## Gaps of a valid block -/

theorem tail_gaps_eq : ∀ (c : Chunk) (rest : List Chunk) (hi : Nat),
    tail_gaps (c :: rest) hi = gaps (chunk_end c) rest hi := fun _ _ _ => rfl

theorem gaps_append (hi : Nat) : ∀ (l1 l2 : List Chunk) (lo : Nat),
    gaps lo (l1 ++ l2) hi = pre_gaps lo l1 ++ gaps (end_of lo l1) l2 hi
  | [], _, _ => rfl
  | c :: r, l2, lo => by
    show gaps lo (c :: (r ++ l2)) hi = _
    rw [gaps_cons, gaps_append hi r l2 (chunk_end c)]
    rfl

theorem pre_gaps_length (l : List Chunk) : ∀ lo : Nat, (pre_gaps lo l).length = l.length := by
  induction l with
  | nil => intro lo; rfl
  | cons c r ih =>
    intro lo
    simp only [pre_gaps, List.length_cons, ih]

/-- Header, chunks and gaps add up to the block: the gaps of a sorted chunk
list between `lo` and `hi`, the chunks and `lo` sum to `hi`. -/
theorem gaps_sum (hi : Nat) : ∀ (l : List Chunk) (lo : Nat),
    l.Pairwise (fun c d => chunk_end c ≤ d.1) → (∀ c ∈ l, lo ≤ c.1 ∧ chunk_end c ≤ hi) →
    lo ≤ hi →
    ((gaps lo l hi).map Prod.snd).sum + (l.map (fun c => SIZEOF_CNODE + c.2)).sum + lo = hi
  | [], lo, _, _, hle => by
    simp only [gaps_nil, List.map_cons, List.map_nil, List.sum_cons, List.sum_nil]
    omega
  | c :: r, lo, hs, hin, _ => by
    have hc := hin c (by simp)
    have ih := gaps_sum hi r (chunk_end c) (List.pairwise_cons.mp hs).2
      (fun d hd => ⟨(List.pairwise_cons.mp hs).1 d hd, (hin d (List.mem_cons_of_mem _ hd)).2⟩)
      hc.2
    rw [gaps_cons]
    simp only [List.map_cons, List.sum_cons]
    simp only [chunk_end] at ih hc ⊢
    omega

theorem gapsize_ok (m : Mem) (n0 n1 : Nat) (h0 : n0 ≠ 0)
    (hle : n0 + SIZEOF_CNODE + get_nsize m n0 ≤ n1) (h1 : n1 < 2 ^ 64) :
    gapsize m n0 n1 = .ok (n1 - (n0 + SIZEOF_CNODE + get_nsize m n0)) := by
  have hn1 : n1 ≠ 0 := by
    simp only [SIZEOF_CNODE] at hle
    omega
  have e : sub64 (sub64 (sub64 n1 n0) (get_nsize m n0)) SIZEOF_CNODE
      = n1 - (n0 + SIZEOF_CNODE + get_nsize m n0) := by
    simp only [SIZEOF_CNODE] at hle ⊢
    rw [sub64_eq n1 n0 (by omega) h1, sub64_eq (n1 - n0) (get_nsize m n0) (by omega) (by omega),
      sub64_eq (n1 - n0 - get_nsize m n0) 32 (by omega) (by omega)]
    omega
  unfold gapsize
  rw [if_neg h0, if_neg hn1, e]

theorem cmalloc_space_ok (m : Mem) (b c n1 : Nat)
    (hn : n1 = if get_next m c ≠ 0 then get_next m c else get_upper_limit m b)
    (hle : c + SIZEOF_CNODE + get_nsize m c ≤ n1) (h1 : n1 < 2 ^ 64) :
    cmalloc_space m b c = n1 - (c + SIZEOF_CNODE + get_nsize m c) := by
  unfold cmalloc_space
  simp only [SIZEOF_CNODE] at hle ⊢
  rw [add64_eq c 32 (by omega), add64_eq _ _ (by omega)]
  by_cases h : get_next m c ≠ 0
  · rw [if_pos h] at hn ⊢
    rw [← hn, sub64_eq _ _ (by omega) h1]
  · rw [if_neg h] at hn ⊢
    rw [← hn, sub64_eq _ _ (by omega) h1]

/-- The loop of `print_node` on a linked, sorted list: the gaps between
adjacent nodes and the last node. -/
theorem print_node_gaps_chain {m : Mem} {b : Nat} : ∀ {rest : List Chunk} {c : Chunk}
    {p cur fuel : Nat},
    chain m b p cur (c :: rest) 0 → (c :: rest).length ≤ fuel →
    (c :: rest).Pairwise (fun x y => chunk_end x ≤ y.1) →
    print_node_gaps m fuel cur
      = .ok ((pre_gaps (chunk_end c) rest).map Prod.snd, last_addr c.1 rest)
  | [], c, p, cur, fuel, h, hf, _ => by
    obtain ⟨h1, h2, _, _, _, h6⟩ := h
    change get_next m c.1 = 0 at h6
    subst h1
    cases fuel with
    | zero => simp at hf
    | succ f =>
      unfold print_node_gaps
      rw [if_neg h2]
      simp only [h6, if_true]
      rfl
  | d :: r, c, p, cur, fuel, h, hf, hs => by
    obtain ⟨h1, h2, h3, _, _, h6⟩ := h
    have hnx : get_next m c.1 = d.1 := h6.1
    have hd0 : d.1 ≠ 0 := h6.2.1
    subst h1
    cases fuel with
    | zero => simp at hf
    | succ f =>
      have hcd := (List.pairwise_cons.mp hs).1 d (by simp)
      have ih := @print_node_gaps_chain _ _ _ _ _ _ f h6
        (by simp only [List.length_cons] at hf ⊢; omega) (List.pairwise_cons.mp hs).2
      have hlt : d.1 < 2 ^ 64 := by
        rw [← hnx]
        exact load64_lt _ _
      have hg := gapsize_ok m c.1 d.1 h2 (by rw [h3]; exact hcd) hlt
      rw [h3] at hg
      rw [hnx] at ih
      unfold print_node_gaps
      rw [if_neg h2]
      simp only [hnx, if_neg hd0, hg, ih]
      rfl

theorem sub64_sub64 (a b c : Nat) (h : b + c ≤ a) (ha : a < 2 ^ 64) :
    sub64 (sub64 a b) c = a - (b + c) := by
  rw [sub64_eq a b (by omega) ha, sub64_eq (a - b) c (by omega) (by omega)]
  omega

/-- On a valid block the dump computes the candidate gaps of `cmalloc`. -/
theorem print_debug_gaps_valid {m : Mem} {b : Nat} {l : List Chunk} (fuel : Nat)
    (hv : Valid m b l) (hf : l.length ≤ fuel) :
    print_debug_gaps fuel m b
      = .ok ((gaps (b + SIZEOF_CONTIGUOUS) l (get_upper_limit m b)).map Prod.snd) := by
  have hU := load64_lt m (b + 8)
  change get_upper_limit m b < 2 ^ 64 at hU
  have hstart := chain_start hv.linked
  unfold print_debug_gaps
  rw [if_neg hv.block_ne]
  cases l with
  | nil =>
    change get_first m b = 0 at hstart
    have hh := hv.header
    unfold print_node_gaps print_debug_gap0
    simp only [hstart, if_true, ne_eq, not_true_eq_false, if_false, gaps_nil, List.map_cons,
      List.map_nil]
    rw [sub64_sub64 _ _ _ hh hU]
  | cons c r =>
    change get_first m b = c.1 at hstart
    have hc0 : c.1 ≠ 0 := hv.linked.2.1
    have hl := hv.linked
    rw [hstart] at hl
    rw [hstart, print_node_gaps_chain hl hf hv.sorted]
    obtain ⟨l0, z, hz⟩ : ∃ l0 z, c :: r = l0 ++ [z] := by
      rcases List.eq_nil_or_concat (c :: r) with e | ⟨l0, z, e⟩
      · cases e
      · exact ⟨l0, z, by rw [e, List.concat_eq_append]⟩
    have hla : last_addr c.1 r = z.1 := by
      show last_addr 0 (c :: r) = z.1
      rw [hz, last_addr_concat]
    have hzin : z ∈ c :: r := by
      rw [hz]
      simp
    have hzn := (chain_block hv.linked z hzin).2
    have hzi := (hv.inside z hzin).2
    have hg := gapsize_ok m z.1 (get_upper_limit m b) (chain_ne_zero hv.linked z hzin)
      (by rw [hzn]; exact hzi) hU
    rw [hzn] at hg
    have hgaps : gaps (b + SIZEOF_CONTIGUOUS) (c :: r) (get_upper_limit m b)
        = pre_gaps (b + SIZEOF_CONTIGUOUS) (c :: r)
          ++ [(chunk_end z, get_upper_limit m b - chunk_end z)] := by
      have h1 := gaps_append (get_upper_limit m b) (c :: r) [] (b + SIZEOF_CONTIGUOUS)
      rw [List.append_nil] at h1
      rw [h1, gaps_nil, hz, end_of_concat]
    have hc1 : c.1 < 2 ^ 64 := by
      rw [← hstart]
      exact load64_lt _ _
    have hg0 : print_debug_gap0 m b = c.1 - (b + SIZEOF_CONTIGUOUS) := by
      unfold print_debug_gap0
      simp only [hstart, if_neg hc0]
      exact sub64_sub64 _ _ _ (hv.inside c (by simp)).1 hc1
    have hz0 : ¬ z.1 = 0 := chain_ne_zero hv.linked z hzin
    simp only [ne_eq, hla, hz0, not_false_eq_true, if_true, hg, hgaps, hg0]
    simp only [pre_gaps, List.map_append, List.map_cons, List.map_nil, chunk_end,
      List.cons_append]

/-- On a valid block the free bytes, the chunks and the block header add up to
`upper_limit`. -/
theorem free_bytes_valid {m : Mem} {b : Nat} {l : List Chunk} (fuel : Nat)
    (hv : Valid m b l) (hf : l.length ≤ fuel) :
    ∃ fb, free_bytes fuel m b = .ok fb ∧
      fb + (l.map (fun c => SIZEOF_CNODE + c.2)).sum + (b + SIZEOF_CONTIGUOUS)
        = get_upper_limit m b := by
  refine ⟨((gaps (b + SIZEOF_CONTIGUOUS) l (get_upper_limit m b)).map Prod.snd).sum, ?_,
    gaps_sum _ l _ hv.sorted hv.inside hv.header⟩
  unfold free_bytes
  rw [print_debug_gaps_valid fuel hv hf]

/-! ## Allocations of size zero -/

theorem first_fit_zero_chunks (hi : Nat) : ∀ (k lo : Nat),
    lo + SIZEOF_CNODE * k + SIZEOF_CNODE ≤ hi →
    first_fit (SIZEOF_CNODE + 0) (gaps lo (zero_chunks lo k) hi)
      = some (lo + SIZEOF_CNODE * k, hi - (lo + SIZEOF_CNODE * k))
  | 0, lo, h => by
    rw [zero_chunks, gaps_nil, first_fit_cons, if_pos]
    · rfl
    · show SIZEOF_CNODE + 0 ≤ hi - lo
      simp only [SIZEOF_CNODE] at h ⊢
      omega
  | k + 1, lo, h => by
    have ih := first_fit_zero_chunks hi k (lo + SIZEOF_CNODE)
      (by simp only [SIZEOF_CNODE] at h ⊢; omega)
    have e : lo + SIZEOF_CNODE + SIZEOF_CNODE * k = lo + SIZEOF_CNODE * (k + 1) := by
      simp only [SIZEOF_CNODE]
      omega
    rw [e] at ih
    rw [zero_chunks, gaps_cons, first_fit_cons, if_neg]
    · exact ih
    · show ¬ SIZEOF_CNODE + 0 ≤ lo - lo
      simp only [SIZEOF_CNODE]
      omega

theorem insert_zero_chunk : ∀ (k lo : Nat),
    insert_chunk (lo + SIZEOF_CNODE * k, 0) (zero_chunks lo k) = zero_chunks lo (k + 1)
  | 0, lo => rfl
  | k + 1, lo => by
    have ih := insert_zero_chunk k (lo + SIZEOF_CNODE)
    have e : lo + SIZEOF_CNODE + SIZEOF_CNODE * k = lo + SIZEOF_CNODE * (k + 1) := by
      simp only [SIZEOF_CNODE]
      omega
    rw [e] at ih
    have hlt : ¬ (lo + SIZEOF_CNODE * (k + 1), 0).1 < ((lo, 0) : Chunk).1 := by
      show ¬ lo + SIZEOF_CNODE * (k + 1) < lo
      omega
    show insert_chunk _ ((lo, 0) :: zero_chunks (lo + SIZEOF_CNODE) k) = _
    simp only [insert_chunk, if_neg hlt, ih]
    rfl

theorem mem_zero_ptrs (p : Nat) : ∀ (k x : Nat),
    x ∈ zero_ptrs p k → ∃ i, i < k ∧ x = p + SIZEOF_CNODE * i
  | 0, x, h => by simp [zero_ptrs] at h
  | k + 1, x, h => by
    rcases List.mem_cons.mp h with e | e
    · exact ⟨k, by omega, e⟩
    · obtain ⟨i, hi, hx⟩ := mem_zero_ptrs p k x e
      exact ⟨i, by omega, hx⟩

theorem zero_ptrs_length (p : Nat) : ∀ k : Nat, (zero_ptrs p k).length = k
  | 0 => rfl
  | k + 1 => by simp only [zero_ptrs, List.length_cons, zero_ptrs_length p k]

theorem zero_ptrs_nodup (p : Nat) : ∀ k : Nat, (zero_ptrs p k).Nodup
  | 0 => List.nodup_nil
  | k + 1 => by
    refine List.nodup_cons.mpr ⟨?_, zero_ptrs_nodup p k⟩
    intro h
    obtain ⟨i, hi, hx⟩ := mem_zero_ptrs p k _ h
    simp only [SIZEOF_CNODE] at hx
    omega

/-- Repeated `cmalloc(block, 0)` on a block that holds `i` chunks without
payload, packed behind the block header. -/
theorem zero_allocs (fuel b N : Nat) : ∀ (j i : Nat) (m : Mem),
    Valid m b (zero_chunks (b + SIZEOF_CONTIGUOUS) i) → get_upper_limit m b = b + N →
    SIZEOF_CONTIGUOUS + SIZEOF_CNODE * (i + j) ≤ N → i + j ≤ fuel →
    ∃ m1, run_ops fuel b ⟨m, zero_ptrs (b + SIZEOF_CONTIGUOUS + SIZEOF_CNODE) i⟩
        (List.replicate j (Op.malloc 0))
      = .ok ⟨m1, zero_ptrs (b + SIZEOF_CONTIGUOUS + SIZEOF_CNODE) (i + j)⟩
  | 0, i, m, _, _, _, _ => ⟨m, rfl⟩
  | j + 1, i, m, hv, hU, hN, hf => by
    have hlen : (zero_chunks (b + SIZEOF_CONTIGUOUS) i).length ≤ fuel := by
      have : ∀ (k lo : Nat), (zero_chunks lo k).length = k := by
        intro k
        induction k with
        | zero => intro lo; rfl
        | succ k ih => intro lo; simp only [zero_chunks, List.length_cons, ih]
      rw [this]
      omega
    have hg := first_fit_zero_chunks (get_upper_limit m b) i (b + SIZEOF_CONTIGUOUS)
      (by rw [hU]; simp only [SIZEOF_CNODE, SIZEOF_CONTIGUOUS] at hN ⊢; omega)
    obtain ⟨m1, k1, k2, k3⟩ := cmalloc_fit 0 fuel _ hv (by decide) hlen hg
    rw [insert_zero_chunk] at k2
    obtain ⟨m2, ih⟩ := zero_allocs fuel b N j (i + 1) m1 k2 (k3.trans hU)
      (by simp only [SIZEOF_CNODE, SIZEOF_CONTIGUOUS] at hN ⊢; omega) (by omega)
    refine ⟨m2, ?_⟩
    have hp : b + SIZEOF_CONTIGUOUS + SIZEOF_CNODE * i + SIZEOF_CNODE ≠ 0 := by
      simp only [SIZEOF_CNODE]
      omega
    have hstep : step fuel b ⟨m, zero_ptrs (b + SIZEOF_CONTIGUOUS + SIZEOF_CNODE) i⟩ (Op.malloc 0)
        = .ok ⟨m1, zero_ptrs (b + SIZEOF_CONTIGUOUS + SIZEOF_CNODE) (i + 1)⟩ := by
      have k1a : cmalloc fuel m b 0
          = .ok (m1, b + SIZEOF_CONTIGUOUS + SIZEOF_CNODE * i + SIZEOF_CNODE) := k1
      simp only [step, k1a, if_neg hp]
      rw [if_neg (by decide)]
      simp only [zero_ptrs]
      congr 3
      simp only [SIZEOF_CNODE]
      omega
    have e : i + (j + 1) = i + 1 + j := by omega
    rw [List.replicate_succ, run_ops, hstep, e]
    exact ih

/-- C12: on a valid block in which some candidate gap has at least
`sizeof(struct cnode)` bytes, `cmalloc(block, 0)` returns a pointer, the chunk
list gains one node with `nsize` 0 whose address differs from that of every
other node and whose payload pointer differs from every other live pointer, and
the free bytes of the block drop by exactly `sizeof(struct cnode)`.  On the
block from `make_contiguous(N)`, any `k` calls `cmalloc(block, 0)` with `k` at
most `(N - sizeof(struct contiguous)) / sizeof(struct cnode)` all return
pointers, and these are pairwise different. -/
theorem zero_size_allocation (fuel block : Nat) (hb : block ≠ 0) :
    (∀ (m : Mem) (l : List Chunk) (x : Nat × Nat), Valid m block l → l.length ≤ fuel →
      x ∈ gaps (block + SIZEOF_CONTIGUOUS) l (get_upper_limit m block) →
      SIZEOF_CNODE ≤ x.2 →
      ∃ m1 p l1 l2 fb,
        cmalloc fuel m block ((0 : Nat) : Int) = .ok (m1, p) ∧ p ≠ 0 ∧ l = l1 ++ l2 ∧
        traverse m1 (fuel + 1) (get_first m1 block)
          = .ok (l1 ++ (p - SIZEOF_CNODE, 0) :: l2) ∧
        get_nsize m1 (p - SIZEOF_CNODE) = 0 ∧
        (∀ c ∈ l, c.1 ≠ p - SIZEOF_CNODE ∧ payload c ≠ p) ∧
        free_bytes fuel m block = .ok (fb + SIZEOF_CNODE) ∧
        free_bytes (fuel + 1) m1 block = .ok fb) ∧
    ∀ (m0 : Mem) (N k : Nat), block + N < 2 ^ 64 →
      k ≤ (N - SIZEOF_CONTIGUOUS) / SIZEOF_CNODE → k ≤ fuel →
      ∃ s, run_ops fuel block (fresh m0 block N) (List.replicate k (Op.malloc 0)) = .ok s ∧
        s.live = zero_ptrs (block + SIZEOF_CONTIGUOUS + SIZEOF_CNODE) k ∧
        s.live.length = k ∧ s.live.Nodup ∧ 0 ∉ s.live := by
  constructor
  · intro m l x hv hf hx hfit
    obtain ⟨g, hg⟩ := @first_fit_some_of_mem (SIZEOF_CNODE + 0) _ _ hx hfit
    obtain ⟨m1, l1, l2, e1, _, k1, k2, k3⟩ := cmalloc_fit_split 0 fuel g hv (by decide) hf hg
    have hlen : (l1 ++ (g.1, 0) :: l2).length ≤ fuel + 1 := by
      rw [e1] at hf
      simp only [List.length_append, List.length_cons] at hf ⊢
      omega
    obtain ⟨fb0, f1, f2⟩ := free_bytes_valid fuel hv hf
    obtain ⟨fb1, f3, f4⟩ := free_bytes_valid (fuel + 1) k2 hlen
    have hsub : g.1 + SIZEOF_CNODE - SIZEOF_CNODE = g.1 := Nat.add_sub_cancel _ _
    have hfb : fb0 = fb1 + SIZEOF_CNODE := by
      rw [k3, ← f2, e1] at f4
      simp only [List.map_append, List.map_cons, List.sum_append, List.sum_cons,
        SIZEOF_CNODE, SIZEOF_CONTIGUOUS] at f4 ⊢
      omega
    obtain ⟨a1, a2⟩ := valid_addr_lt k2
    refine ⟨m1, g.1 + SIZEOF_CNODE, l1, l2, fb1, k1, ?_, e1, ?_, ?_, ?_, hfb ▸ f1, f3⟩
    · simp only [SIZEOF_CNODE]
      omega
    · rw [hsub]
      exact valid_traverse _ k2 hlen
    · rw [hsub]
      exact (chain_block k2.linked (g.1, 0) (by simp)).2
    · intro c hc
      rw [hsub]
      rw [e1] at hc
      rcases List.mem_append.mp hc with e | e
      · have := a1 c e
        simp only [payload, SIZEOF_CNODE] at this ⊢
        exact ⟨by omega, by omega⟩
      · have := a2 c e
        simp only [payload, SIZEOF_CNODE] at this ⊢
        exact ⟨by omega, by omega⟩
  · intro m0 N k hN hk hf
    have hz : 0 ∉ zero_ptrs (block + SIZEOF_CONTIGUOUS + SIZEOF_CNODE) k := by
      intro h
      obtain ⟨i, _, hx⟩ := mem_zero_ptrs _ _ _ h
      simp only [SIZEOF_CNODE] at hx
      omega
    cases k with
    | zero =>
      exact ⟨fresh m0 block N, rfl, rfl, rfl, List.nodup_nil, by simp [fresh]⟩
    | succ k =>
      have h16 : SIZEOF_CONTIGUOUS + SIZEOF_CNODE * (0 + (k + 1)) ≤ N := by
        have := Nat.mul_le_of_le_div _ _ _ hk
        simp only [SIZEOF_CNODE, SIZEOF_CONTIGUOUS] at this ⊢
        omega
      obtain ⟨m1, h1⟩ := zero_allocs fuel block N (k + 1) 0 (make_contiguous m0 block N).1
        (make_contiguous_valid m0 block N hb (by omega) hN)
        (make_contiguous_fresh m0 block N hb hN).2 h16 (by omega)
      rw [Nat.zero_add] at h1
      exact ⟨_, h1, rfl, zero_ptrs_length _ _, zero_ptrs_nodup _ _, hz⟩

/-- C12 on the block at 4096: `cmalloc(block, 0)` in the state `demo_holes`,
whose first gap has 42 bytes, and three calls `cmalloc(block, 0)` on the block
from `make_contiguous(128)`, where `(128 - 16) / 32 = 3`. -/
theorem zero_size_allocation_witness :
    (∃ m1 p l1 l2 fb,
      cmalloc 1 demo_holes.mem 4096 ((0 : Nat) : Int) = .ok (m1, p) ∧ p ≠ 0 ∧
        [((4154, 20) : Chunk)] = l1 ++ l2 ∧
        traverse m1 (1 + 1) (get_first m1 4096) = .ok (l1 ++ (p - SIZEOF_CNODE, 0) :: l2) ∧
        get_nsize m1 (p - SIZEOF_CNODE) = 0 ∧
        (∀ c ∈ [((4154, 20) : Chunk)], c.1 ≠ p - SIZEOF_CNODE ∧ payload c ≠ p) ∧
        free_bytes 1 demo_holes.mem 4096 = .ok (fb + SIZEOF_CNODE) ∧
        free_bytes (1 + 1) m1 4096 = .ok fb) ∧
    ∃ s, run_ops 3 4096 (fresh zero_mem 4096 128) (List.replicate 3 (Op.malloc 0)) = .ok s ∧
      s.live = zero_ptrs (4096 + SIZEOF_CONTIGUOUS + SIZEOF_CNODE) 3 ∧
      s.live.length = 3 ∧ s.live.Nodup ∧ 0 ∉ s.live :=
  ⟨(zero_size_allocation 1 4096 (by decide)).1 demo_holes.mem [(4154, 20)] (4112, 42)
      (by decide!) (by decide) (by decide!) (by decide),
    (zero_size_allocation 3 4096 (by decide)).2 zero_mem 128 3
      (by decide) (by decide) (by decide)⟩

/-! ## The fresh block -/

theorem fill_outside (block : Nat) : ∀ (k : Nat) (m : Mem) (i a : Nat),
    block + i + k ≤ 2 ^ 64 → (a < block + i ∨ block + i + k ≤ a) →
    make_contiguous_fill block m i k a = m a
  | 0, _, _, _, _, _ => rfl
  | k + 1, m, i, a, h1, h2 => by
    show make_contiguous_fill block (store8 m (add64 block i) 0x24) (i + 1) k a = _
    rw [fill_outside block k _ _ _ (by omega) (by omega), add64_eq _ _ (by omega),
      store8_outside _ _ _ _ (by omega)]

theorem fill_inside (block : Nat) : ∀ (k : Nat) (m : Mem) (i a : Nat),
    block + i + k ≤ 2 ^ 64 → block + i ≤ a → a < block + i + k →
    make_contiguous_fill block m i k a = 0x24
  | 0, _, _, _, _, h2, h3 => by omega
  | k + 1, m, i, a, h1, h2, h3 => by
    show make_contiguous_fill block (store8 m (add64 block i) 0x24) (i + 1) k a = _
    by_cases ha : a = block + i
    · rw [fill_outside block k _ _ _ (by omega) (by omega), add64_eq _ _ (by omega), ha]
      simp [store8]
    · exact fill_inside block k _ _ _ (by omega) (by omega) (by omega)

/-- C13, amended: when `make_contiguous(N)` returns `block`, `first` is `NULL`
and `upper_limit` is `block + N`; the gap behind the block header, as the first
candidate of `cmalloc` and as `print_debug` compute it, is `N - 16` taken
modulo `2 ^ 64`: exactly `N - sizeof(struct contiguous)` when `N` is at least
the block header size, when it also is the only gap and there is no chunk, and
`2 ^ 64 + N - 16` for a smaller `N`. -/
theorem fresh_block_state (m0 : Mem) (block N : Nat) (hb : block ≠ 0)
    (hN : block + N < 2 ^ 64) (hH : block + SIZEOF_CONTIGUOUS < 2 ^ 64) :
    (make_contiguous m0 block N).2 = block ∧
    get_first (make_contiguous m0 block N).1 block = 0 ∧
    get_upper_limit (make_contiguous m0 block N).1 block = block + N ∧
    cmalloc_space0 (make_contiguous m0 block N).1 block
      = (2 ^ 64 + N - SIZEOF_CONTIGUOUS) % 2 ^ 64 ∧
    print_debug_gap0 (make_contiguous m0 block N).1 block
      = (2 ^ 64 + N - SIZEOF_CONTIGUOUS) % 2 ^ 64 ∧
    (∀ total, cmalloc_gap0 (make_contiguous m0 block N).1 block total
      = if total ≤ cmalloc_space0 (make_contiguous m0 block N).1 block
        then block + SIZEOF_CONTIGUOUS else 0) ∧
    (SIZEOF_CONTIGUOUS ≤ N →
      cmalloc_space0 (make_contiguous m0 block N).1 block = N - SIZEOF_CONTIGUOUS ∧
      print_debug_gap0 (make_contiguous m0 block N).1 block = N - SIZEOF_CONTIGUOUS ∧
      ∀ fuel, print_debug_gaps fuel (make_contiguous m0 block N).1 block
          = .ok [N - SIZEOF_CONTIGUOUS] ∧
        traverse (make_contiguous m0 block N).1 fuel
          (get_first (make_contiguous m0 block N).1 block) = .ok []) ∧
    (N < SIZEOF_CONTIGUOUS →
      cmalloc_space0 (make_contiguous m0 block N).1 block = 2 ^ 64 + N - SIZEOF_CONTIGUOUS) := by
  obtain ⟨hF, hU⟩ := make_contiguous_fresh m0 block N hb hN
  have hs : cmalloc_space0 (make_contiguous m0 block N).1 block
      = (2 ^ 64 + N - SIZEOF_CONTIGUOUS) % 2 ^ 64 := by
    unfold cmalloc_space0
    simp only [hF, hU, ne_eq, not_true_eq_false, if_false]
    simp only [SIZEOF_CONTIGUOUS] at hH ⊢
    rw [add64_eq _ _ hH]
    unfold sub64
    omega
  have hd : print_debug_gap0 (make_contiguous m0 block N).1 block
      = (2 ^ 64 + N - SIZEOF_CONTIGUOUS) % 2 ^ 64 := by
    unfold print_debug_gap0
    simp only [hF, hU, if_true]
    simp only [SIZEOF_CONTIGUOUS]
    unfold sub64
    omega
  have hg : ∀ total, cmalloc_gap0 (make_contiguous m0 block N).1 block total
      = if total ≤ cmalloc_space0 (make_contiguous m0 block N).1 block
        then block + SIZEOF_CONTIGUOUS else 0 := by
    intro total
    unfold cmalloc_gap0 cmalloc_space0
    simp only [hF, hU, ne_eq, not_true_eq_false, if_false, ge_iff_le]
    rw [add64_eq _ _ hH]
  refine ⟨?_, hF, hU, hs, hd, hg, ?_, ?_⟩
  · unfold make_contiguous
    simp only [if_neg hb]
  · intro h16
    have e : (2 ^ 64 + N - SIZEOF_CONTIGUOUS) % 2 ^ 64 = N - SIZEOF_CONTIGUOUS := by
      simp only [SIZEOF_CONTIGUOUS] at h16 ⊢
      omega
    have hv := make_contiguous_valid m0 block N hb h16 hN
    refine ⟨hs.trans e, hd.trans e, fun fuel => ⟨?_, ?_⟩⟩
    · have e2 : block + N - (block + SIZEOF_CONTIGUOUS) = N - SIZEOF_CONTIGUOUS := by omega
      rw [print_debug_gaps_valid fuel hv (Nat.zero_le _), hU, gaps_nil]
      simp only [List.map_cons, List.map_nil, e2]
    · exact valid_traverse fuel hv (Nat.zero_le _)
  · intro h16
    refine hs.trans ?_
    simp only [SIZEOF_CONTIGUOUS] at h16 ⊢
    omega

/-- C16, amended: after `make_contiguous(N)` returned `block`, every byte at an
offset from `sizeof(struct contiguous)` up to `N - 1` is `'$'`, and no byte is
changed below `block` or at an offset of at least `N` and at least
`sizeof(struct contiguous)`: the 16 bytes of the block header are written
whatever `N` is. -/
theorem sentinel_fill (m0 : Mem) (block N : Nat) (hb : block ≠ 0) (hN : block + N < 2 ^ 64) :
    (∀ i, SIZEOF_CONTIGUOUS ≤ i → i < N →
      (make_contiguous m0 block N).1 (block + i) = 0x24 ∧
      load8 (make_contiguous m0 block N).1 (block + i) = 0x24) ∧
    (∀ a, a < block ∨ block + max N SIZEOF_CONTIGUOUS ≤ a →
      (make_contiguous m0 block N).1 a = m0 a) := by
  have hm : (make_contiguous m0 block N).1
      = make_contiguous_fill block (set_upper_limit (set_first m0 block 0) block
          (add64 block N)) SIZEOF_CONTIGUOUS (N - SIZEOF_CONTIGUOUS) := by
    unfold make_contiguous
    simp only [if_neg hb]
  rw [hm]
  simp only [SIZEOF_CONTIGUOUS]
  constructor
  · intro i h1 h2
    have := fill_inside block (N - 16) (set_upper_limit (set_first m0 block 0) block
      (add64 block N)) 16 (block + i) (by omega) (by omega) (by omega)
    refine ⟨this, ?_⟩
    unfold load8
    rw [this]
  · intro a ha
    by_cases h16 : 16 ≤ N
    · rw [fill_outside block (N - 16) _ 16 a (by omega) (by omega)]
      unfold set_upper_limit set_first
      rw [store64_outside _ _ _ _ (by omega), store64_outside _ _ _ _ (by omega)]
    · have e : N - 16 = 0 := by omega
      rw [e]
      show set_upper_limit (set_first m0 block 0) block (add64 block N) a = m0 a
      unfold set_upper_limit set_first
      rw [store64_outside _ _ _ _ (by omega), store64_outside _ _ _ _ (by omega)]

/-! ## The request size -/

theorem cmalloc_scan_no_assert (m : Mem) (b total : Nat) : ∀ (fuel curr g : Nat),
    cmalloc_scan m b total fuel curr g ≠ .error .assert_failed := by
  intro fuel
  induction fuel with
  | zero =>
    intro curr g
    unfold cmalloc_scan
    by_cases hc : curr = 0
    · simp [hc]
    · simp [hc]
  | succ f ih =>
    intro curr g
    unfold cmalloc_scan
    by_cases hc : curr = 0
    · simp [hc]
    · simp only [if_neg hc]
      exact ih _ _

theorem cmalloc_find_after_no_assert (m : Mem) (new : Nat) : ∀ (fuel after : Nat),
    cmalloc_find_after m new fuel after ≠ .error .assert_failed := by
  intro fuel
  induction fuel with
  | zero =>
    intro after
    by_cases hc : get_next m after ≠ 0 ∧ get_next m after < new
    · simp only [cmalloc_find_after, if_pos hc]
      simp
    · simp only [cmalloc_find_after, if_neg hc]
      simp
  | succ f ih =>
    intro after
    by_cases hc : get_next m after ≠ 0 ∧ get_next m after < new
    · simp only [cmalloc_find_after, if_pos hc]
      exact ih _
    · simp only [cmalloc_find_after, if_neg hc]
      simp

theorem cmalloc_insert_no_assert (fuel : Nat) (m : Mem) (b : Nat) (size : Int) (g : Nat) :
    cmalloc_insert fuel m b size g ≠ .error .assert_failed := by
  unfold cmalloc_insert
  simp only []
  split
  · simp
  · have h := cmalloc_find_after_no_assert
      (set_next (set_prev (set_block (set_nsize m g (int_to_size_t size)) g b) g 0) g 0) g fuel
      (get_first (set_next (set_prev (set_block (set_nsize m g (int_to_size_t size)) g b) g 0)
        g 0) b)
    split
    · rename_i e he
      intro hc
      rw [he] at h
      cases hc
      exact h rfl
    · simp

/-- C17: for a request size that is a non-negative C `int`, the sum
`sizeof(struct cnode) + size` computed in `size_t` is the exact sum: it does
not wrap, it is below `2 ^ 64` and it is positive; so on a block pointer that
is not `NULL` no `assert` of `cmalloc` fails, whatever the memory and the
fuel. -/
theorem overflow_guard (size : Int) (h0 : 0 ≤ size) (h31 : size < 2 ^ 31) :
    ((add64 SIZEOF_CNODE (int_to_size_t size) : Nat) : Int) = (SIZEOF_CNODE : Int) + size ∧
    (SIZEOF_CNODE : Int) + size < 2 ^ 64 ∧
    0 < add64 SIZEOF_CNODE (int_to_size_t size) ∧
    ∀ (fuel : Nat) (m : Mem) (block : Nat), block ≠ 0 →
      cmalloc fuel m block size ≠ .error .assert_failed := by
  obtain ⟨n, rfl⟩ := Int.eq_ofNat_of_zero_le h0
  have hn : n < 2 ^ 31 := by omega
  have htot : add64 SIZEOF_CNODE (int_to_size_t (n : Int)) = SIZEOF_CNODE + n := by
    rw [int_to_size_t_ofNat n (by omega), add64_eq _ _ (by simp only [SIZEOF_CNODE]; omega)]
  refine ⟨?_, ?_, ?_, ?_⟩
  · rw [htot]
    push_cast
    rfl
  · simp only [SIZEOF_CNODE]
    omega
  · rw [htot]
    simp only [SIZEOF_CNODE]
    omega
  · intro fuel m block hb
    have hpos : SIZEOF_CNODE + n > 0 := by simp only [SIZEOF_CNODE]; omega
    unfold cmalloc
    rw [if_neg hb, if_neg (by simp)]
    simp only [htot, hpos, not_true_eq_false, if_false]
    have hs := cmalloc_scan_no_assert m block (SIZEOF_CNODE + n) fuel (get_first m block)
      (cmalloc_gap0 m block (SIZEOF_CNODE + n))
    split
    · rename_i e he
      intro hc
      rw [he] at hs
      cases hc
      exact hs rfl
    · split
      · simp
      · exact cmalloc_insert_no_assert _ _ _ _ _

/-! ## The effect of `cmalloc` and of `cfree` on chunks and gaps -/

/-- C14: on a valid block `cmalloc(block, size)` returns; and when it returns a
pointer `p`, the chunk list is the old one with exactly one node added, at
`p - sizeof(struct cnode)`, a different address from every old node, with
`nsize = size` and `block` the owning block; every old node is still in the
list at its address with its `nsize` and `block`, and `upper_limit` is
unchanged. -/
theorem cmalloc_effect (fuel : Nat) (m : Mem) (block : Nat) (l : List Chunk) (n : Nat)
    (hv : Valid m block l) (hn : n < 2 ^ 31) (hf : l.length ≤ fuel) :
    (∃ r, cmalloc fuel m block (n : Int) = .ok r) ∧
    ∀ m1 p, cmalloc fuel m block (n : Int) = .ok (m1, p) → p ≠ 0 →
      SIZEOF_CNODE ≤ p ∧
      ∃ l1 l2, l = l1 ++ l2 ∧
        traverse m fuel (get_first m block) = .ok (l1 ++ l2) ∧
        traverse m1 (fuel + 1) (get_first m1 block)
          = .ok (l1 ++ (p - SIZEOF_CNODE, n) :: l2) ∧
        (∀ c ∈ l, c.1 ≠ p - SIZEOF_CNODE) ∧
        get_nsize m1 (p - SIZEOF_CNODE) = n ∧ get_block m1 (p - SIZEOF_CNODE) = block ∧
        (∀ c ∈ l, get_nsize m1 c.1 = c.2 ∧ get_block m1 c.1 = block) ∧
        get_upper_limit m1 block = get_upper_limit m block := by
  constructor
  · cases hg : first_fit (SIZEOF_CNODE + n) (gaps (block + SIZEOF_CONTIGUOUS) l
        (get_upper_limit m block)) with
    | none => exact ⟨_, cmalloc_nofit n fuel hv hn hf hg⟩
    | some g =>
      obtain ⟨m1, k1, _⟩ := cmalloc_fit n fuel g hv hn hf hg
      exact ⟨_, k1⟩
  · intro m1 p h hp
    rcases cmalloc_result n fuel hv hn hf h with ⟨e, _⟩ | ⟨g, l1, l2, _, e1, e2, _, k1, k2⟩
    · exact absurd e hp
    · have hsub : p - SIZEOF_CNODE = g.1 := by
        rw [e1]
        exact Nat.add_sub_cancel _ _
      rw [hsub]
      obtain ⟨a1, a2⟩ := valid_addr_lt k1
      have hnew := chain_block k1.linked (g.1, n) (by simp)
      refine ⟨by omega, l1, l2, e2, ?_, ?_, ?_, hnew.2, hnew.1, ?_, k2⟩
      · rw [← e2]
        exact valid_traverse fuel hv hf
      · refine valid_traverse _ k1 ?_
        rw [e2] at hf
        simp only [List.length_append, List.length_cons] at hf ⊢
        omega
      · intro c hc
        rw [e2] at hc
        rcases List.mem_append.mp hc with e | e
        · have := a1 c e
          show c.1 ≠ g.1
          omega
        · have := a2 c e
          show c.1 ≠ g.1
          omega
      · intro c hc
        rw [e2] at hc
        have hin : c ∈ l1 ++ (g.1, n) :: l2 := by
          rcases List.mem_append.mp hc with e | e
          · simp [e]
          · simp [e]
        have := chain_block k1.linked c hin
        exact ⟨this.2, this.1⟩

theorem first_fit_append (total : Nat) (g : Nat × Nat) (post : List (Nat × Nat)) :
    ∀ (pre : List (Nat × Nat)), (∀ x ∈ pre, x.2 < total) → total ≤ g.2 →
    first_fit total (pre ++ g :: post) = some g
  | [], _, h => by
    rw [List.nil_append, first_fit_cons, if_pos h]
  | x :: r, hpre, h => by
    have hx := hpre x (by simp)
    rw [List.cons_append, first_fit_cons, if_neg (by omega)]
    exact first_fit_append total g post r (fun y hy => hpre y (List.mem_cons_of_mem _ hy)) h

theorem end_of_le {l1 l2 : List Chunk} {c : Chunk} {lo : Nat}
    (hs : (l1 ++ c :: l2).Pairwise (fun x y => chunk_end x ≤ y.1))
    (hin : ∀ x ∈ l1 ++ c :: l2, lo ≤ x.1) : end_of lo l1 ≤ c.1 := by
  rcases List.eq_nil_or_concat l1 with e | ⟨l0, z, e⟩
  · subst e
    exact hin c (by simp)
  · rw [List.concat_eq_append] at e
    subst e
    rw [end_of_concat]
    exact (List.pairwise_append.mp hs).2.2 z (by simp) c (by simp)

theorem chunk_end_le_next {l1 l2 : List Chunk} {c : Chunk} {hi : Nat}
    (hs : (l1 ++ c :: l2).Pairwise (fun x y => chunk_end x ≤ y.1))
    (hin : ∀ x ∈ l1 ++ c :: l2, chunk_end x ≤ hi) : chunk_end c ≤ next_start l2 hi := by
  cases l2 with
  | nil => exact hin c (by simp)
  | cons d r =>
    exact (List.pairwise_cons.mp (List.pairwise_append.mp hs).2.1).1 d (by simp)

/-- C15: on a valid block with chunk list `l1 ++ c :: l2`, the dump computes a
gap `gL` in front of `c` (behind its left neighbour, the last chunk of `l1` or
the block header) and a gap `gR` behind `c` (up to its right neighbour, the
first chunk of `l2` or `upper_limit`); after `cfree` of the pointer of `c` it
computes in their place the single gap
`gL + sizeof(struct cnode) + c.nsize + gR`, all other gaps as before; and a
following `cmalloc(block, s)` whose request fits into that merged gap, while no
gap at a lower address fits, returns the pointer of a node placed at the end of
the left neighbour. -/
theorem cfree_merges_gaps (fuel : Nat) (m : Mem) (block : Nat) (l1 l2 : List Chunk) (c : Chunk)
    (hv : Valid m block (l1 ++ c :: l2)) (hf : (l1 ++ c :: l2).length ≤ fuel) :
    ∃ pre post gL gR, pre.length = l1.length ∧
      print_debug_gaps fuel m block = .ok (pre ++ gL :: gR :: post) ∧
      print_debug_gaps fuel (cfree m (payload c)) block
        = .ok (pre ++ (gL + SIZEOF_CNODE + c.2 + gR) :: post) ∧
      end_of (block + SIZEOF_CONTIGUOUS) l1 + gL = c.1 ∧
      chunk_end c + gR = next_start l2 (get_upper_limit m block) ∧
      ∀ (s : Nat), s < 2 ^ 31 → SIZEOF_CNODE + s ≤ gL + SIZEOF_CNODE + c.2 + gR →
        (∀ g ∈ pre, g < SIZEOF_CNODE + s) →
        ∃ m2, cmalloc fuel (cfree m (payload c)) block (s : Int)
          = .ok (m2, end_of (block + SIZEOF_CONTIGUOUS) l1 + SIZEOF_CNODE) := by
  obtain ⟨hv1, hU1⟩ := cfree_valid hv
  have hlen : (l1 ++ l2).length ≤ fuel := by
    simp only [List.length_append, List.length_cons] at hf ⊢
    omega
  have hL := end_of_le hv.sorted (fun x hx => (hv.inside x hx).1)
  have hR := chunk_end_le_next hv.sorted (fun x hx => (hv.inside x hx).2)
  have hg0 : gaps (block + SIZEOF_CONTIGUOUS) (l1 ++ c :: l2) (get_upper_limit m block)
      = pre_gaps (block + SIZEOF_CONTIGUOUS) l1
        ++ (end_of (block + SIZEOF_CONTIGUOUS) l1, c.1 - end_of (block + SIZEOF_CONTIGUOUS) l1)
        :: (chunk_end c, next_start l2 (get_upper_limit m block) - chunk_end c)
        :: tail_gaps l2 (get_upper_limit m block) := by
    rw [gaps_append, gaps_cons]
    rfl
  have hg1 : gaps (block + SIZEOF_CONTIGUOUS) (l1 ++ l2) (get_upper_limit m block)
      = pre_gaps (block + SIZEOF_CONTIGUOUS) l1
        ++ (end_of (block + SIZEOF_CONTIGUOUS) l1,
            next_start l2 (get_upper_limit m block) - end_of (block + SIZEOF_CONTIGUOUS) l1)
        :: tail_gaps l2 (get_upper_limit m block) := by
    rw [gaps_append]
    rfl
  have hmerge : next_start l2 (get_upper_limit m block) - end_of (block + SIZEOF_CONTIGUOUS) l1
      = (c.1 - end_of (block + SIZEOF_CONTIGUOUS) l1) + SIZEOF_CNODE + c.2
        + (next_start l2 (get_upper_limit m block) - chunk_end c) := by
    simp only [chunk_end] at hR ⊢
    omega
  refine ⟨(pre_gaps (block + SIZEOF_CONTIGUOUS) l1).map Prod.snd,
    (tail_gaps l2 (get_upper_limit m block)).map Prod.snd,
    c.1 - end_of (block + SIZEOF_CONTIGUOUS) l1,
    next_start l2 (get_upper_limit m block) - chunk_end c, ?_, ?_, ?_, by omega, by omega, ?_⟩
  · rw [List.length_map, pre_gaps_length]
  · rw [print_debug_gaps_valid fuel hv hf, hg0]
    simp only [List.map_append, List.map_cons]
  · rw [print_debug_gaps_valid fuel hv1 hlen, hU1, hg1, hmerge]
    simp only [List.map_append, List.map_cons]
  · intro s hs hfit hpre
    have hff : first_fit (SIZEOF_CNODE + s) (gaps (block + SIZEOF_CONTIGUOUS) (l1 ++ l2)
        (get_upper_limit (cfree m (payload c)) block))
        = some (end_of (block + SIZEOF_CONTIGUOUS) l1,
            next_start l2 (get_upper_limit m block) - end_of (block + SIZEOF_CONTIGUOUS) l1) := by
      rw [hU1, hg1]
      refine first_fit_append _ _ _ _ ?_ ?_
      · intro x hx
        exact hpre x.2 (List.mem_map_of_mem _ hx)
      · rw [hmerge]
        exact hfit
    obtain ⟨m2, k1, _⟩ := cmalloc_fit s fuel _ hv1 hs hlen hff
    exact ⟨m2, k1⟩

/-! ## Byte conservation -/

/-- On a valid block the gap behind the block header is computed without
wrapping, by the dump and by `cmalloc` alike. -/
theorem gap0_valid {m : Mem} {b : Nat} {l : List Chunk} (hv : Valid m b l) :
    print_debug_gap0 m b = next_start l (get_upper_limit m b) - (b + SIZEOF_CONTIGUOUS) ∧
    cmalloc_space0 m b = print_debug_gap0 m b ∧
    b + SIZEOF_CONTIGUOUS ≤ next_start l (get_upper_limit m b) ∧
    (print_debug_gap0 m b : Int) = gap0_exact m b := by
  have hU := load64_lt m (b + 8)
  change get_upper_limit m b < 2 ^ 64 at hU
  have hstart := chain_start hv.linked
  have hh := hv.header
  cases l with
  | nil =>
    change get_first m b = 0 at hstart
    have e1 : print_debug_gap0 m b = get_upper_limit m b - (b + SIZEOF_CONTIGUOUS) := by
      unfold print_debug_gap0
      simp only [hstart, if_true]
      exact sub64_sub64 _ _ _ hh hU
    have e2 : cmalloc_space0 m b = get_upper_limit m b - (b + SIZEOF_CONTIGUOUS) := by
      unfold cmalloc_space0
      simp only [hstart, ne_eq, not_true_eq_false, if_false]
      rw [add64_eq _ _ (by omega), sub64_eq _ _ hh hU]
    refine ⟨e1, e2.trans e1.symm, hh, ?_⟩
    rw [e1]
    unfold gap0_exact
    simp only [hstart, if_true]
    omega
  | cons c r =>
    change get_first m b = c.1 at hstart
    have hc0 : c.1 ≠ 0 := hv.linked.2.1
    have hc1 : c.1 < 2 ^ 64 := by
      rw [← hstart]
      exact load64_lt _ _
    have hin := (hv.inside c (by simp)).1
    have e1 : print_debug_gap0 m b = c.1 - (b + SIZEOF_CONTIGUOUS) := by
      unfold print_debug_gap0
      simp only [hstart, if_neg hc0]
      exact sub64_sub64 _ _ _ hin hc1
    have e2 : cmalloc_space0 m b = c.1 - (b + SIZEOF_CONTIGUOUS) := by
      unfold cmalloc_space0
      simp only [hstart, ne_eq, hc0, not_false_eq_true, if_true]
      rw [add64_eq _ _ (by omega), sub64_eq _ _ hin hc1]
    refine ⟨e1, e2.trans e1.symm, hin, ?_⟩
    rw [e1]
    unfold gap0_exact
    simp only [hstart, if_neg hc0]
    omega

/-- On a linked, sorted list the gap behind every node is computed without
wrapping, and `gapsize` and `cmalloc` compute the same value. -/
theorem chain_spaces {m : Mem} {b : Nat} (hU : get_upper_limit m b < 2 ^ 64) :
    ∀ {l : List Chunk} {p cur : Nat}, chain m b p cur l 0 →
    l.Pairwise (fun x y => chunk_end x ≤ y.1) →
    (∀ c ∈ l, chunk_end c ≤ get_upper_limit m b) →
    (tail_gaps l (get_upper_limit m b)).map Prod.snd
        = l.map (fun c => cmalloc_space m b c.1) ∧
      ∀ c ∈ l,
        gapsize m c.1 (if get_next m c.1 ≠ 0 then get_next m c.1 else get_upper_limit m b)
          = .ok (cmalloc_space m b c.1) ∧
        (cmalloc_space m b c.1 : Int) = gapsize_exact m c.1
          (if get_next m c.1 ≠ 0 then get_next m c.1 else get_upper_limit m b) := by
  intro l
  induction l with
  | nil =>
    intro _ _ _ _ _
    constructor
    · rfl
    · intro c hc
      exact absurd hc (List.not_mem_nil c)
  | cons c rest ih =>
    intro p cur h hs hin
    obtain ⟨_, h2, h3, _, _, h6⟩ := h
    obtain ⟨ih1, ih2⟩ := ih h6 (List.pairwise_cons.mp hs).2
      (fun d hd => hin d (List.mem_cons_of_mem _ hd))
    have hnx := chain_start h6
    have hn1 : (if get_next m c.1 ≠ 0 then get_next m c.1 else get_upper_limit m b)
        = next_start rest (get_upper_limit m b) := by
      cases rest with
      | nil =>
        change get_next m c.1 = 0 at hnx
        simp only [hnx, ne_eq, not_true_eq_false, if_false]
        rfl
      | cons d r =>
        change get_next m c.1 = d.1 at hnx
        have hd0 : d.1 ≠ 0 := h6.2.1
        simp only [hnx, ne_eq, hd0, not_false_eq_true, if_true]
        rfl
    have hle : c.1 + SIZEOF_CNODE + get_nsize m c.1 ≤ next_start rest (get_upper_limit m b) := by
      rw [h3]
      cases rest with
      | nil => exact hin c (by simp)
      | cons d r => exact (List.pairwise_cons.mp hs).1 d (by simp)
    have hlt : next_start rest (get_upper_limit m b) < 2 ^ 64 := by
      cases rest with
      | nil => exact hU
      | cons d r =>
        change get_next m c.1 = d.1 at hnx
        show d.1 < 2 ^ 64
        rw [← hnx]
        exact load64_lt _ _
    have hsp := cmalloc_space_ok m b c.1 _ hn1.symm hle hlt
    have hgs := gapsize_ok m c.1 _ h2 hle hlt
    constructor
    · show (next_start rest (get_upper_limit m b) - chunk_end c)
          :: (tail_gaps rest (get_upper_limit m b)).map Prod.snd = _
      rw [ih1, List.map_cons, hsp, h3]
      rfl
    · intro x hx
      rcases List.mem_cons.mp hx with e | e
      · subst e
        rw [hn1, hgs, hsp]
        refine ⟨rfl, ?_⟩
        unfold gapsize_exact
        omega
      · exact ih2 x e

/-- C19: a sequence of `cmalloc` calls and `cfree` calls on live pointers on the
block from `make_contiguous(N)`, `N` at least the block header size, returns
when it is given one unit of fuel per call; and in every state such a sequence
returns, with `l` the chunk list: the gaps the dump computes are the gap behind
the block header followed by the gap behind each node; the block header size,
the sizes of the chunks (header and payload) and these gaps sum to `N`; each
gap equals the value of the same expression in the integers, so that no
subtraction wraps; and for every node `gapsize` computes the value of `space`
that `cmalloc` computes for it, as do the dump and `cmalloc` for the gap behind
the block header. -/
theorem byte_conservation (fuel : Nat) (m0 : Mem) (block N : Nat) (ops : List Op)
    (hb : block ≠ 0) (h16 : SIZEOF_CONTIGUOUS ≤ N) (hN : block + N < 2 ^ 64) :
    (ops.length ≤ fuel →
      run_ops fuel block (fresh m0 block N) ops = .error .misuse ∨
      ∃ s, run_ops fuel block (fresh m0 block N) ops = .ok s) ∧
    ∀ s, run_ops fuel block (fresh m0 block N) ops = .ok s →
    ∃ l : List Chunk, traverse s.mem l.length (get_first s.mem block) = .ok l ∧
      print_debug_gaps l.length s.mem block
        = .ok (print_debug_gap0 s.mem block
            :: l.map (fun c => cmalloc_space s.mem block c.1)) ∧
      SIZEOF_CONTIGUOUS + (l.map (fun c => SIZEOF_CNODE + c.2)).sum
        + (print_debug_gap0 s.mem block
            + (l.map (fun c => cmalloc_space s.mem block c.1)).sum) = N ∧
      (print_debug_gap0 s.mem block : Int) = gap0_exact s.mem block ∧
      cmalloc_space0 s.mem block = print_debug_gap0 s.mem block ∧
      ∀ c ∈ l,
        gapsize s.mem c.1
            (if get_next s.mem c.1 ≠ 0 then get_next s.mem c.1
              else get_upper_limit s.mem block)
          = .ok (cmalloc_space s.mem block c.1) ∧
        (cmalloc_space s.mem block c.1 : Int) = gapsize_exact s.mem c.1
          (if get_next s.mem c.1 ≠ 0 then get_next s.mem c.1
            else get_upper_limit s.mem block) := by
  refine ⟨fun hf => (run_ops_returns fuel m0 block N ops hb h16 hN hf).imp id
    (fun ⟨s, h, _⟩ => ⟨s, h⟩), ?_⟩
  intro s h
  obtain ⟨l, hv, hU, _⟩ := reach_inv fuel m0 block N ops s hb h16 hN h
  have hUlt : get_upper_limit s.mem block < 2 ^ 64 := by omega
  obtain ⟨g1, g2, _, g4⟩ := gap0_valid hv
  obtain ⟨c1, c2⟩ := chain_spaces hUlt hv.linked hv.sorted (fun c hc => (hv.inside c hc).2)
  have hsum := gaps_sum _ l _ hv.sorted hv.inside hv.header
  have hg : (gaps (block + SIZEOF_CONTIGUOUS) l (get_upper_limit s.mem block)).map Prod.snd
      = print_debug_gap0 s.mem block :: l.map (fun c => cmalloc_space s.mem block c.1) := by
    rw [← c1, g1]
    rfl
  refine ⟨l, valid_traverse _ hv (Nat.le_refl _), ?_, ?_, g4, g2, c2⟩
  · rw [print_debug_gaps_valid _ hv (Nat.le_refl _), hg]
  · rw [hg, List.sum_cons, hU] at hsum
    omega

/-! ## What `cmalloc` and `cfree` write -/

/-- Insertion at the head writes the new header, the `prev` field of the old
first node and `block->first`. -/
theorem cmalloc_insert_head_frame {m : Mem} {b : Nat} {l2 : List Chunk} (n fuel : Nat)
    (hv : Valid m b l2) (hn : n < 2 ^ 64)
    (hfit : b + SIZEOF_CONTIGUOUS + SIZEOF_CNODE + n ≤ next_start l2 (get_upper_limit m b)) :
    ∃ m1, cmalloc_insert fuel m b (n : Int) (b + SIZEOF_CONTIGUOUS)
        = .ok (m1, b + SIZEOF_CONTIGUOUS + SIZEOF_CNODE) ∧
      ∀ x, ¬ (b + SIZEOF_CONTIGUOUS ≤ x ∧ x < b + SIZEOF_CONTIGUOUS + SIZEOF_CNODE) →
        ¬ (b ≤ x ∧ x < b + 8) →
        ¬ (next_start l2 0 ≠ 0 ∧ next_start l2 0 + 8 ≤ x ∧ x < next_start l2 0 + 16) →
        m1 x = m x := by
  have hU := load64_lt m (b + 8)
  change get_upper_limit m b < 2 ^ 64 at hU
  have hb := hv.block_ne
  have hstart := chain_start hv.linked
  have hgeo : ∀ y ∈ l2, b + 16 + 32 + n ≤ y.1 ∧ y.1 + 32 + y.2 ≤ get_upper_limit m b := by
    intro y hy
    have h1 := next_start_le (get_upper_limit m b) hv.sorted y hy
    have h2 := (hv.inside y hy).2
    simp only [chunk_end, SIZEOF_CNODE, SIZEOF_CONTIGUOUS] at h1 h2 hfit
    omega
  have hle : next_start l2 (get_upper_limit m b) ≤ get_upper_limit m b := by
    cases l2 with
    | nil => exact Nat.le_refl _
    | cons d r =>
      have := hgeo d (by simp)
      show d.1 ≤ _
      omega
  simp only [SIZEOF_CNODE, SIZEOF_CONTIGUOUS] at hfit ⊢
  unfold cmalloc_insert
  simp only [int_to_size_t_ofNat n hn, SIZEOF_CNODE]
  rw [add64_eq _ _ (by omega)]
  cases l2 with
  | nil =>
    change get_first m b = 0 at hstart
    change b + 16 + 32 + n ≤ get_upper_limit m b at hfit
    simp (disch := omega) only [get_first, set_first, set_nsize, set_block, set_prev, set_next,
      load64_store64_other] at hstart ⊢
    simp only [hstart, true_or, if_true, ne_eq, not_true_eq_false, if_false]
    refine ⟨_, rfl, ?_⟩
    intro x h1 h2 _
    simp (disch := omega) only [store64_outside]
  | cons d r =>
    change get_first m b = d.1 at hstart
    change b + 16 + 32 + n ≤ d.1 at hfit
    have hd := hgeo d (by simp)
    have hd0 : d.1 ≠ 0 := by omega
    simp (disch := omega) only [get_first, set_first, set_nsize, set_block, set_prev, set_next,
      load64_store64_other] at hstart ⊢
    have hlt : b + 16 < d.1 := by omega
    simp only [hstart, hlt, or_true, if_true, ne_eq, hd0, not_false_eq_true]
    refine ⟨_, rfl, ?_⟩
    intro x h1 h2 h3
    have h4 : ¬ (d.1 + 8 ≤ x ∧ x < d.1 + 16) := fun h => h3 ⟨hd0, h⟩
    simp (disch := omega) only [store64_outside]

/-- Insertion behind the node `a` writes the new header, the `next` field of
`a` and the `prev` field of the old successor of `a`. -/
theorem cmalloc_insert_after_frame {m : Mem} {b : Nat} {l1 l2 : List Chunk} {a : Chunk}
    (n fuel : Nat) (hv : Valid m b (l1 ++ a :: l2)) (hn : n < 2 ^ 64)
    (hfit : chunk_end a + SIZEOF_CNODE + n ≤ next_start l2 (get_upper_limit m b))
    (hf : l1.length ≤ fuel) :
    ∃ m1, cmalloc_insert fuel m b (n : Int) (chunk_end a)
        = .ok (m1, chunk_end a + SIZEOF_CNODE) ∧
      ∀ x, ¬ (chunk_end a ≤ x ∧ x < chunk_end a + SIZEOF_CNODE) →
        ¬ (a.1 + 16 ≤ x ∧ x < a.1 + 24) →
        ¬ (next_start l2 0 ≠ 0 ∧ next_start l2 0 + 8 ≤ x ∧ x < next_start l2 0 + 16) →
        m1 x = m x := by
  have hU := load64_lt m (b + 8)
  change get_upper_limit m b < 2 ^ 64 at hU
  have hb := hv.block_ne
  have hstart := chain_start hv.linked
  have hsort := List.pairwise_append.mp hv.sorted
  have hsort2 := List.pairwise_cons.mp hsort.2.1
  have ha := hv.inside a (by simp)
  have hg1 : ∀ x ∈ l1, b + 16 ≤ x.1 ∧ x.1 + 32 + x.2 ≤ a.1 := by
    intro x hx
    have h1 := (hv.inside x (by simp [hx])).1
    have h2 := hsort.2.2 x hx a (by simp)
    simp only [chunk_end, SIZEOF_CNODE, SIZEOF_CONTIGUOUS] at h1 h2
    omega
  have hg2 : ∀ y ∈ l2, a.1 + 32 + a.2 + 32 + n ≤ y.1 ∧
      y.1 + 32 + y.2 ≤ get_upper_limit m b := by
    intro y hy
    have h1 := next_start_le (get_upper_limit m b) hsort2.2 y hy
    have h2 := (hv.inside y (by simp [hy])).2
    simp only [chunk_end, SIZEOF_CNODE, SIZEOF_CONTIGUOUS] at h1 h2 hfit
    omega
  have hsplit : l1 ++ a :: l2 = (l1 ++ [a]) ++ l2 := by simp
  have hl := hv.linked
  rw [hsplit] at hl
  obtain ⟨mid, hl1, hl2⟩ := chain_append.mp hl
  rw [last_addr_concat] at hl2
  have hmid := chain_start hl2
  have hF0 : get_first m b ≠ 0 := by
    have := chain_start hl1
    have hne := chain_ne_zero hl1
    rw [this]
    cases l1 with
    | nil => exact hne a (by simp)
    | cons c r => exact hne c (by simp)
  have hFle : get_first m b ≤ a.1 := by
    have := chain_start hl1
    rw [this]
    cases l1 with
    | nil => exact Nat.le_refl _
    | cons c r =>
      have := hg1 c (by simp)
      show c.1 ≤ a.1
      omega
  have hanext : get_next m a.1 = mid := by
    obtain ⟨mid1, _, k2⟩ := chain_append.mp hl1
    exact k2.2.2.2.2.2
  simp only [chunk_end, SIZEOF_CNODE, SIZEOF_CONTIGUOUS] at hfit ha ⊢
  have hle : next_start l2 (get_upper_limit m b) ≤ get_upper_limit m b := by
    cases l2 with
    | nil => exact Nat.le_refl _
    | cons d r =>
      have := hg2 d (by simp)
      show d.1 ≤ _
      omega
  have hfrm4 : ∀ x ∈ l1 ++ [a], same_node m (set_next (set_prev (set_block (set_nsize m
      (a.1 + 32 + a.2) n) (a.1 + 32 + a.2) b) (a.1 + 32 + a.2) 0) (a.1 + 32 + a.2) 0) x.1 := by
    intro x hx
    have hx1 : x.1 + 32 + x.2 ≤ a.1 + 32 + a.2 := by
      rcases List.mem_append.mp hx with e | e
      · have := hg1 x e
        omega
      · rw [List.mem_singleton] at e
        subst e
        omega
    unfold same_node
    refine ⟨?_, ?_, ?_, ?_⟩ <;>
      simp (disch := omega) only [get_nsize, get_prev, get_next, get_block, set_nsize,
        set_block, set_prev, set_next, load64_store64_other]
  have hF4 : get_first (set_next (set_prev (set_block (set_nsize m
      (a.1 + 32 + a.2) n) (a.1 + 32 + a.2) b) (a.1 + 32 + a.2) 0) (a.1 + 32 + a.2) 0) b
      = get_first m b := by
    simp (disch := omega) only [get_first, set_nsize, set_block, set_prev, set_next,
      load64_store64_other]
  have hfa := @cmalloc_find_after_chain _ _ (a.1 + 32 + a.2) _ l1 _ _ _ fuel
    (chain_frame hl1 hfrm4)
    (by
      intro x hx
      rcases List.mem_append.mp hx with e | e
      · have := hg1 x e
        omega
      · rw [List.mem_singleton] at e
        subst e
        omega)
    (by
      rw [hmid]
      cases l2 with
      | nil => exact Or.inl rfl
      | cons d r =>
        have := hg2 d (by simp)
        refine Or.inr ?_
        show ¬ d.1 < _
        omega)
    hf
  unfold cmalloc_insert
  simp only [int_to_size_t_ofNat n hn, SIZEOF_CNODE, hF4]
  rw [if_neg (by omega), hfa, add64_eq _ _ (by omega)]
  simp only []
  change load64 m (a.1 + 16) = mid at hanext
  simp (disch := omega) only [get_first, get_next, set_first, set_nsize, set_block, set_prev,
    set_next, load64_store64_other, hanext]
  cases l2 with
  | nil =>
    change mid = 0 at hmid
    subst hmid
    simp only [ne_eq, not_true_eq_false, if_false]
    refine ⟨_, rfl, ?_⟩
    intro x h1 h2 _
    simp (disch := omega) only [store64_outside]
  | cons d r =>
    change mid = d.1 at hmid
    subst hmid
    have hd := hg2 d (by simp)
    have hd0 : d.1 ≠ 0 := by omega
    simp only [ne_eq, hd0, not_false_eq_true, if_true]
    refine ⟨_, rfl, ?_⟩
    intro x h1 h2 h3
    have h4 : ¬ (d.1 + 8 ≤ x ∧ x < d.1 + 16) := fun h => h3 ⟨hd0, h⟩
    simp (disch := omega) only [store64_outside]

/-- The function `cfree` on a live chunk writes `block->first` when the chunk
is the first one, else the `next` field of its predecessor, and the `prev` field
of its successor. -/
theorem cfree_frame {m : Mem} {b : Nat} {l1 l2 : List Chunk} {c : Chunk}
    (hv : Valid m b (l1 ++ c :: l2)) :
    ∀ x, ¬ (last_addr 0 l1 = 0 ∧ b ≤ x ∧ x < b + 8) →
      ¬ (last_addr 0 l1 ≠ 0 ∧ last_addr 0 l1 + 16 ≤ x ∧ x < last_addr 0 l1 + 24) →
      ¬ (next_start l2 0 ≠ 0 ∧ next_start l2 0 + 8 ≤ x ∧ x < next_start l2 0 + 16) →
      cfree m (payload c) x = m x := by
  have hU := load64_lt m (b + 8)
  change get_upper_limit m b < 2 ^ 64 at hU
  have hb := hv.block_ne
  have hsort := List.pairwise_append.mp hv.sorted
  have hsort2 := List.pairwise_cons.mp hsort.2.1
  have hc := hv.inside c (by simp)
  have hg2 : ∀ y ∈ l2, c.1 + 32 + c.2 ≤ y.1 ∧ y.1 + 32 + y.2 ≤ get_upper_limit m b := by
    intro y hy
    have h1 := hsort2.1 y hy
    have h2 := (hv.inside y (by simp [hy])).2
    simp only [chunk_end, SIZEOF_CNODE, SIZEOF_CONTIGUOUS] at h1 h2
    omega
  obtain ⟨mid, hl1, hl2⟩ := chain_append.mp hv.linked
  obtain ⟨hmid, hc0, _, hprev, hblock, hl3⟩ := hl2
  subst hmid
  have hnext := chain_start hl3
  simp only [chunk_end, SIZEOF_CNODE, SIZEOF_CONTIGUOUS] at hc
  have hp : payload c ≠ 0 := by
    simp only [payload, SIZEOF_CNODE]
    omega
  have hnode : sub64 (payload c) SIZEOF_CNODE = c.1 := by
    simp only [payload, SIZEOF_CNODE]
    rw [sub64_eq _ _ (by omega) (by omega)]
    omega
  intro x h1 h2 h3
  unfold cfree
  simp only [if_neg hp, hnode, hprev, hblock]
  change load64 m (c.1 + 16) = _ at hnext
  rcases List.eq_nil_or_concat l1 with e1 | ⟨l0, a, e1⟩
  · subst e1
    simp only [last_addr, ne_eq, not_true_eq_false, if_false]
    simp (disch := omega) only [get_next, get_prev, set_first, load64_store64_other, hnext]
    have h1a : ¬ (b ≤ x ∧ x < b + 8) := fun h => h1 ⟨rfl, h⟩
    cases l2 with
    | nil =>
      simp only [next_start, ne_eq, not_true_eq_false, if_false]
      simp (disch := omega) only [store64_outside]
    | cons d r =>
      have hd := hg2 d (by simp)
      have hd0 : d.1 ≠ 0 := by omega
      have h3a : ¬ (d.1 + 8 ≤ x ∧ x < d.1 + 16) := fun h => h3 ⟨hd0, h⟩
      simp only [next_start, ne_eq, hd0, not_false_eq_true, if_true]
      simp (disch := omega) only [set_prev, store64_outside]
  · rw [List.concat_eq_append] at e1
    subst e1
    rw [last_addr_concat] at hprev h1 h2
    have ha0 : a.1 ≠ 0 := chain_ne_zero hl1 a (by simp)
    have hac : a.1 + 32 + a.2 ≤ c.1 := by
      have := hsort.2.2 a (by simp) c (by simp)
      simpa only [chunk_end, SIZEOF_CNODE] using this
    have h2a : ¬ (a.1 + 16 ≤ x ∧ x < a.1 + 24) := fun h => h2 ⟨ha0, h⟩
    simp only [last_addr_concat, ne_eq, ha0, not_false_eq_true, if_true]
    simp (disch := omega) only [get_next, get_prev, set_next, load64_store64_other, hnext]
    cases l2 with
    | nil =>
      simp only [next_start, ne_eq, not_true_eq_false, if_false]
      simp (disch := omega) only [store64_outside]
    | cons d r =>
      have hd := hg2 d (by simp)
      have hd0 : d.1 ≠ 0 := by omega
      have h3a : ¬ (d.1 + 8 ≤ x ∧ x < d.1 + 16) := fun h => h3 ⟨hd0, h⟩
      simp only [next_start, ne_eq, hd0, not_false_eq_true, if_true]
      simp (disch := omega) only [set_prev, store64_outside]

/-- A `cmalloc` call that finds a gap: the chunk list splits at the gap, the
new node lies in the gap, the block is valid with the new chunk in between, and
only the new header and the link fields around it are written. -/
theorem cmalloc_fit_frame {m : Mem} {b : Nat} {l : List Chunk} (n fuel : Nat) (g : Nat × Nat)
    (hv : Valid m b l) (hn : n < 2 ^ 31) (hf : l.length ≤ fuel)
    (hg : first_fit (SIZEOF_CNODE + n) (gaps (b + SIZEOF_CONTIGUOUS) l
      (get_upper_limit m b)) = some g) :
    ∃ m1 l1 l2, l = l1 ++ l2 ∧ g.1 = end_of (b + SIZEOF_CONTIGUOUS) l1 ∧
      g.1 + SIZEOF_CNODE + n ≤ next_start l2 (get_upper_limit m b) ∧
      cmalloc fuel m b (n : Int) = .ok (m1, g.1 + SIZEOF_CNODE) ∧
      Valid m1 b (l1 ++ (g.1, n) :: l2) ∧
      ∀ x, ¬ (g.1 ≤ x ∧ x < g.1 + SIZEOF_CNODE) →
        ¬ (last_addr 0 l1 = 0 ∧ b ≤ x ∧ x < b + 8) →
        ¬ (last_addr 0 l1 ≠ 0 ∧ last_addr 0 l1 + 16 ≤ x ∧ x < last_addr 0 l1 + 24) →
        ¬ (next_start l2 0 ≠ 0 ∧ next_start l2 0 + 8 ≤ x ∧ x < next_start l2 0 + 16) →
        m1 x = m x := by
  have hb := hv.block_ne
  obtain ⟨l1, l2, e1, e2, e3, e4⟩ := first_fit_split _ _ _ _ _ hg
  have hg0 : g.1 ≠ 0 := by
    rw [e2]
    exact end_of_ne_zero _ _ (by simp only [SIZEOF_CONTIGUOUS]; omega)
  rw [cmalloc_unfold n fuel hv hn hf, hg]
  simp only [Option.map_some', Option.getD_some, if_neg hg0]
  subst e1
  have hfit : g.1 + SIZEOF_CNODE + n ≤ next_start l2 (get_upper_limit m b) := by
    simp only [SIZEOF_CNODE] at e4 ⊢
    omega
  rcases List.eq_nil_or_concat l1 with h1 | ⟨l0, a, h1⟩
  · subst h1
    change g.1 = b + SIZEOF_CONTIGUOUS at e2
    have hfit2 := hfit
    rw [e2] at hfit ⊢
    rw [List.nil_append] at hv ⊢
    obtain ⟨m1, k1, k2, _⟩ := cmalloc_insert_head n fuel hv (by omega) hfit
    obtain ⟨m2, j1, j2⟩ := cmalloc_insert_head_frame n fuel hv (by omega) hfit
    have hm : m2 = m1 := by
      rw [k1] at j1
      cases j1
      rfl
    subst hm
    refine ⟨m2, [], l2, rfl, rfl, hfit, k1, k2, ?_⟩
    intro x x1 x2 _ x4
    exact j2 x x1 (fun h => x2 ⟨rfl, h⟩) x4
  · rw [List.concat_eq_append] at h1
    subst h1
    rw [end_of_concat] at e2
    rw [e2] at hfit ⊢
    have hv2 : Valid m b (l0 ++ a :: l2) := by simpa using hv
    have hlen : l0.length ≤ fuel := by
      simp only [List.length_append, List.length_cons, List.length_nil] at hf
      omega
    obtain ⟨m1, k1, k2, _⟩ := cmalloc_insert_after n fuel hv2 (by omega) hfit hlen
    obtain ⟨m2, j1, j2⟩ := cmalloc_insert_after_frame n fuel hv2 (by omega) hfit hlen
    have hm : m2 = m1 := by
      rw [k1] at j1
      cases j1
      rfl
    subst hm
    have ha0 : a.1 ≠ 0 := chain_ne_zero hv.linked a (by simp)
    refine ⟨m2, l0 ++ [a], l2, rfl, (end_of_concat _ _ _).symm, hfit, k1, by simpa using k2, ?_⟩
    intro x x1 _ x3 x4
    rw [last_addr_concat] at x3
    exact j2 x x1 (fun h => x3 ⟨ha0, h⟩) x4

theorem last_addr_cases (l1 : List Chunk) (hne : ∀ c ∈ l1, c.1 ≠ 0) :
    (l1 = [] ∧ last_addr 0 l1 = 0) ∨
      ∃ d, l1.getLast? = some d ∧ last_addr 0 l1 = d.1 ∧ d.1 ≠ 0 ∧ d ∈ l1 := by
  rcases List.eq_nil_or_concat l1 with e | ⟨l0, d, e⟩
  · exact Or.inl ⟨e, by rw [e]; rfl⟩
  · rw [List.concat_eq_append] at e
    subst e
    exact Or.inr ⟨d, List.getLast?_concat _, last_addr_concat _ _ _,
      hne d (by simp), by simp⟩

theorem next_start_cases (l2 : List Chunk) :
    (l2 = [] ∧ next_start l2 0 = 0) ∨
      ∃ d, l2.head? = some d ∧ next_start l2 0 = d.1 ∧ d ∈ l2 := by
  cases l2 with
  | nil => exact Or.inl ⟨rfl, rfl⟩
  | cons d r => exact Or.inr ⟨d, rfl, rfl, by simp⟩

/-- In a sorted chunk list the payload of a chunk does not meet the header of
any chunk. -/
theorem payload_header_disjoint {l : List Chunk}
    (hs : l.Pairwise (fun c d => chunk_end c ≤ d.1)) {c d : Chunk} (hc : c ∈ l) (hd : d ∈ l)
    {x : Nat} (h1 : payload c ≤ x) (h2 : x < payload c + c.2) :
    ¬ (d.1 ≤ x ∧ x < d.1 + SIZEOF_CNODE) := by
  have hsym : l.Pairwise (fun c d => chunk_end c ≤ d.1 ∨ chunk_end d ≤ c.1) :=
    hs.imp (fun h => Or.inl h)
  have hall := List.Pairwise.forall (fun c d h => h.symm) hsym
  by_cases e : c = d
  · subst e
    simp only [payload, SIZEOF_CNODE] at h1 ⊢
    omega
  · have := hall hc hd e
    simp only [payload, chunk_end, SIZEOF_CNODE] at h1 h2 this ⊢
    omega

/-- C20: on a valid block `cmalloc` returns.  A call that returns `NULL` leaves
the memory as it was, and one that returns a pointer changes bytes only in the
header of the new node, which lies in the chosen gap, in `block->first` when
the new node is the first one, in the `next` field of its predecessor and in
the `prev` field of its successor; `cfree` of a live pointer changes bytes only
in `block->first` when the chunk is the first one, in the `next` field of its
predecessor and in the `prev` field of its successor.  So every byte in the
payload of a chunk that is live before the call has the same value after it. -/
theorem live_payloads_untouched (fuel : Nat) (m : Mem) (block : Nat) (l : List Chunk)
    (hv : Valid m block l) (hf : l.length ≤ fuel) :
    (∀ (n : Nat), n < 2 ^ 31 → ∃ r, cmalloc fuel m block (n : Int) = .ok r) ∧
    (∀ (n : Nat) (m1 : Mem) (p : Nat), n < 2 ^ 31 →
      cmalloc fuel m block (n : Int) = .ok (m1, p) →
      (p = 0 → m1 = m) ∧
      (p ≠ 0 → ∃ l1 l2, l = l1 ++ l2 ∧ SIZEOF_CNODE ≤ p ∧
        end_of (block + SIZEOF_CONTIGUOUS) l1 = p - SIZEOF_CNODE ∧
        p + n ≤ next_start l2 (get_upper_limit m block) ∧
        ∀ x, m1 x ≠ m x →
          (p - SIZEOF_CNODE ≤ x ∧ x < p) ∨
          (l1 = [] ∧ block ≤ x ∧ x < block + 8) ∨
          (∃ d, l1.getLast? = some d ∧ d.1 + 16 ≤ x ∧ x < d.1 + 24) ∨
          (∃ d, l2.head? = some d ∧ d.1 + 8 ≤ x ∧ x < d.1 + 16)) ∧
      ∀ c ∈ l, ∀ x, payload c ≤ x → x < payload c + c.2 → m1 x = m x) ∧
    (∀ (l1 l2 : List Chunk) (d : Chunk), l = l1 ++ d :: l2 →
      (∀ x, cfree m (payload d) x ≠ m x →
          (l1 = [] ∧ block ≤ x ∧ x < block + 8) ∨
          (∃ e, l1.getLast? = some e ∧ e.1 + 16 ≤ x ∧ x < e.1 + 24) ∨
          (∃ e, l2.head? = some e ∧ e.1 + 8 ≤ x ∧ x < e.1 + 16)) ∧
      ∀ c ∈ l, ∀ x, payload c ≤ x → x < payload c + c.2 →
        cfree m (payload d) x = m x) := by
  have hne := chain_ne_zero hv.linked
  refine ⟨?_, ?_, ?_⟩
  · intro n hn
    cases hg : first_fit (SIZEOF_CNODE + n) (gaps (block + SIZEOF_CONTIGUOUS) l
        (get_upper_limit m block)) with
    | none => exact ⟨_, cmalloc_nofit n fuel hv hn hf hg⟩
    | some g =>
      obtain ⟨m1, k1, _⟩ := cmalloc_fit n fuel g hv hn hf hg
      exact ⟨_, k1⟩
  · intro n m1 p hn h
    rcases cmalloc_result n fuel hv hn hf h with ⟨e0, em, _⟩ | ⟨g, _, _, hg, e1, _, _, _, _⟩
    · refine ⟨fun _ => em, fun hp => absurd e0 hp, ?_⟩
      intro c _ x _ _
      rw [em]
    · obtain ⟨m2, l1, l2, e2, e3, e4, k1, k2, fr⟩ := cmalloc_fit_frame n fuel g hv hn hf hg
      have hm : m2 = m1 := by
        rw [h] at k1
        cases k1
        rfl
      subst hm
      have hp0 : p ≠ 0 := by
        rw [e1]
        simp only [SIZEOF_CNODE]
        omega
      have hsub : p - SIZEOF_CNODE = g.1 := by
        rw [e1]
        exact Nat.add_sub_cancel _ _
      have hne1 : ∀ c ∈ l1, c.1 ≠ 0 := fun c hc => hne c (by rw [e2]; simp [hc])
      have hin1 : ∀ c ∈ l, c ∈ l1 ++ (g.1, n) :: l2 := by
        intro c hc
        rw [e2] at hc
        rcases List.mem_append.mp hc with e | e
        · simp [e]
        · simp [e]
      have hfr : ∀ x, ¬ (g.1 ≤ x ∧ x < g.1 + SIZEOF_CNODE) →
          ¬ (l1 = [] ∧ block ≤ x ∧ x < block + 8) →
          ¬ (∃ d, l1.getLast? = some d ∧ d.1 + 16 ≤ x ∧ x < d.1 + 24) →
          ¬ (∃ d, l2.head? = some d ∧ d.1 + 8 ≤ x ∧ x < d.1 + 16) → m2 x = m x := by
        intro x x1 x2 x3 x4
        refine fr x x1 ?_ ?_ ?_
        · rintro ⟨a1, a2⟩
          rcases last_addr_cases l1 hne1 with ⟨e, _⟩ | ⟨d, _, e, e0, _⟩
          · exact x2 ⟨e, a2⟩
          · exact e0 (e ▸ a1)
        · rintro ⟨a1, a2⟩
          rcases last_addr_cases l1 hne1 with ⟨_, e⟩ | ⟨d, e5, e, _, _⟩
          · exact a1 e
          · exact x3 ⟨d, e5, e ▸ a2⟩
        · rintro ⟨a1, a2⟩
          rcases next_start_cases l2 with ⟨_, e⟩ | ⟨d, e5, e, _⟩
          · exact a1 e
          · exact x4 ⟨d, e5, e ▸ a2⟩
      refine ⟨fun h0 => absurd h0 hp0, fun _ => ⟨l1, l2, e2, ?_, ?_, ?_, ?_⟩, ?_⟩
      · rw [e1]
        omega
      · rw [hsub, e3]
      · rw [e1]
        omega
      · intro x hx
        by_contra hcon
        simp only [not_or] at hcon
        obtain ⟨c1, c2, c3, c4⟩ := hcon
        refine hx (hfr x ?_ c2 c3 c4)
        rw [hsub, e1] at c1
        exact c1
      · intro c hc x h1 h2
        have hcl := hc
        rw [e2] at hcl
        refine hfr x ?_ ?_ ?_ ?_
        · exact payload_header_disjoint k2.sorted (hin1 c hc) (c := c) (d := (g.1, n))
            (by simp) h1 h2
        · rintro ⟨_, a2⟩
          have := (hv.inside c hc).1
          simp only [payload, SIZEOF_CNODE, SIZEOF_CONTIGUOUS] at h1 this
          omega
        · rintro ⟨d, e5, a2⟩
          have hd : d ∈ l := by
            rw [e2]
            exact List.mem_append_left _ (List.mem_of_mem_getLast? e5)
          have := payload_header_disjoint hv.sorted hc hd h1 h2
          simp only [SIZEOF_CNODE] at this
          omega
        · rintro ⟨d, e5, a2⟩
          have hd : d ∈ l := by
            rw [e2]
            exact List.mem_append_right _ (List.mem_of_mem_head? e5)
          have := payload_header_disjoint hv.sorted hc hd h1 h2
          simp only [SIZEOF_CNODE] at this
          omega
  · intro l1 l2 d e
    subst e
    have hne1 : ∀ c ∈ l1, c.1 ≠ 0 := fun c hc => hne c (by simp [hc])
    have hfr : ∀ x, ¬ (l1 = [] ∧ block ≤ x ∧ x < block + 8) →
        ¬ (∃ e, l1.getLast? = some e ∧ e.1 + 16 ≤ x ∧ x < e.1 + 24) →
        ¬ (∃ e, l2.head? = some e ∧ e.1 + 8 ≤ x ∧ x < e.1 + 16) →
        cfree m (payload d) x = m x := by
      intro x x2 x3 x4
      refine cfree_frame hv x ?_ ?_ ?_
      · rintro ⟨a1, a2⟩
        rcases last_addr_cases l1 hne1 with ⟨e, _⟩ | ⟨d, _, e, e0, _⟩
        · exact x2 ⟨e, a2⟩
        · exact e0 (e ▸ a1)
      · rintro ⟨a1, a2⟩
        rcases last_addr_cases l1 hne1 with ⟨_, e⟩ | ⟨d, e5, e, _, _⟩
        · exact a1 e
        · exact x3 ⟨d, e5, e ▸ a2⟩
      · rintro ⟨a1, a2⟩
        rcases next_start_cases l2 with ⟨_, e⟩ | ⟨d, e5, e, _⟩
        · exact a1 e
        · exact x4 ⟨d, e5, e ▸ a2⟩
    constructor
    · intro x hx
      by_contra hcon
      simp only [not_or] at hcon
      obtain ⟨c2, c3, c4⟩ := hcon
      exact hx (hfr x c2 c3 c4)
    · intro c hc x h1 h2
      refine hfr x ?_ ?_ ?_
      · rintro ⟨_, a2⟩
        have := (hv.inside c hc).1
        simp only [payload, SIZEOF_CNODE, SIZEOF_CONTIGUOUS] at h1 this
        omega
      · rintro ⟨e, e5, a2⟩
        have he : e ∈ l1 ++ d :: l2 :=
          List.mem_append_left _ (List.mem_of_mem_getLast? e5)
        have := payload_header_disjoint hv.sorted hc he h1 h2
        simp only [SIZEOF_CNODE] at this
        omega
      · rintro ⟨e, e5, a2⟩
        have he : e ∈ l1 ++ d :: l2 :=
          List.mem_append_right _ (List.mem_cons_of_mem _ (List.mem_of_mem_head? e5))
        have := payload_header_disjoint hv.sorted hc he h1 h2
        simp only [SIZEOF_CNODE] at this
        omega

/-! ## The dump of a payload -/

/-- For every byte but `0x7F` the loop body of `pretty_print_block` writes what
the comment above the function describes. -/
theorem print_byte_spec (c : Nat) (hc : c ≠ 0x7F) : print_byte c = escape_byte_spec c := by
  unfold print_byte escape_byte_spec
  by_cases h : 0x20 ≤ c ∧ c < 0x80 ∧ c ≠ 0x5C
  · rw [if_pos h, if_pos ⟨h.1, by omega, h.2.2⟩]
  · rw [if_neg h, if_neg (fun k => h ⟨k.1, by omega, k.2.2⟩)]

/-- The dump of the three bytes `A`, backslash, `0x07`: the first is written
as it is, the other two are escaped, and a newline follows. -/
theorem dump_escapes_text :
    val_of (pretty_print_block demo_text 4096 3) []
      = [0x41, 0x5C, 0x78, 0x35, 0x43, 0x5C, 0x78, 0x30, 0x37, 0x0A] := by
  decide!

/-- C18 fails on the byte `0x7F` (DEL), which is not a printable character:
the test `chs[i] < 0x80` of line 61 lets it through, so `pretty_print_block`
writes the byte itself and a newline, two characters, where the claim and the
comment above the function ask for the four characters `\x7F` and a newline. -/
theorem del_byte_not_escaped :
    load8 demo_del 4096 = 0x7F ∧
    is_ok (pretty_print_block demo_del 4096 1) = true ∧
    val_of (pretty_print_block demo_del 4096 1) [] = [0x7F, 0x0A] ∧
    escape_byte_spec 0x7F ++ [0x0A] = [0x5C, 0x78, 0x37, 0x46, 0x0A] ∧
    print_byte 0x7F ≠ escape_byte_spec 0x7F := by
  decide!

/-! ## The claims on concrete runs, continued -/

/-- C13 as stated fails: on the block from `make_contiguous(8)` the gap behind
the block header is computed as `2 ^ 64 - 8`, by `cmalloc` and by the dump,
which is not `8 - 16`, neither in the integers nor cut off at zero. -/
theorem fresh_gap_small_block :
    (make_contiguous zero_mem 4096 8).2 = 4096 ∧
    cmalloc_space0 (make_contiguous zero_mem 4096 8).1 4096 = 2 ^ 64 - 8 ∧
    print_debug_gap0 (make_contiguous zero_mem 4096 8).1 4096 = 2 ^ 64 - 8 ∧
    ((cmalloc_space0 (make_contiguous zero_mem 4096 8).1 4096 : Nat) : Int)
      ≠ (8 : Int) - (SIZEOF_CONTIGUOUS : Int) ∧
    cmalloc_space0 (make_contiguous zero_mem 4096 8).1 4096 ≠ 8 - SIZEOF_CONTIGUOUS := by
  decide!

/-- C13, amended, on a block of 256 bytes at address 4096. -/
theorem fresh_block_state_witness :
    (make_contiguous zero_mem 4096 256).2 = 4096 ∧
    get_first (make_contiguous zero_mem 4096 256).1 4096 = 0 ∧
    get_upper_limit (make_contiguous zero_mem 4096 256).1 4096 = 4096 + 256 ∧
    cmalloc_space0 (make_contiguous zero_mem 4096 256).1 4096
      = (2 ^ 64 + 256 - SIZEOF_CONTIGUOUS) % 2 ^ 64 ∧
    print_debug_gap0 (make_contiguous zero_mem 4096 256).1 4096
      = (2 ^ 64 + 256 - SIZEOF_CONTIGUOUS) % 2 ^ 64 ∧
    (∀ total, cmalloc_gap0 (make_contiguous zero_mem 4096 256).1 4096 total
      = if total ≤ cmalloc_space0 (make_contiguous zero_mem 4096 256).1 4096
        then 4096 + SIZEOF_CONTIGUOUS else 0) ∧
    (SIZEOF_CONTIGUOUS ≤ 256 →
      cmalloc_space0 (make_contiguous zero_mem 4096 256).1 4096 = 256 - SIZEOF_CONTIGUOUS ∧
      print_debug_gap0 (make_contiguous zero_mem 4096 256).1 4096 = 256 - SIZEOF_CONTIGUOUS ∧
      ∀ fuel, print_debug_gaps fuel (make_contiguous zero_mem 4096 256).1 4096
          = .ok [256 - SIZEOF_CONTIGUOUS] ∧
        traverse (make_contiguous zero_mem 4096 256).1 fuel
          (get_first (make_contiguous zero_mem 4096 256).1 4096) = .ok []) ∧
    (256 < SIZEOF_CONTIGUOUS →
      cmalloc_space0 (make_contiguous zero_mem 4096 256).1 4096
        = 2 ^ 64 + 256 - SIZEOF_CONTIGUOUS) :=
  fresh_block_state zero_mem 4096 256 (by decide) (by decide) (by decide)

/-- C16 as stated fails: `make_contiguous(8)` writes `upper_limit` at the
offsets 8 to 15 of the block, so the byte at offset 8, an offset that is not
below `N = 8`, is changed from 0 to 8. -/
theorem small_block_header_write :
    (make_contiguous zero_mem 4096 8).2 = 4096 ∧
    zero_mem (4096 + 8) = 0 ∧
    (make_contiguous zero_mem 4096 8).1 (4096 + 8) = 8 ∧
    (make_contiguous zero_mem 4096 8).1 (4096 + 8) ≠ zero_mem (4096 + 8) ∧
    get_upper_limit (make_contiguous zero_mem 4096 8).1 4096 = 4096 + 8 := by
  decide!

/-- C16, amended, on a block of 256 bytes at address 4096. -/
theorem sentinel_fill_witness :
    (∀ i, SIZEOF_CONTIGUOUS ≤ i → i < 256 →
      (make_contiguous zero_mem 4096 256).1 (4096 + i) = 0x24 ∧
      load8 (make_contiguous zero_mem 4096 256).1 (4096 + i) = 0x24) ∧
    (∀ a, a < 4096 ∨ 4096 + max 256 SIZEOF_CONTIGUOUS ≤ a →
      (make_contiguous zero_mem 4096 256).1 a = zero_mem a) :=
  sentinel_fill zero_mem 4096 256 (by decide) (by decide)

/-- C17 for the request size 40. -/
theorem overflow_guard_witness :
    ((add64 SIZEOF_CNODE (int_to_size_t 40) : Nat) : Int) = (SIZEOF_CNODE : Int) + 40 ∧
    (SIZEOF_CNODE : Int) + 40 < 2 ^ 64 ∧
    0 < add64 SIZEOF_CNODE (int_to_size_t 40) ∧
    ∀ (fuel : Nat) (m : Mem) (block : Nat), block ≠ 0 →
      cmalloc fuel m block 40 ≠ .error .assert_failed :=
  overflow_guard 40 (by decide) (by decide)

/-- C14 in the state `demo_holes`, for `cmalloc(block, 20)`. -/
theorem cmalloc_effect_witness :
    Valid demo_holes.mem 4096 [(4154, 20)] ∧
    ((∃ r, cmalloc 1 demo_holes.mem 4096 ((20 : Nat) : Int) = .ok r) ∧
    ∀ m1 p, cmalloc 1 demo_holes.mem 4096 ((20 : Nat) : Int) = .ok (m1, p) → p ≠ 0 →
      SIZEOF_CNODE ≤ p ∧
      ∃ l1 l2, [((4154, 20) : Chunk)] = l1 ++ l2 ∧
        traverse demo_holes.mem 1 (get_first demo_holes.mem 4096) = .ok (l1 ++ l2) ∧
        traverse m1 (1 + 1) (get_first m1 4096)
          = .ok (l1 ++ (p - SIZEOF_CNODE, 20) :: l2) ∧
        (∀ c ∈ [((4154, 20) : Chunk)], c.1 ≠ p - SIZEOF_CNODE) ∧
        get_nsize m1 (p - SIZEOF_CNODE) = 20 ∧ get_block m1 (p - SIZEOF_CNODE) = 4096 ∧
        (∀ c ∈ [((4154, 20) : Chunk)], get_nsize m1 c.1 = c.2 ∧ get_block m1 c.1 = 4096) ∧
        get_upper_limit m1 4096 = get_upper_limit demo_holes.mem 4096) :=
  ⟨by decide!, cmalloc_effect 1 demo_holes.mem 4096 [(4154, 20)] 20
    (by decide!) (by decide) (by decide)⟩

/-- C15 in the state `demo_three`, for `cfree` of the middle chunk. -/
theorem cfree_merges_gaps_witness :
    Valid demo_three.mem 4096 ([(4112, 10)] ++ (4154, 20) :: [(4206, 5)]) ∧
    ∃ pre post gL gR, pre.length = [((4112, 10) : Chunk)].length ∧
      print_debug_gaps 3 demo_three.mem 4096 = .ok (pre ++ gL :: gR :: post) ∧
      print_debug_gaps 3 (cfree demo_three.mem (payload (4154, 20))) 4096
        = .ok (pre ++ (gL + SIZEOF_CNODE + ((4154, 20) : Chunk).2 + gR) :: post) ∧
      end_of (4096 + SIZEOF_CONTIGUOUS) [(4112, 10)] + gL = ((4154, 20) : Chunk).1 ∧
      chunk_end (4154, 20) + gR = next_start [(4206, 5)] (get_upper_limit demo_three.mem 4096) ∧
      ∀ (s : Nat), s < 2 ^ 31 →
        SIZEOF_CNODE + s ≤ gL + SIZEOF_CNODE + ((4154, 20) : Chunk).2 + gR →
        (∀ g ∈ pre, g < SIZEOF_CNODE + s) →
        ∃ m2, cmalloc 3 (cfree demo_three.mem (payload (4154, 20))) 4096 (s : Int)
          = .ok (m2, end_of (4096 + SIZEOF_CONTIGUOUS) [(4112, 10)] + SIZEOF_CNODE) :=
  ⟨by decide!, cfree_merges_gaps 3 demo_three.mem 4096 [(4112, 10)] [(4206, 5)] (4154, 20)
    (by decide!) (by decide)⟩

/-- C19 on the run `cmalloc(10); cmalloc(20); cmalloc(5)` on a block of 256
bytes. -/
theorem byte_conservation_witness :
    run_ops 4 4096 (fresh zero_mem 4096 256) [.malloc 10, .malloc 20, .malloc 5]
      = .ok demo_three ∧
    ∃ l : List Chunk, traverse demo_three.mem l.length (get_first demo_three.mem 4096) = .ok l ∧
      print_debug_gaps l.length demo_three.mem 4096
        = .ok (print_debug_gap0 demo_three.mem 4096
            :: l.map (fun c => cmalloc_space demo_three.mem 4096 c.1)) ∧
      SIZEOF_CONTIGUOUS + (l.map (fun c => SIZEOF_CNODE + c.2)).sum
        + (print_debug_gap0 demo_three.mem 4096
            + (l.map (fun c => cmalloc_space demo_three.mem 4096 c.1)).sum) = 256 ∧
      (print_debug_gap0 demo_three.mem 4096 : Int) = gap0_exact demo_three.mem 4096 ∧
      cmalloc_space0 demo_three.mem 4096 = print_debug_gap0 demo_three.mem 4096 ∧
      ∀ c ∈ l,
        gapsize demo_three.mem c.1
            (if get_next demo_three.mem c.1 ≠ 0 then get_next demo_three.mem c.1
              else get_upper_limit demo_three.mem 4096)
          = .ok (cmalloc_space demo_three.mem 4096 c.1) ∧
        (cmalloc_space demo_three.mem 4096 c.1 : Int) = gapsize_exact demo_three.mem c.1
          (if get_next demo_three.mem c.1 ≠ 0 then get_next demo_three.mem c.1
            else get_upper_limit demo_three.mem 4096) :=
  ⟨ok_val_of _ _ (by decide!),
    (byte_conservation 4 zero_mem 4096 256 [.malloc 10, .malloc 20, .malloc 5]
      (by decide) (by decide) (by decide)).2 demo_three (ok_val_of _ _ (by decide!))⟩

/-- C20 in the state `demo_three`. -/
theorem live_payloads_untouched_witness :
    Valid demo_three.mem 4096 [(4112, 10), (4154, 20), (4206, 5)] ∧
    ((∀ (n : Nat), n < 2 ^ 31 → ∃ r, cmalloc 3 demo_three.mem 4096 (n : Int) = .ok r) ∧
    (∀ (n : Nat) (m1 : Mem) (p : Nat), n < 2 ^ 31 →
      cmalloc 3 demo_three.mem 4096 (n : Int) = .ok (m1, p) →
      (p = 0 → m1 = demo_three.mem) ∧
      (p ≠ 0 → ∃ l1 l2, [((4112, 10) : Chunk), (4154, 20), (4206, 5)] = l1 ++ l2 ∧
        SIZEOF_CNODE ≤ p ∧
        end_of (4096 + SIZEOF_CONTIGUOUS) l1 = p - SIZEOF_CNODE ∧
        p + n ≤ next_start l2 (get_upper_limit demo_three.mem 4096) ∧
        ∀ x, m1 x ≠ demo_three.mem x →
          (p - SIZEOF_CNODE ≤ x ∧ x < p) ∨
          (l1 = [] ∧ 4096 ≤ x ∧ x < 4096 + 8) ∨
          (∃ d, l1.getLast? = some d ∧ d.1 + 16 ≤ x ∧ x < d.1 + 24) ∨
          (∃ d, l2.head? = some d ∧ d.1 + 8 ≤ x ∧ x < d.1 + 16)) ∧
      ∀ c ∈ [((4112, 10) : Chunk), (4154, 20), (4206, 5)], ∀ x,
        payload c ≤ x → x < payload c + c.2 → m1 x = demo_three.mem x) ∧
    (∀ (l1 l2 : List Chunk) (d : Chunk),
      [((4112, 10) : Chunk), (4154, 20), (4206, 5)] = l1 ++ d :: l2 →
      (∀ x, cfree demo_three.mem (payload d) x ≠ demo_three.mem x →
          (l1 = [] ∧ 4096 ≤ x ∧ x < 4096 + 8) ∨
          (∃ e, l1.getLast? = some e ∧ e.1 + 16 ≤ x ∧ x < e.1 + 24) ∨
          (∃ e, l2.head? = some e ∧ e.1 + 8 ≤ x ∧ x < e.1 + 16)) ∧
      ∀ c ∈ [((4112, 10) : Chunk), (4154, 20), (4206, 5)], ∀ x,
        payload c ≤ x → x < payload c + c.2 →
        cfree demo_three.mem (payload d) x = demo_three.mem x)) :=
  ⟨by decide!, live_payloads_untouched 3 demo_three.mem 4096
    [(4112, 10), (4154, 20), (4206, 5)] (by decide!) (by decide)⟩

end Contiguous
